import Mathlib

set_option linter.unusedSectionVars false
set_option linter.unusedVariables false

/-!
Verification development for the `merge-insertion.py` repository
(Ford-Johnson merge-insertion sort with an externally supplied comparator).

The Python source (`src/merge_insertion/__init__.py`) is shallowly embedded
as follows:

* Items are drawn from an arbitrary type `α` with decidable equality
  (Python value equality).  The async comparator
  `Comparator : (T, T) -> Awaitable[0|1]` is embedded as a pure function
  `c : α → α → Bool`; `c a b = true` corresponds to the Python return
  value `1` ("the second item is ranked higher"), `false` to `0`.
* A computation that may raise and that may invoke the comparator is
  embedded as a pair `Except String β × List (α × α)`: the result (or the
  message of the raised exception) together with the chronological list of
  argument pairs submitted to the comparator before the computation
  finished.  This makes both comparison counts and "raised before any
  comparison" statements expressible.
* Python `int` loop variables that can become negative (the binary-search
  bounds) are embedded as `Int`; list indexing is via `List.get?`, with an
  explicit error for the (unreachable) out-of-range case.
* Python's insertion-ordered `dict[T, T]` of pairs is embedded as an
  association list `List (α × α)` in insertion order; `list(pairs)` is
  `ps.map Prod.fst` and `pairs[x]` is `dictGet ps x` (a `KeyError` becomes
  an `Except.error`).
* The 1- or 2-element Python lists used as "main chain" slots are embedded
  as `Slot α := α × Option α` (placed element, optional pending smaller
  partner); `len(slot) == 1` corresponds to `slot.2 = none`, and
  `slot.pop()` to extracting `slot.2` and leaving `(slot.1, none)`.
* `_ident_find` searches by object identity.  In every state reachable by
  the algorithm the slots have pairwise distinct placed elements, so
  identity search and structural search agree; it is embedded as a
  structural `List.findIdx?`.
-/

namespace MergeInsertion

variable {α : Type} [DecidableEq α]

/-- OEIS A014113, the group-size sequence used by `_group_sizes`:
`a(0) = 0` and `a(n) = 2^n - a(n-1)`.  The Python generator `_group_sizes`
yields `a 1, a 2, a 3, ...`; the embedding accesses the stream by index. -/
def a014113 : Nat → Nat
  | 0 => 0
  | n + 1 => 2 ^ (n + 1) - a014113 n

/-- Helper loop of `_make_groups`: `items` is the not-yet-grouped suffix of
`list(enumerate(array))` and `k` counts how many group sizes have already
been drawn from the `_group_sizes` generator.  Each round slices the next
`a014113 (k+1)` items off the front, reverses the slice and appends it;
a short (partial) slice ends the loop. -/
def makeGroupsAux (items : List (Nat × α)) (k : Nat) : List (Nat × α) :=
  if h : (items.take (a014113 (k + 1))).length < a014113 (k + 1) then
    (items.take (a014113 (k + 1))).reverse
  else
    (items.take (a014113 (k + 1))).reverse ++
      makeGroupsAux (items.drop (a014113 (k + 1))) (k + 1)
termination_by items.length
decreasing_by
  have h2 : 2 ≤ a014113 (k + 1) := by
    cases k with
    | zero => simp [a014113]
    | succ i =>
      have hub : a014113 (i + 1) ≤ 2 ^ (i + 1) :=
        le_trans (by simp only [a014113]; exact Nat.sub_le _ _) le_rfl
      have hq : (2 : Nat) ^ (i + 1 + 1) = 2 * 2 ^ (i + 1) := by ring
      have h3 : (2 : Nat) ≤ 2 ^ (i + 1) := by
        calc (2 : Nat) = 2 ^ 1 := by norm_num
        _ ≤ 2 ^ (i + 1) := Nat.pow_le_pow_right (by omega) (by omega)
      simp only [a014113]
      omega
  simp only [List.length_take] at h
  simp only [List.length_drop]
  omega

/-- `_make_groups`: tag every element with its index, then group and
reorder as in the Python `while True` loop. -/
def makeGroups (array : List α) : List (Nat × α) :=
  makeGroupsAux array.enum 0

/-- The `while left <= right` loop of `_bin_insert_index`.  Returns the
final value of `left` (the insertion index) and the comparison trace;
an out-of-range index access (unreachable for the actual call sites)
is an explicit error. -/
def binInsertLoop (array : List α) (item : α) (c : α → α → Bool)
    (left right : Int) : Except String Int × List (α × α) :=
  if left ≤ right then
    let mid : Int := left + (right - left) / 2
    match array.get? mid.toNat with
    | none => (.error "list index out of range", [])
    | some x =>
      if c item x then
        ((binInsertLoop array item c left (mid - 1)).1,
          (item, x) :: (binInsertLoop array item c left (mid - 1)).2)
      else
        ((binInsertLoop array item c (mid + 1) right).1,
          (item, x) :: (binInsertLoop array item c (mid + 1) right).2)
  else (.ok left, [])
termination_by (right + 1 - left).toNat
decreasing_by
  all_goals omega

/-- `_bin_insert_index(array, item, comp)`: binary search for the index
before which to insert `item` into the ascending `array`. -/
def binInsertIndex (array : List α) (item : α) (c : α → α → Bool) :
    Except String Nat × List (α × α) :=
  if array.isEmpty then (.ok 0, [])
  else if item ∈ array then (.error "item is already in target array", [])
  else if array.length = 1 then
    match array with
    | a0 :: _ => ((if c item a0 then .ok 0 else .ok 1), [(item, a0)])
    | [] => (.error "unreachable", [])
  else
    let p := binInsertLoop array item c 0 ((array.length : Int) - 1)
    (p.1.map Int.toNat, p.2)

/-- The pairing pass of `merge_insertion_sort` (steps 1 and 2): walk the
input two at a time, compare each pair, and record `(larger, smaller)` in
insertion order (the Python `pairs` dict keyed by the larger item).
A trailing unpaired element is skipped.  Also returns the trace. -/
def mkPairs (c : α → α → Bool) : List α → List (α × α) × List (α × α)
  | x :: y :: rest =>
    let p := mkPairs c rest
    if c x y then ((y, x) :: p.1, (x, y) :: p.2)
    else ((x, y) :: p.1, (x, y) :: p.2)
  | _ => ([], [])

/-- Lookup in the insertion-ordered association list embedding the Python
`pairs` dict; a missing key is a `KeyError`. -/
def dictGet (ps : List (α × α)) (x : α) : Except String α :=
  match ps.find? (fun p => decide (p.1 = x)) with
  | some p => .ok p.2
  | none => .error "KeyError"

/-- A main-chain slot: the placed (first) element together with the
optional still-pending smaller partner.  Embeds the Python 2-element list
`[larger, smaller]` as `(larger, some smaller)` and the 1-element list
`[item]` as `(item, none)`. -/
abbrev Slot (α : Type) := α × Option α

/-- `_ident_find(array, item)` specialised to main-chain slots.  Object
identity is embedded as structural equality (see the header comment). -/
def identFind (array : List (Slot α)) (s : Slot α) : Except String Nat :=
  match array.findIdx? (fun e => decide (e = s)) with
  | some i => .ok i
  | none => .error "failed to find item in array"

/-- The leftover singleton slot `[array[-1]]` appended to the pending
sequence when the input length is odd. -/
def leftoverSlot (array : List α) : List (Slot α) :=
  match array.getLast? with
  | some z => [(z, none)]
  | none => []

/-- The `for _, pair in _make_groups(...)` insertion loop of
`merge_insertion_sort`: process the queued slots in order, inserting each
pending element into the main chain.  A queued slot `(z, none)` is the
leftover element (Python: the only 1-element list) and is inserted against
the whole current chain; a queued slot `(la, some sm)` is located in the
chain by identity, its smaller partner `sm` is popped and inserted into
the prefix of placed elements strictly before that position. -/
def insertLoop (c : α → α → Bool) :
    List (Slot α) → List (Slot α) →
      Except String (List (Slot α)) × List (α × α)
  | [], mc => (.ok mc, [])
  | (z, none) :: qrest, mc =>
    match binInsertIndex (mc.map Prod.fst) z c with
    | (.error e, t1) => (.error e, t1)
    | (.ok idx, t1) =>
      let p := insertLoop c qrest (mc.insertIdx idx (z, none))
      (p.1, t1 ++ p.2)
  | (la, some sm) :: qrest, mc =>
    match identFind mc (la, some sm) with
    | .error e => (.error e, [])
    | .ok pairIdx =>
      match binInsertIndex ((mc.take pairIdx).map Prod.fst) sm c with
      | (.error e, t1) => (.error e, t1)
      | (.ok idx, t1) =>
        let p := insertLoop c qrest
          ((mc.set pairIdx (la, none)).insertIdx idx (sm, none))
        (p.1, t1 ++ p.2)

/-- `merge_insertion_sort(array, comparator)`: the Ford-Johnson driver.
Returns the sorted copy (or the raised error) together with the
chronological comparison trace of the whole invocation, recursive calls
included. -/
def merge_insertion_sort (c : α → α → Bool) (array : List α) :
    Except String (List α) × List (α × α) :=
  if h1 : array.length < 1 then (.ok [], [])
  else if h2 : array.length = 1 then (.ok array, [])
  else if h3 : array.dedup.length ≠ array.length then
    (.error "array may not contain duplicate items", [])
  else if h4 : array.length = 2 then
    match array with
    | x :: y :: _ => ((if c x y then .ok array else .ok [y, x]), [(x, y)])
    | _ => (.error "unreachable", [])
  else
    let ps := (mkPairs c array).1
    let tr1 := (mkPairs c array).2
    match merge_insertion_sort c (ps.map Prod.fst) with
    | (.error e, tr2) => (.error e, tr1 ++ tr2)
    | (.ok larger, tr2) =>
      match larger with
      | [] => (.error "unreachable", tr1 ++ tr2)
      | l0 :: lrest =>
        match dictGet ps l0 with
        | .error e => (.error e, tr1 ++ tr2)
        | .ok sm0 =>
          match lrest.mapM (fun la =>
              (dictGet ps la).map (fun sm => (la, some sm))) with
          | .error e => (.error e, tr1 ++ tr2)
          | .ok chainTail =>
            let mc : List (Slot α) := (sm0, none) :: (l0, none) :: chainTail
            let pending := mc.drop 2 ++
              (if array.length % 2 = 1 then leftoverSlot array else [])
            match insertLoop c ((makeGroups pending).map Prod.snd) mc with
            | (.error e, tr3) => (.error e, tr1 ++ tr2 ++ tr3)
            | (.ok mcf, tr3) => (.ok (mcf.map Prod.fst), tr1 ++ tr2 ++ tr3)
termination_by array.length
decreasing_by
  have hlen : ∀ n : Nat, ∀ l : List α, l.length ≤ n →
      (mkPairs c l).1.length = l.length / 2 := by
    intro n
    induction n with
    | zero =>
      intro l hl
      rcases l with _ | ⟨x, t⟩
      · simp [mkPairs]
      · simp at hl
    | succ m ih =>
      intro l hl
      rcases l with _ | ⟨x, _ | ⟨y, rest⟩⟩
      · simp [mkPairs]
      · simp [mkPairs]
      · have hr := ih rest (by simp only [List.length_cons] at hl; omega)
        simp only [mkPairs]
        split
        · simp only [List.length_cons, hr]
          omega
        · simp only [List.length_cons, hr]
          omega
  have hl2 := hlen array.length array le_rfl
  simp only [List.length_map, hl2]
  omega

/-- `merge_insertion_max_comparisons(n)`: the closed-form worst-case
comparison count `n*ceil(log2(3n/4)) - floor(2^floor(log2(6n))/3) +
floor(log2(6n)/2)` for `n ≥ 1`, `0` for `n = 0`, and an error for
negative `n`.  The real-valued `log2`/`ceil`/`floor` of the Python source
are embedded exactly: `ceil(log2 q)` over the positive rationals is
`Int.clog 2 q` and `floor(log2 (6n))` for `n ≥ 1` is `Nat.log 2 (6n)`
(and `floor(log2 (6n) / 2)` is Nat division of the latter by 2). -/
def merge_insertion_max_comparisons (n : Int) : Except String Int :=
  if n < 0 then .error "must specify zero or more items"
  else if n = 0 then .ok 0
  else
    .ok (n * Int.clog 2 ((3 * n : ℚ) / 4)
      - ((2 ^ Nat.log 2 (6 * n.toNat) / 3 : Nat) : Int)
      + ((Nat.log 2 (6 * n.toNat) / 2 : Nat) : Int))

/-- Proof-side observer: the element a queued slot contributes during the
insertion phase — the pending smaller partner of a pair slot, or the
placed element itself for the leftover singleton slot. -/
def itemOf (s : Slot α) : α := s.2.getD s.1

/-- Proof-side observer: two comparator invocations touch the same
unordered pair of items. -/
def sameUnordered (p q : α × α) : Prop :=
  (p.1 = q.1 ∧ p.2 = q.2) ∨ (p.1 = q.2 ∧ p.2 = q.1)

/-- Proof-side observer: no unordered pair of items is submitted to the
comparator twice in the trace. -/
def NoDupComparisons (tr : List (α × α)) : Prop :=
  tr.Pairwise (fun p q => ¬ sameUnordered p q)

/-- Proof-side observer: the smaller partner recorded for key `la` in the
pairs association list (`la` itself when the key is absent). -/
def partnerD (ps : List (α × α)) (la : α) : α :=
  match dictGet ps la with
  | .ok sm => sm
  | .error _ => la

/-- Proof-side observer: partial sums of the group-size sequence;
`tsum k` is the number of pending elements covered by the first `k`
insertion groups. -/
def tsum : Nat → Nat
  | 0 => 0
  | k + 1 => tsum k + a014113 (k + 1)

/-- Proof-side observer (helper): the 1-based insertion group holding
pending index `i`, scanning from group `k + 1` on; precondition
`tsum k ≤ i`. -/
def grpAux (i : Nat) (k : Nat) : Nat :=
  if h : i < tsum (k + 1) then k + 1 else grpAux i (k + 1)
termination_by i + 1 - tsum (k + 1)
decreasing_by
  have h2 : 2 ≤ a014113 (k + 1 + 1) := by
    have hub : a014113 (k + 1) ≤ 2 ^ (k + 1) := by
      simp only [a014113]
      exact Nat.sub_le _ _
    have hq : (2 : Nat) ^ (k + 2) = 2 * 2 ^ (k + 1) := by ring
    have h3 : (2 : Nat) ≤ 2 ^ (k + 1) := by
      calc (2 : Nat) = 2 ^ 1 := by norm_num
      _ ≤ 2 ^ (k + 1) := Nat.pow_le_pow_right (by omega) (by omega)
    simp only [a014113]
    omega
  simp only [tsum] at h ⊢
  omega

/-- Proof-side observer: the 1-based insertion group holding pending
index `i` (`tsum (grp i - 1) ≤ i < tsum (grp i)`). -/
def grp (i : Nat) : Nat := grpAux i 0

/-- Proof-side observer: the worst-case comparison count of the
insertion phase over `m` pending elements — each element of group `g`
costs at most `g + 1` comparisons. -/
def WB : Nat → Nat
  | 0 => 0
  | m + 1 => WB m + (grp m + 1)

/-- Proof-side observer: the worst-case number of comparisons merge
insertion spends on the `j`-th input element, `⌈log2 (3j/4)⌉`, in the
equivalent form `⌊log2 (6j)⌋ - 2`. -/
def wcost (j : Nat) : Nat := Nat.log 2 (6 * j) - 2

/-- Proof-side observer: `sumW n = Σ_{j ≤ n} wcost j`, the summed form
of the worst-case comparison-count formula. -/
def sumW : Nat → Nat
  | 0 => 0
  | n + 1 => sumW n + wcost (n + 1)

/-- Proof-side observer: total binary-insertion cost bound of a queue
whose entry at offset `p` carries slot-position bound `b_p`: the entry
costs at most `log2 (b_p + (j + p)) + 1` comparisons, `j` being the
number of insertions already performed. -/
def costSum : Nat → List Nat → Nat
  | _, [] => 0
  | j, b :: rest => (Nat.log 2 (b + j) + 1) + costSum (j + 1) rest

/-- Proof-side observer: the worst-case comparison count of
`merge_insertion_sort` on `n` distinct items, in recursive form:
pairing (`⌊n/2⌋`), recursion on the larger elements, and the insertion
phase over the `⌈n/2⌉ - 1` pending elements. -/
def maxCmp (n : Nat) : Nat :=
  if h1 : n < 2 then 0
  else if h2 : n = 2 then 1
  else n / 2 + maxCmp (n / 2) + WB ((n - 1) / 2)
termination_by n
decreasing_by omega

/-! ## Arithmetic facts about the group-size sequence -/

/-- `a014113 n ≤ 2 ^ n`. -/
theorem a014113_le_pow (n : Nat) : a014113 n ≤ 2 ^ n := by
  cases n with
  | zero => simp [a014113]
  | succ m =>
    have hle := Nat.sub_le (2 ^ (m + 1)) (a014113 m)
    simpa only [a014113] using hle

/-- Adjacent values of the sequence sum to the next power of two. -/
theorem a014113_add_succ (n : Nat) : a014113 n + a014113 (n + 1) = 2 ^ (n + 1) := by
  have hle := a014113_le_pow n
  have h2 : (2 : Nat) ^ (n + 1) = 2 * 2 ^ n := by ring
  have h3 : (1 : Nat) ≤ 2 ^ n := Nat.one_le_two_pow
  simp only [a014113]
  omega

/-- Each emitted group size (index ≥ 1) is at least 2. -/
theorem two_le_a014113 (n : Nat) (h : 1 ≤ n) : 2 ≤ a014113 n := by
  cases n with
  | zero => omega
  | succ m =>
    cases m with
    | zero => simp [a014113]
    | succ k =>
      have hle := a014113_le_pow (k + 1)
      have h2 : (2 : Nat) ^ (k + 1 + 1) = 2 * 2 ^ (k + 1) := by ring
      have h3 : (2 : Nat) ≤ 2 ^ (k + 1) := by
        calc (2 : Nat) = 2 ^ 1 := by norm_num
        _ ≤ 2 ^ (k + 1) := Nat.pow_le_pow_right (by omega) (by omega)
      simp only [a014113]
      omega

/-- The pairing pass hands exactly `⌊n/2⌋` pairs to the recursion. -/
theorem mkPairs_fst_length (c : α → α → Bool) :
    (l : List α) → (mkPairs c l).1.length = l.length / 2
  | [] => by simp [mkPairs]
  | [_] => by simp [mkPairs]
  | x :: y :: rest => by
    have ih := mkPairs_fst_length c rest
    simp only [mkPairs]
    split
    · simp only [List.length_cons, ih]
      omega
    · simp only [List.length_cons, ih]
      omega

/-! ## Properties of the group machinery -/

/-- `makeGroupsAux` only regroups and reorders: its output is a
permutation of its input. -/
theorem makeGroupsAux_perm (items : List (Nat × α)) (k : Nat) :
    (makeGroupsAux items k).Perm items := by
  rw [makeGroupsAux]
  split
  next h =>
    have htake : items.take (a014113 (k + 1)) = items := by
      apply List.take_of_length_le
      simp only [List.length_take] at h
      omega
    rw [htake]
    exact List.reverse_perm items
  next h =>
    have ih := makeGroupsAux_perm (items.drop (a014113 (k + 1))) (k + 1)
    have hp := List.Perm.append
      (List.reverse_perm (items.take (a014113 (k + 1)))) ih
    simpa only [List.take_append_drop] using hp
termination_by items.length
decreasing_by
  have h2 := two_le_a014113 (k + 1) (by omega)
  simp only [List.length_take, not_lt] at *
  simp only [List.length_drop]
  omega

/-- `_make_groups` output is a permutation of the index-tagged input. -/
theorem makeGroups_perm (l : List α) : (makeGroups l).Perm l.enum :=
  makeGroupsAux_perm l.enum 0

/-! ## The binary-search loop -/

/-- Core facts about the `_bin_insert_index` loop, for an arbitrary
comparator: it terminates with `.ok`, the final index lies in
`[left, right+1]`, the probed indices are pairwise distinct and lie in
`[left, right]`, no probe happens on an empty interval, and the number of
comparisons is at most `log2` of the interval size plus one. -/
theorem binInsertLoop_spec (S : List α) (item : α) (c : α → α → Bool)
    (left right : Int) (h0 : 0 ≤ left) (hlr : left ≤ right + 1)
    (hrlen : right < (S.length : Int)) :
    ∃ (i : Int) (idxs : List Nat),
      binInsertLoop S item c left right =
        (.ok i, idxs.map (fun j => (item, S.getD j item))) ∧
      left ≤ i ∧ i ≤ right + 1 ∧
      idxs.Nodup ∧
      (∀ j ∈ idxs, left ≤ (j : Int) ∧ (j : Int) ≤ right) ∧
      (¬ left ≤ right → idxs = []) ∧
      idxs.length ≤ Nat.log 2 ((right + 1 - left).toNat) + 1 := by
  by_cases hle : left ≤ right
  case neg =>
    refine ⟨left, [], ?_, le_refl _, by omega, List.nodup_nil, by simp,
      fun _ => rfl, by simp⟩
    rw [binInsertLoop, if_neg hle]
    rfl
  case pos =>
    have hmge : left ≤ left + (right - left) / 2 := by omega
    have hmle : left + (right - left) / 2 ≤ right := by omega
    have hmlen : (left + (right - left) / 2).toNat < S.length := by omega
    have hget : S.get? (left + (right - left) / 2).toNat =
        some (S.get ⟨(left + (right - left) / 2).toNat, hmlen⟩) :=
      List.get?_eq_get hmlen
    set m : Int := left + (right - left) / 2 with hm
    set x := S.get ⟨m.toNat, hmlen⟩ with hxdef
    have hxD : S.getD m.toNat item = x := by
      show (S.get? m.toNat).getD item = x
      rw [hget]
      rfl
    have hs2 : 2 ≤ ((right + 1 - left).toNat) →
        Nat.log 2 (((right + 1 - left).toNat) / 2) + 1 =
          Nat.log 2 ((right + 1 - left).toNat) :=
      fun h => (Nat.log_of_one_lt_of_le (by norm_num) h).symm
    cases hc : c item x
    case true =>
      obtain ⟨i, idxs, heq, hli, hir, hnd, hbnd, hemp, hcnt⟩ :=
        binInsertLoop_spec S item c left (m - 1) h0 (by omega) (by omega)
      refine ⟨i, m.toNat :: idxs, ?_, by omega, by omega, ?_, ?_, ?_, ?_⟩
      · rw [binInsertLoop, if_pos hle]
        simp only [← hm, hget, hc, List.map_cons, hxD, heq]
        simp
      · refine List.nodup_cons.2 ⟨fun hmem => ?_, hnd⟩
        have := (hbnd _ hmem).2
        omega
      · intro j hj
        rcases List.mem_cons.1 hj with h | h
        · subst h
          constructor <;> omega
        · have := hbnd j h
          constructor <;> omega
      · intro hcon
        exact absurd hle hcon
      · simp only [List.length_cons]
        by_cases hsub : left ≤ m - 1
        · have h1 : idxs.length ≤ Nat.log 2 ((m - 1 + 1 - left).toNat) + 1 := hcnt
          have h2 : ((m - 1 + 1 - left).toNat) ≤ ((right + 1 - left).toNat) / 2 := by
            omega
          have h3 : 2 ≤ (right + 1 - left).toNat := by omega
          have := Nat.log_mono_right (b := 2) h2
          have := hs2 h3
          omega
        · have : idxs = [] := hemp hsub
          subst this
          simp

    case false =>
      obtain ⟨i, idxs, heq, hli, hir, hnd, hbnd, hemp, hcnt⟩ :=
        binInsertLoop_spec S item c (m + 1) right (by omega) (by omega) hrlen
      refine ⟨i, m.toNat :: idxs, ?_, by omega, by omega, ?_, ?_, ?_, ?_⟩
      · rw [binInsertLoop, if_pos hle]
        simp only [← hm, hget, hc, List.map_cons, hxD, heq]
        simp
      · refine List.nodup_cons.2 ⟨fun hmem => ?_, hnd⟩
        have := (hbnd _ hmem).1
        omega
      · intro j hj
        rcases List.mem_cons.1 hj with h | h
        · subst h
          constructor <;> omega
        · have := hbnd j h
          constructor <;> omega
      · intro hcon
        exact absurd hle hcon
      · simp only [List.length_cons]
        by_cases hsub : m + 1 ≤ right
        · have h1 : idxs.length ≤ Nat.log 2 ((right + 1 - (m + 1)).toNat) + 1 := hcnt
          have h2 : ((right + 1 - (m + 1)).toNat) ≤ ((right + 1 - left).toNat) / 2 := by
            omega
          have h3 : 2 ≤ (right + 1 - left).toNat := by omega
          have := Nat.log_mono_right (b := 2) h2
          have := hs2 h3
          omega
        · have : idxs = [] := hemp hsub
          subst this
          simp
termination_by (right + 1 - left).toNat
decreasing_by
  all_goals omega

/-- Facts about `_bin_insert_index` for an arbitrary comparator and a
candidate not in the target: it succeeds, the returned index is at most
the length, the probed positions are pairwise distinct positions of `S`
(so every comparison pits `item` against a distinct element of `S`), the
empty target costs zero comparisons, a singleton target costs exactly
one, and in general at most `log2 (length) + 1` comparisons happen. -/
theorem binInsertIndex_spec (S : List α) (item : α) (c : α → α → Bool)
    (hni : item ∉ S) :
    ∃ (i : Nat) (probes : List Nat),
      binInsertIndex S item c =
        (.ok i, probes.map (fun j => (item, S.getD j item))) ∧
      i ≤ S.length ∧
      probes.Nodup ∧
      (∀ j ∈ probes, j < S.length) ∧
      (S = [] → probes = []) ∧
      (S.length = 1 → probes.length = 1) ∧
      probes.length ≤ Nat.log 2 S.length + 1 := by
  rcases S with _ | ⟨a0, _ | ⟨a1, rest⟩⟩
  · exact ⟨0, [], rfl, by simp, List.nodup_nil, by simp, fun _ => rfl,
      by simp, by simp⟩
  · refine ⟨if c item a0 then 0 else 1, [0], ?_, ?_, by simp, by simp,
      by simp, by simp, by simp [Nat.log]⟩
    · rw [binInsertIndex]
      rw [if_neg (by simp), if_neg (by simpa using hni),
        if_pos (show ([a0] : List α).length = 1 from rfl)]
      simp only [List.map_cons, List.map_nil, List.getD]
      split <;> rfl
    · split <;> simp
  · obtain ⟨i, idxs, heq, hli, hir, hnd, hbnd, hemp, hcnt⟩ :=
      binInsertLoop_spec (a0 :: a1 :: rest) item c 0
        ((a0 :: a1 :: rest).length - 1) (by omega) (by simp; omega)
        (by simp)
    refine ⟨i.toNat, idxs, ?_, by simp at hir ⊢; omega, hnd, ?_, ?_, ?_, ?_⟩
    · rw [binInsertIndex]
      rw [if_neg (by simp), if_neg (by simpa using hni), if_neg (by simp)]
      rw [heq]
      rfl
    · intro j hj
      have := (hbnd j hj).2
      simp only [List.length_cons] at this ⊢
      omega
    · intro hcon
      simp at hcon
    · intro hcon
      simp at hcon
    · refine le_trans hcnt ?_
      have hln : ((((a0 :: a1 :: rest).length : Int) - 1 + 1 - 0).toNat) =
          (a0 :: a1 :: rest).length := by
        omega
      rw [hln]

/-- The binary-search loop on a strictly ascending list, driven by the
comparator of a linear order: the invariant "everything left of `left`
is below `item`, everything right of `right` is above" is maintained,
and the final index splits the list around `item`. -/
theorem binInsertLoop_sorted {β : Type} [LinearOrder β] (S : List β)
    (item : β) (hS : S.Sorted (· < ·)) (hni : item ∉ S)
    (left right : Int) (h0 : 0 ≤ left) (hlr : left ≤ right + 1)
    (hrlen : right < (S.length : Int))
    (hL : ∀ (j : Nat) (hj : j < S.length), (j : Int) < left →
      S.get ⟨j, hj⟩ < item)
    (hR : ∀ (j : Nat) (hj : j < S.length), right < (j : Int) →
      item < S.get ⟨j, hj⟩) :
    ∃ i : Int,
      (binInsertLoop S item (fun a b => decide (a < b)) left right).1 =
        .ok i ∧
      left ≤ i ∧ i ≤ right + 1 ∧
      (∀ (j : Nat) (hj : j < S.length), (j : Int) < i →
        S.get ⟨j, hj⟩ < item) ∧
      (∀ (j : Nat) (hj : j < S.length), i ≤ (j : Int) →
        item < S.get ⟨j, hj⟩) := by
  by_cases hle : left ≤ right
  case neg =>
    refine ⟨left, ?_, le_refl _, by omega, ?_, ?_⟩
    · rw [binInsertLoop, if_neg hle]
    · intro j hj hjl
      exact hL j hj hjl
    · intro j hj hjl
      exact hR j hj (by omega)
  case pos =>
    have hmge : left ≤ left + (right - left) / 2 := by omega
    have hmle : left + (right - left) / 2 ≤ right := by omega
    have hmlen : (left + (right - left) / 2).toNat < S.length := by omega
    have hget : S.get? (left + (right - left) / 2).toNat =
        some (S.get ⟨(left + (right - left) / 2).toNat, hmlen⟩) :=
      List.get?_eq_get hmlen
    set m : Int := left + (right - left) / 2 with hm
    set x := S.get ⟨m.toNat, hmlen⟩ with hxdef
    have hxmem : x ∈ S := List.get_mem S m.toNat hmlen
    have hmono := hS.get_strictMono
    cases hc : decide (item < x)
    case true =>
      have hix : item < x := of_decide_eq_true hc
      obtain ⟨i, h1, h2, h3, h4, h5⟩ :=
        binInsertLoop_sorted S item hS hni left (m - 1) h0 (by omega)
          (by omega) hL
          (by
            intro j hj hgt
            rcases lt_trichotomy (j : Int) m with hlt | heqm | hgt2
            · omega
            · have : j = m.toNat := by omega
              subst this
              exact hix
            · have hmj : (⟨m.toNat, hmlen⟩ : Fin S.length) < ⟨j, hj⟩ := by
                simp only [Fin.mk_lt_mk]
                omega
              exact lt_trans hix (hmono hmj))
      refine ⟨i, ?_, by omega, by omega, h4, h5⟩
      rw [binInsertLoop, if_pos hle]
      simp only [← hm, hget, hc]
      simpa using h1
    case false =>
      have hxi : x < item := by
        have hxle : ¬ item < x := of_decide_eq_false hc
        have hne : x ≠ item := fun h => hni (h ▸ hxmem)
        exact lt_of_le_of_ne (le_of_not_lt hxle) hne
      obtain ⟨i, h1, h2, h3, h4, h5⟩ :=
        binInsertLoop_sorted S item hS hni (m + 1) right (by omega)
          (by omega) hrlen
          (by
            intro j hj hlt
            rcases lt_trichotomy (j : Int) m with hlt2 | heqm | hgt2
            · have hmj : (⟨j, hj⟩ : Fin S.length) < ⟨m.toNat, hmlen⟩ := by
                simp only [Fin.mk_lt_mk]
                omega
              exact lt_trans (hmono hmj) hxi
            · have : j = m.toNat := by omega
              subst this
              exact hxi
            · omega)
          hR
      refine ⟨i, ?_, by omega, by omega, h4, h5⟩
      rw [binInsertLoop, if_pos hle]
      simp only [← hm, hget, hc]
      simpa using h1
termination_by (right + 1 - left).toNat
decreasing_by
  all_goals omega

/-- For a strictly ascending list, insertion at index `i ≤ length` yields
an ascending list exactly when position `i` splits the list around the
inserted item: everything before is smaller, everything from `i` on is
larger. -/
theorem sorted_insertIdx_iff {β : Type} [LinearOrder β] (item : β) :
    ∀ (S : List β), S.Sorted (· < ·) → ∀ i : Nat, i ≤ S.length →
      ((S.insertIdx i item).Sorted (· < ·) ↔
        ((∀ (j : Nat) (hj : j < S.length), j < i → S.get ⟨j, hj⟩ < item) ∧
         (∀ (j : Nat) (hj : j < S.length), i ≤ j → item < S.get ⟨j, hj⟩)))
  | [], _, 0, _ => by
    simp only [List.insertIdx_zero]
    constructor
    · intro _
      exact ⟨fun j hj _ => absurd hj (by simp), fun j hj _ => absurd hj (by simp)⟩
    · intro _
      exact List.sorted_singleton item
  | [], _, i + 1, hlen => by simp at hlen
  | a :: t, hS, 0, _ => by
    rw [List.insertIdx_zero, List.sorted_cons]
    constructor
    · rintro ⟨hall, _⟩
      exact ⟨fun j hj hlt => by omega,
        fun j hj _ => hall _ (List.get_mem _ j hj)⟩
    · rintro ⟨_, hup⟩
      refine ⟨fun b hb => ?_, hS⟩
      obtain ⟨⟨j, hj⟩, rfl⟩ := List.mem_iff_get.1 hb
      exact hup j hj (by omega)
  | a :: t, hS, i + 1, hlen => by
    have htS : t.Sorted (· < ·) := (List.sorted_cons.1 hS).2
    have haT : ∀ b ∈ t, a < b := (List.sorted_cons.1 hS).1
    have hilen : i ≤ t.length := by
      simp only [List.length_cons] at hlen
      omega
    have ih := sorted_insertIdx_iff item t htS i hilen
    rw [List.insertIdx_succ_cons, List.sorted_cons]
    constructor
    · rintro ⟨hmem, hsorted⟩
      obtain ⟨h1, h2⟩ := ih.1 hsorted
      constructor
      · intro j hj hji
        cases j with
        | zero =>
          exact hmem item ((List.mem_insertIdx hilen).2 (Or.inl rfl))
        | succ k =>
          exact h1 k (by simpa using hj) (by omega)
      · intro j hj hij
        cases j with
        | zero => omega
        | succ k =>
          exact h2 k (by simpa using hj) (by omega)
    · rintro ⟨hlt, hgt⟩
      refine ⟨fun b hb => ?_, ih.2 ⟨?_, ?_⟩⟩
      · rcases (List.mem_insertIdx hilen).1 hb with h | h
        · subst h
          exact hlt 0 (by simp) (by omega)
        · exact haT b h
      · intro j hj hji
        exact hlt (j + 1) (by simpa using hj) (by omega)
      · intro j hj hij
        exact hgt (j + 1) (by simpa using hj) (by omega)

/-- The splitting index around an item is unique. -/
theorem split_index_unique {β : Type} [LinearOrder β] (S : List β)
    (item : β) (i j : Nat) (hi : i ≤ S.length) (hj : j ≤ S.length)
    (hsi : (∀ (k : Nat) (hk : k < S.length), k < i → S.get ⟨k, hk⟩ < item) ∧
      (∀ (k : Nat) (hk : k < S.length), i ≤ k → item < S.get ⟨k, hk⟩))
    (hsj : (∀ (k : Nat) (hk : k < S.length), k < j → S.get ⟨k, hk⟩ < item) ∧
      (∀ (k : Nat) (hk : k < S.length), j ≤ k → item < S.get ⟨k, hk⟩)) :
    i = j := by
  by_contra hne
  rcases Nat.lt_or_ge i j with hij | hij
  · have hk : i < S.length := by omega
    have h1 := hsj.1 i hk hij
    have h2 := hsi.2 i hk (le_refl i)
    exact absurd h1 (not_lt_of_lt h2)
  · have hji : j < i := by omega
    have hk : j < S.length := by omega
    have h1 := hsi.1 j hk hji
    have h2 := hsj.2 j hk (le_refl j)
    exact absurd h1 (not_lt_of_lt h2)

/-! ## Claim theorems (group sizes, groups, comparison-bound formula) -/

/-- C7: the group-size generator emits `a(1), a(2), …` of the sequence
defined by `a(0) = 0`, `a(n) = 2^n − a(n−1)`; in particular
`g(1) = g(2) = 2`, every emitted value is a positive integer, and the
first 10 emitted values are 2, 2, 6, 10, 22, 42, 86, 170, 342, 682. -/
theorem c7_group_sizes :
    a014113 0 = 0 ∧
    (∀ n : Nat, (a014113 (n + 1) : Int) = 2 ^ (n + 1) - a014113 n) ∧
    a014113 1 = 2 ∧ a014113 2 = 2 ∧
    (∀ n : Nat, 1 ≤ n → 0 < a014113 n) ∧
    (List.range 10).map (fun i => a014113 (i + 1)) =
      [2, 2, 6, 10, 22, 42, 86, 170, 342, 682] := by
  refine ⟨rfl, ?_, by decide, by decide, ?_, by decide⟩
  · intro n
    have hle : a014113 n ≤ 2 ^ (n + 1) :=
      le_trans (a014113_le_pow n) (Nat.pow_le_pow_right (by omega) (by omega))
    rw [show a014113 (n + 1) = 2 ^ (n + 1) - a014113 n by simp [a014113],
      Nat.cast_sub hle]
    push_cast
    ring
  · intro n hn
    have := two_le_a014113 n hn
    omega

/-- C7 witness: the positivity clause of `c7_group_sizes` at `n = 5`. -/
theorem c7_group_sizes_witness : 0 < a014113 5 :=
  c7_group_sizes.2.2.2.2.1 5 (by norm_num)

/-- C8 counterexample: the claim `g(2k−1) + g(2k) = 2^(k+1)` fails at
`k = 2`, where `g(3) + g(4) = 6 + 10 = 16 ≠ 2^3 = 8`. -/
theorem c8_counterexample :
    a014113 (2 * 2 - 1) + a014113 (2 * 2) ≠ 2 ^ (2 + 1) := by decide

/-- C8 (amended): for every `k ≥ 1`, the sum of the two adjacent emitted
group sizes `g(k) + g(k+1)` equals `2^(k+1)`. -/
theorem c8_adjacent_sums (k : Nat) :
    a014113 (k + 1) + a014113 (k + 1 + 1) = 2 ^ (k + 1 + 1) :=
  a014113_add_succ (k + 1)

/-- Evaluation helper: `Nat.clog 2` at a concrete value. -/
theorem natClog2_eval : Nat.clog 2 2 = 1 ∧ Nat.clog 2 3 = 2 ∧
    Nat.clog 2 4 = 2 ∧ Nat.clog 2 5 = 3 ∧ Nat.clog 2 6 = 3 ∧
    Nat.clog 2 7 = 3 ∧ Nat.clog 2 8 = 3 := by
  refine ⟨?_, ?_, ?_, ?_, ?_, ?_, ?_⟩ <;>
    simp [Nat.clog_of_two_le, Nat.clog_of_right_le_one]

/-- Evaluation helper: `Nat.log 2` at a concrete value. -/
theorem natLog2_eval : Nat.log 2 1 = 0 ∧ Nat.log 2 6 = 2 ∧
    Nat.log 2 12 = 3 ∧ Nat.log 2 18 = 4 ∧ Nat.log 2 24 = 4 ∧
    Nat.log 2 30 = 4 ∧ Nat.log 2 36 = 5 ∧ Nat.log 2 42 = 5 ∧
    Nat.log 2 48 = 5 ∧ Nat.log 2 54 = 5 ∧ Nat.log 2 60 = 5 := by
  refine ⟨?_, ?_, ?_, ?_, ?_, ?_, ?_, ?_, ?_, ?_, ?_⟩ <;>
    simp [Nat.log_of_one_lt_of_le, Nat.log_of_lt]

/-- C5: `merge_insertion_max_comparisons` errors on every negative
argument, returns 0 at 0, and takes the closed-form values
0, 1, 3, 5, 7, 10, 13, 16, 19, 22 at `n = 1..10`. -/
theorem c5_max_comparisons :
    (∀ n : Int, n < 0 → merge_insertion_max_comparisons n =
      .error "must specify zero or more items") ∧
    merge_insertion_max_comparisons 0 = .ok 0 ∧
    merge_insertion_max_comparisons 1 = .ok 0 ∧
    merge_insertion_max_comparisons 2 = .ok 1 ∧
    merge_insertion_max_comparisons 3 = .ok 3 ∧
    merge_insertion_max_comparisons 4 = .ok 5 ∧
    merge_insertion_max_comparisons 5 = .ok 7 ∧
    merge_insertion_max_comparisons 6 = .ok 10 ∧
    merge_insertion_max_comparisons 7 = .ok 13 ∧
    merge_insertion_max_comparisons 8 = .ok 16 ∧
    merge_insertion_max_comparisons 9 = .ok 19 ∧
    merge_insertion_max_comparisons 10 = .ok 22 := by
  have hgen : ∀ n : Int, n < 0 → merge_insertion_max_comparisons n =
      .error "must specify zero or more items" := by
    intro n hn
    simp only [merge_insertion_max_comparisons, if_pos hn]
  have h0 : merge_insertion_max_comparisons 0 = .ok 0 := by
    rw [merge_insertion_max_comparisons, if_neg (by norm_num), if_pos rfl]
  have h1 : merge_insertion_max_comparisons 1 = .ok 0 := by
    rw [merge_insertion_max_comparisons, if_neg (by norm_num),
      if_neg (by norm_num),
      show ((3 * ((1 : Int) : ℚ)) / 4) = (3 / 4 : ℚ) by norm_num,
      Int.clog_of_right_le_one _ (by norm_num),
      show ((3 / 4 : ℚ))⁻¹ = (4 / 3 : ℚ) by norm_num,
      show (⌊(4 / 3 : ℚ)⌋₊ : ℕ) = 1 from by
        rw [Nat.floor_eq_iff (by norm_num)]
        norm_num,
      natLog2_eval.1,
      show (6 * (1 : Int).toNat) = 6 from by decide,
      natLog2_eval.2.1]
    norm_num
  have h2 : merge_insertion_max_comparisons 2 = .ok 1 := by
    rw [merge_insertion_max_comparisons, if_neg (by norm_num),
      if_neg (by norm_num),
      show ((3 * ((2 : Int) : ℚ)) / 4) = (3 / 2 : ℚ) by norm_num,
      Int.clog_of_one_le_right _ (by norm_num),
      show (⌈(3 / 2 : ℚ)⌉₊ : ℕ) = 2 from by
        rw [Nat.ceil_eq_iff (by norm_num)]
        norm_num,
      natClog2_eval.1,
      show (6 * (2 : Int).toNat) = 12 from by decide,
      natLog2_eval.2.2.1]
    norm_num
  have h3 : merge_insertion_max_comparisons 3 = .ok 3 := by
    rw [merge_insertion_max_comparisons, if_neg (by norm_num),
      if_neg (by norm_num),
      show ((3 * ((3 : Int) : ℚ)) / 4) = (9 / 4 : ℚ) by norm_num,
      Int.clog_of_one_le_right _ (by norm_num),
      show (⌈(9 / 4 : ℚ)⌉₊ : ℕ) = 3 from by
        rw [Nat.ceil_eq_iff (by norm_num)]
        norm_num,
      natClog2_eval.2.1,
      show (6 * (3 : Int).toNat) = 18 from by decide,
      natLog2_eval.2.2.2.1]
    norm_num
  have h4 : merge_insertion_max_comparisons 4 = .ok 5 := by
    rw [merge_insertion_max_comparisons, if_neg (by norm_num),
      if_neg (by norm_num),
      show ((3 * ((4 : Int) : ℚ)) / 4) = (3 : ℚ) by norm_num,
      Int.clog_of_one_le_right _ (by norm_num),
      show (⌈(3 : ℚ)⌉₊ : ℕ) = 3 from by
        rw [Nat.ceil_eq_iff (by norm_num)]
        norm_num,
      natClog2_eval.2.1,
      show (6 * (4 : Int).toNat) = 24 from by decide,
      natLog2_eval.2.2.2.2.1]
    norm_num
  have h5 : merge_insertion_max_comparisons 5 = .ok 7 := by
    rw [merge_insertion_max_comparisons, if_neg (by norm_num),
      if_neg (by norm_num),
      show ((3 * ((5 : Int) : ℚ)) / 4) = (15 / 4 : ℚ) by norm_num,
      Int.clog_of_one_le_right _ (by norm_num),
      show (⌈(15 / 4 : ℚ)⌉₊ : ℕ) = 4 from by
        rw [Nat.ceil_eq_iff (by norm_num)]
        norm_num,
      natClog2_eval.2.2.1,
      show (6 * (5 : Int).toNat) = 30 from by decide,
      natLog2_eval.2.2.2.2.2.1]
    norm_num
  have h6 : merge_insertion_max_comparisons 6 = .ok 10 := by
    rw [merge_insertion_max_comparisons, if_neg (by norm_num),
      if_neg (by norm_num),
      show ((3 * ((6 : Int) : ℚ)) / 4) = (9 / 2 : ℚ) by norm_num,
      Int.clog_of_one_le_right _ (by norm_num),
      show (⌈(9 / 2 : ℚ)⌉₊ : ℕ) = 5 from by
        rw [Nat.ceil_eq_iff (by norm_num)]
        norm_num,
      natClog2_eval.2.2.2.1,
      show (6 * (6 : Int).toNat) = 36 from by decide,
      natLog2_eval.2.2.2.2.2.2.1]
    norm_num
  have h7 : merge_insertion_max_comparisons 7 = .ok 13 := by
    rw [merge_insertion_max_comparisons, if_neg (by norm_num),
      if_neg (by norm_num),
      show ((3 * ((7 : Int) : ℚ)) / 4) = (21 / 4 : ℚ) by norm_num,
      Int.clog_of_one_le_right _ (by norm_num),
      show (⌈(21 / 4 : ℚ)⌉₊ : ℕ) = 6 from by
        rw [Nat.ceil_eq_iff (by norm_num)]
        norm_num,
      natClog2_eval.2.2.2.2.1,
      show (6 * (7 : Int).toNat) = 42 from by decide,
      natLog2_eval.2.2.2.2.2.2.2.1]
    norm_num
  have h8 : merge_insertion_max_comparisons 8 = .ok 16 := by
    rw [merge_insertion_max_comparisons, if_neg (by norm_num),
      if_neg (by norm_num),
      show ((3 * ((8 : Int) : ℚ)) / 4) = (6 : ℚ) by norm_num,
      Int.clog_of_one_le_right _ (by norm_num),
      show (⌈(6 : ℚ)⌉₊ : ℕ) = 6 from by
        rw [Nat.ceil_eq_iff (by norm_num)]
        norm_num,
      natClog2_eval.2.2.2.2.1,
      show (6 * (8 : Int).toNat) = 48 from by decide,
      natLog2_eval.2.2.2.2.2.2.2.2.1]
    norm_num
  have h9 : merge_insertion_max_comparisons 9 = .ok 19 := by
    rw [merge_insertion_max_comparisons, if_neg (by norm_num),
      if_neg (by norm_num),
      show ((3 * ((9 : Int) : ℚ)) / 4) = (27 / 4 : ℚ) by norm_num,
      Int.clog_of_one_le_right _ (by norm_num),
      show (⌈(27 / 4 : ℚ)⌉₊ : ℕ) = 7 from by
        rw [Nat.ceil_eq_iff (by norm_num)]
        norm_num,
      natClog2_eval.2.2.2.2.2.1,
      show (6 * (9 : Int).toNat) = 54 from by decide,
      natLog2_eval.2.2.2.2.2.2.2.2.2.1]
    norm_num
  have h10 : merge_insertion_max_comparisons 10 = .ok 22 := by
    rw [merge_insertion_max_comparisons, if_neg (by norm_num),
      if_neg (by norm_num),
      show ((3 * ((10 : Int) : ℚ)) / 4) = (15 / 2 : ℚ) by norm_num,
      Int.clog_of_one_le_right _ (by norm_num),
      show (⌈(15 / 2 : ℚ)⌉₊ : ℕ) = 8 from by
        rw [Nat.ceil_eq_iff (by norm_num)]
        norm_num,
      natClog2_eval.2.2.2.2.2.2,
      show (6 * (10 : Int).toNat) = 60 from by decide,
      natLog2_eval.2.2.2.2.2.2.2.2.2.2]
    norm_num
  exact ⟨hgen, h0, h1, h2, h3, h4, h5, h6, h7, h8, h9, h10⟩

/-- C5 witness: the negative-argument clause of `c5_max_comparisons`
applied at `n = -1`. -/
theorem c5_max_comparisons_witness :
    merge_insertion_max_comparisons (-1) =
      .error "must specify zero or more items" :=
  c5_max_comparisons.1 (-1) (by norm_num)

/-- C4: `_make_groups` returns a permutation of the index-tagged input
(every input element appears exactly once, with its original position),
so the output length equals the input length; the empty input yields the
empty output; and the reference 12-element example
`y3,…,y12,y21,y22 ↦ y4,y3, y6,y5, y12,…,y7, y22,y21` is reproduced. -/
theorem c4_make_groups :
    (∀ l : List α, (makeGroups l).Perm l.enum) ∧
    (∀ l : List α, ((makeGroups l).map Prod.snd).Perm l) ∧
    (∀ l : List α, (makeGroups l).length = l.length) ∧
    makeGroups ([] : List α) = [] ∧
    makeGroups [3, 4, 5, 6, 7, 8, 9, 10, 11, 12, 21, 22] =
      [(1, 4), (0, 3), (3, 6), (2, 5), (9, 12), (8, 11), (7, 10), (6, 9),
        (5, 8), (4, 7), (11, 22), (10, 21)] := by
  refine ⟨makeGroups_perm, ?_, ?_, ?_, ?_⟩
  · intro l
    have h := (makeGroups_perm l).map Prod.snd
    rwa [List.enum_map_snd] at h
  · intro l
    have h := (makeGroups_perm l).length_eq
    rwa [List.enum_length] at h
  · show makeGroupsAux [] 0 = []
    rw [makeGroupsAux]
    simp [a014113]
  · simp [makeGroups, makeGroupsAux, a014113, List.enum, List.enumFrom]

/-- C3: on a strictly ascending target `S` not containing the candidate,
`_bin_insert_index` driven by the order comparator returns the unique
index whose insertion keeps `S` ascending; the empty target returns 0
with zero comparisons; a singleton target performs exactly one comparison
and returns 0 or 1 according to its outcome. -/
theorem c3_bin_insert_index {β : Type} [LinearOrder β] [DecidableEq β] :
    (∀ (S : List β) (item : β), S.Sorted (· < ·) → item ∉ S →
      ∃ (i : Nat) (tr : List (β × β)),
        binInsertIndex S item (fun a b => decide (a < b)) = (.ok i, tr) ∧
        i ≤ S.length ∧
        (S.insertIdx i item).Sorted (· < ·) ∧
        (∀ j : Nat, j ≤ S.length →
          (S.insertIdx j item).Sorted (· < ·) → j = i)) ∧
    (∀ (item : β) (c : β → β → Bool),
      binInsertIndex ([] : List β) item c = (.ok 0, [])) ∧
    (∀ (x item : β) (c : β → β → Bool), item ≠ x →
      binInsertIndex [x] item c =
        ((if c item x then .ok 0 else .ok 1), [(item, x)])) := by
  refine ⟨?_, fun item c => rfl, ?_⟩
  · intro S item hS hni
    rcases S with _ | ⟨a0, _ | ⟨a1, rest⟩⟩
    · refine ⟨0, [], rfl, by simp, ?_, fun j hj _ => by simpa using hj⟩
      simpa using List.sorted_singleton item
    · have hne : item ≠ a0 := by simpa using hni
      have heqn : binInsertIndex [a0] item (fun a b => decide (a < b)) =
          ((if decide (item < a0) then Except.ok 0 else Except.ok 1),
            [(item, a0)]) := by
        rw [binInsertIndex, if_neg (by simp), if_neg (by simpa using hni),
          if_pos (show ([a0] : List β).length = 1 from rfl)]
      cases hcmp : decide (item < a0)
      case false =>
        have hgt : a0 < item :=
          lt_of_le_of_ne (le_of_not_lt (of_decide_eq_false hcmp))
            (fun h => hne h.symm)
        have hs1 : ∀ (k : Nat) (hk : k < ([a0] : List β).length), k < 1 →
            ([a0] : List β).get ⟨k, hk⟩ < item := by
          intro k hk _
          interval_cases k
          · exact hgt
        have hs2 : ∀ (k : Nat) (hk : k < ([a0] : List β).length), 1 ≤ k →
            item < ([a0] : List β).get ⟨k, hk⟩ := by
          intro k hk hk1
          simp only [List.length_singleton] at hk
          omega
        refine ⟨1, [(item, a0)], by rw [heqn, hcmp]; rfl, by simp, ?_, ?_⟩
        · exact (sorted_insertIdx_iff item [a0] hS 1 (by simp)).2 ⟨hs1, hs2⟩
        · intro j hj hsort
          exact split_index_unique [a0] item j 1 hj (by simp)
            ((sorted_insertIdx_iff item [a0] hS j hj).1 hsort) ⟨hs1, hs2⟩
      case true =>
        have hlt : item < a0 := of_decide_eq_true hcmp
        have hs1 : ∀ (k : Nat) (hk : k < ([a0] : List β).length), k < 0 →
            ([a0] : List β).get ⟨k, hk⟩ < item := by
          intro k hk hk0
          omega
        have hs2 : ∀ (k : Nat) (hk : k < ([a0] : List β).length), 0 ≤ k →
            item < ([a0] : List β).get ⟨k, hk⟩ := by
          intro k hk _
          have hk0 : k = 0 := by simpa [Nat.lt_one_iff] using hk
          subst hk0
          exact hlt
        refine ⟨0, [(item, a0)], by rw [heqn, hcmp]; rfl, by simp, ?_, ?_⟩
        · exact (sorted_insertIdx_iff item [a0] hS 0 (by simp)).2 ⟨hs1, hs2⟩
        · intro j hj hsort
          exact split_index_unique [a0] item j 0 hj (by simp)
            ((sorted_insertIdx_iff item [a0] hS j hj).1 hsort) ⟨hs1, hs2⟩
    · obtain ⟨bigI, h1, hli, hir, h4, h5⟩ :=
        binInsertLoop_sorted (a0 :: a1 :: rest) item hS hni 0
          (((a0 :: a1 :: rest).length : Int) - 1) (by omega)
          (by simp; omega) (by simp)
          (by
            intro j hj hcon
            exact absurd hcon (by omega))
          (by
            intro j hj hcon
            exact absurd hcon (by simp at hj ⊢; omega))
      have hbig0 : 0 ≤ bigI := hli
      have hsplit1 : ∀ (k : Nat) (hk : k < (a0 :: a1 :: rest).length),
          k < bigI.toNat → (a0 :: a1 :: rest).get ⟨k, hk⟩ < item := by
        intro k hk hkl
        exact h4 k hk (by omega)
      have hsplit2 : ∀ (k : Nat) (hk : k < (a0 :: a1 :: rest).length),
          bigI.toNat ≤ k → item < (a0 :: a1 :: rest).get ⟨k, hk⟩ := by
        intro k hk hkl
        exact h5 k hk (by omega)
      have hilen : bigI.toNat ≤ (a0 :: a1 :: rest).length := by
        simp only [List.length_cons] at hir ⊢
        omega
      refine ⟨bigI.toNat,
        (binInsertLoop (a0 :: a1 :: rest) item (fun a b => decide (a < b))
          0 (((a0 :: a1 :: rest).length : Int) - 1)).2, ?_, hilen, ?_, ?_⟩
      · rw [binInsertIndex,
          if_neg (by simp), if_neg (by simpa using hni), if_neg (by simp)]
        show (Except.map Int.toNat (binInsertLoop _ item _ 0 _).1, _) = _
        rw [h1]
        rfl
      · exact (sorted_insertIdx_iff item _ hS _ hilen).2 ⟨hsplit1, hsplit2⟩
      · intro j hj hsort
        exact split_index_unique _ item j bigI.toNat hj hilen
          ((sorted_insertIdx_iff item _ hS j hj).1 hsort) ⟨hsplit1, hsplit2⟩
  · intro x item c hne
    rw [binInsertIndex,
      if_neg (by simp), if_neg (by simpa using hne),
      if_pos (show ([x] : List β).length = 1 from rfl)]

/-- C3 witness: insert 2 into the ascending list `[1, 3]` over `ℤ`. -/
theorem c3_bin_insert_index_witness :
    ∃ (i : Nat) (tr : List (Int × Int)),
      binInsertIndex [1, 3] 2 (fun a b => decide (a < b)) = (.ok i, tr) ∧
      i ≤ ([1, 3] : List Int).length ∧
      (([1, 3] : List Int).insertIdx i 2).Sorted (· < ·) ∧
      (∀ j : Nat, j ≤ ([1, 3] : List Int).length →
        (([1, 3] : List Int).insertIdx j 2).Sorted (· < ·) → j = i) :=
  c3_bin_insert_index.1 [1, 3] 2 (by decide) (by decide)

/-- C10: for a nonempty target of length `m` not containing the
candidate, `_bin_insert_index` makes at most `⌊log₂ m⌋ + 1` comparator
calls whatever the comparator answers, and exactly one call when
`m = 1`. -/
theorem c10_bin_insert_comparisons :
    (∀ (S : List α) (item : α) (c : α → α → Bool), item ∉ S →
      1 ≤ S.length →
      ∃ (i : Nat) (tr : List (α × α)),
        binInsertIndex S item c = (.ok i, tr) ∧
        tr.length ≤ Nat.log 2 S.length + 1) ∧
    (∀ (S : List α) (item : α) (c : α → α → Bool), item ∉ S →
      S.length = 1 →
      ∃ (i : Nat) (tr : List (α × α)),
        binInsertIndex S item c = (.ok i, tr) ∧ tr.length = 1) := by
  constructor
  · intro S item c hni hlen
    obtain ⟨i, probes, heq, _, _, _, _, _, hcnt⟩ :=
      binInsertIndex_spec S item c hni
    exact ⟨i, _, heq, by simpa using hcnt⟩
  · intro S item c hni hlen
    obtain ⟨i, probes, heq, _, _, _, _, h1, _⟩ :=
      binInsertIndex_spec S item c hni
    exact ⟨i, _, heq, by simpa using h1 hlen⟩

/-- C10 witness: inserting 6 into `[5, 7]` with a constant comparator
costs at most `⌊log₂ 2⌋ + 1 = 2` comparisons. -/
theorem c10_bin_insert_comparisons_witness :
    ∃ (i : Nat) (tr : List (Nat × Nat)),
      binInsertIndex [5, 7] 6 (fun _ _ => true) = (.ok i, tr) ∧
      tr.length ≤ Nat.log 2 ([5, 7] : List Nat).length + 1 :=
  c10_bin_insert_comparisons.1 [5, 7] 6 (fun _ _ => true) (by decide)
    (by decide)

/-! ## Infrastructure for the driver proofs -/

/-- Mapping commutes with positional insertion. -/
theorem mapInsertIdx {γ δ : Type} (f : γ → δ) :
    ∀ (n : Nat) (x : γ) (l : List γ),
      (l.insertIdx n x).map f = (l.map f).insertIdx n (f x)
  | 0, x, l => by simp [List.insertIdx_zero]
  | n + 1, x, [] => by simp [List.insertIdx_succ_nil]
  | n + 1, x, a :: t => by
    rw [List.insertIdx_succ_cons, List.map_cons, mapInsertIdx f n x t,
      List.map_cons, List.insertIdx_succ_cons]

/-- `findIdx?` with the structural-equality predicate finds an occurrence
of a member, and the found position holds that member. -/
theorem findIdxStructural {γ : Type} [DecidableEq γ] :
    ∀ (mc : List γ) (s : γ) (k : Nat), s ∈ mc →
    ∃ (i : Nat) (hi : i < mc.length),
      List.findIdx? (fun e => decide (e = s)) mc k = some (k + i) ∧
      mc.get ⟨i, hi⟩ = s
  | [], s, k, h => by simp at h
  | a :: t, s, k, h => by
    rw [List.findIdx?_cons]
    by_cases ha : a = s
    · refine ⟨0, by simp, ?_, by simpa using ha⟩
      simp [ha]
    · have hst : s ∈ t := by
        rcases List.mem_cons.1 h with h1 | h1
        · exact absurd h1.symm ha
        · exact h1
      obtain ⟨i, hi, heq, hget⟩ := findIdxStructural t s (k + 1) hst
      refine ⟨i + 1, by simpa using hi, ?_, by simpa using hget⟩
      rw [if_neg (by simpa using ha), heq]
      congr 1
      omega

/-- `identFind` on a member returns a valid position holding it. -/
theorem identFind_spec (mc : List (Slot α)) (s : Slot α) (hmem : s ∈ mc) :
    ∃ (i : Nat) (hi : i < mc.length),
      identFind mc s = .ok i ∧ mc.get ⟨i, hi⟩ = s := by
  obtain ⟨i, hi, heq, hget⟩ := findIdxStructural mc s 0 hmem
  refine ⟨i, hi, ?_, hget⟩
  rw [identFind, heq]
  simp

/-- A member distinct from the overwritten entry survives `set`. -/
theorem mem_set_of_ne {γ : Type} (mc : List γ) (n : Nat) (b : γ) (s : γ)
    (hmem : s ∈ mc) (hn : n < mc.length) (hne : s ≠ mc.get ⟨n, hn⟩) :
    s ∈ mc.set n b := by
  obtain ⟨⟨j, hj⟩, hget⟩ := List.mem_iff_get.1 hmem
  have hjn : j ≠ n := by
    intro h
    subst h
    exact hne (hget ▸ rfl)
  have hj2 : j < (mc.set n b).length := by simpa using hj
  have : (mc.set n b).get ⟨j, hj2⟩ = s := by
    simp only [List.get_eq_getElem, List.getElem_set]
    rw [if_neg (fun h => hjn h.symm)]
    simpa [List.get_eq_getElem] using hget
  exact this ▸ List.get_mem _ _ _

/-- Overwriting a slot's pending part leaves the placed elements. -/
theorem map_fst_set (mc : List (Slot α)) (n : Nat) (la : α)
    (o' : Option α) (hn : n < mc.length) (hfst : (mc.get ⟨n, hn⟩).1 = la) :
    (mc.set n (la, o')).map Prod.fst = mc.map Prod.fst := by
  apply List.ext_getElem
  · simp
  · intro i h1 h2
    simp only [List.getElem_map, List.getElem_set]
    split
    next h =>
      subst h
      simpa [List.get_eq_getElem] using hfst.symm
    next h => rfl

/-- Dictionary lookup of a present key (first-match semantics). -/
theorem dictGet_ok (ps : List (α × α)) (la : α) (hla : la ∈ ps.map Prod.fst) :
    dictGet ps la = .ok (partnerD ps la) ∧
    (la, partnerD ps la) ∈ ps := by
  induction ps with
  | nil => simp at hla
  | cons pr rest ih =>
    by_cases h : pr.1 = la
    · have hfind : (pr :: rest).find? (fun p => decide (p.1 = la)) =
          some pr := by
        rw [List.find?_cons_of_pos]
        simpa using h
      constructor
      · rw [dictGet, hfind, partnerD, dictGet, hfind]
      · rw [partnerD, dictGet, hfind]
        have hpr : (la, pr.2) = pr := by
          rw [← h]
        rw [show (match some pr with
            | some p => Except.ok p.2
            | none => (Except.error "KeyError" : Except String α)) =
            Except.ok pr.2 from rfl]
        rw [hpr]
        exact List.mem_cons_self _ _
    · have hmem : la ∈ rest.map Prod.fst := by
        rcases List.mem_map.1 hla with ⟨q, hq, hql⟩
        rcases List.mem_cons.1 hq with h1 | h1
        · exact absurd (h1 ▸ hql) h
        · exact List.mem_map.2 ⟨q, h1, hql⟩
      have hfind : (pr :: rest).find? (fun p => decide (p.1 = la)) =
          rest.find? (fun p => decide (p.1 = la)) := by
        rw [List.find?_cons_of_neg]
        simpa using h
      obtain ⟨ih1, ih2⟩ := ih hmem
      have hpd : partnerD (pr :: rest) la = partnerD rest la := by
        rw [partnerD, partnerD, dictGet, dictGet, hfind]
      constructor
      · rw [dictGet, hfind, hpd]
        rw [dictGet] at ih1
        exact ih1
      · rw [hpd]
        exact List.mem_cons.2 (Or.inr ih2)

/-- With pairwise distinct keys, the recorded partner of each key is its
associated value. -/
theorem partnerD_entry (ps : List (α × α)) (hkeys : (ps.map Prod.fst).Nodup)
    (la sm : α) (hmem : (la, sm) ∈ ps) : partnerD ps la = sm := by
  have hla : la ∈ ps.map Prod.fst := List.mem_map.2 ⟨(la, sm), hmem, rfl⟩
  obtain ⟨_, hent⟩ := dictGet_ok ps la hla
  -- two entries with the same key coincide because the keys are distinct
  obtain ⟨⟨i, hi⟩, hgi⟩ := List.mem_iff_get.1 hent
  obtain ⟨⟨j, hj⟩, hgj⟩ := List.mem_iff_get.1 hmem
  have hi2 : i < (ps.map Prod.fst).length := by simpa using hi
  have hj2 : j < (ps.map Prod.fst).length := by simpa using hj
  have hkey : (ps.map Prod.fst).get ⟨i, hi2⟩ =
      (ps.map Prod.fst).get ⟨j, hj2⟩ := by
    have e1 : (ps.map Prod.fst).get ⟨i, hi2⟩ = (ps.get ⟨i, hi⟩).1 := by
      simp [List.get_eq_getElem]
    have e2 : (ps.map Prod.fst).get ⟨j, hj2⟩ = (ps.get ⟨j, hj⟩).1 := by
      simp [List.get_eq_getElem]
    rw [e1, e2, hgi, hgj]
  have hij : (⟨i, hi2⟩ : Fin (ps.map Prod.fst).length) = ⟨j, hj2⟩ :=
    (List.Nodup.get_inj_iff hkeys).1 hkey
  have hijv : i = j := by simpa using congrArg Fin.val hij
  subst hijv
  have hps := hgi.symm.trans hgj
  exact (Prod.mk.injEq _ _ _ _ ▸ hps).2

/-- `mapM` of the chain-tail construction succeeds on keys of the pairs
list and produces the slots with the recorded partners. -/
theorem mapM_chainTail (ps : List (α × α)) :
    ∀ (L : List α), (∀ la ∈ L, la ∈ ps.map Prod.fst) →
    L.mapM (fun la => (dictGet ps la).map (fun sm => (la, some sm))) =
      .ok (L.map (fun la => (la, some (partnerD ps la))))
  | [], _ => rfl
  | la :: rest, h => by
    have h1 := (dictGet_ok ps la (h la (List.mem_cons_self la rest))).1
    have h2 := mapM_chainTail ps rest
      (fun x hx => h x (List.mem_cons.2 (Or.inr hx)))
    rw [List.mapM_cons, h1, h2]
    rfl

/-- Tier-1 facts about the insertion loop, for an arbitrary comparator.
Hypotheses: every queued pair slot is still present in the chain, and the
placed elements of the chain together with the queued items are pairwise
distinct.  Conclusions: the loop succeeds; the final placed elements are,
as a multiset, the initial ones plus all queued items; no unordered pair
of items is compared twice; and every comparison pits a queued item
against either an initial placed element or another queued item, never
against itself nor — for a pair slot — against its own larger partner. -/
theorem insertLoop_spec (c : α → α → Bool) :
    ∀ (queue mc : List (Slot α)),
    (∀ s ∈ queue, s.2.isSome = true → s ∈ mc) →
    (mc.map Prod.fst ++ queue.map itemOf).Nodup →
    ∃ (mcf : List (Slot α)) (tr : List (α × α)),
      insertLoop c queue mc = (.ok mcf, tr) ∧
      (mcf.map Prod.fst).Perm (mc.map Prod.fst ++ queue.map itemOf) ∧
      NoDupComparisons tr ∧
      (∀ p ∈ tr, ∃ s ∈ queue, p.1 = itemOf s ∧
        (p.2 ∈ mc.map Prod.fst ∨ p.2 ∈ queue.map itemOf) ∧
        p.2 ≠ p.1 ∧
        (∀ sm : α, s.2 = some sm → p.2 ≠ s.1))
  | [], mc, _, _ => ⟨mc, [], rfl, by simp, List.Pairwise.nil, by simp⟩
  | (z, none) :: qrest, mc, hmem, hnd => by
    have hitems : ((z, none) :: qrest).map itemOf =
        z :: qrest.map itemOf := by
      simp [itemOf]
    rw [hitems] at hnd
    have hndparts := List.nodup_append.1 hnd
    have hzq : z ∉ qrest.map itemOf := by
      have := hndparts.2.1
      exact (List.nodup_cons.1 this).1
    have hznm : z ∉ mc.map Prod.fst := fun hz =>
      hndparts.2.2 hz (List.mem_cons_self _ _)
    obtain ⟨idx, probes, heqB, hidx, hpnd, hplt, _, _, _⟩ :=
      binInsertIndex_spec (mc.map Prod.fst) z c hznm
    have hidxle : idx ≤ mc.length := by simpa using hidx
    -- the new chain
    have hmapins : (mc.insertIdx idx (z, none)).map Prod.fst =
        (mc.map Prod.fst).insertIdx idx z := mapInsertIdx _ _ _ _
    have hpermins : ((mc.insertIdx idx (z, none)).map Prod.fst).Perm
        (z :: mc.map Prod.fst) := by
      rw [hmapins]
      exact List.perm_insertIdx z _ (by simpa using hidxle)
    have hpermtot :
        ((mc.insertIdx idx (z, none)).map Prod.fst ++ qrest.map itemOf).Perm
          (mc.map Prod.fst ++ z :: qrest.map itemOf) := by
      refine List.Perm.trans (List.Perm.append hpermins (List.Perm.refl _)) ?_
      exact List.Perm.symm List.perm_middle
    have hmem2 : ∀ s ∈ qrest, s.2.isSome = true →
        s ∈ mc.insertIdx idx (z, none) := by
      intro s hs hsome
      have := hmem s (List.mem_cons.2 (Or.inr hs)) hsome
      exact (List.mem_insertIdx hidxle).2 (Or.inr this)
    have hnd2 : ((mc.insertIdx idx (z, none)).map Prod.fst ++
        qrest.map itemOf).Nodup :=
      (List.Perm.nodup_iff hpermtot).2 hnd
    obtain ⟨mcf, trR, heqR, hpermR, hndR, hshapeR⟩ :=
      insertLoop_spec c qrest (mc.insertIdx idx (z, none)) hmem2 hnd2
    -- facts about the probe trace
    have hprobe_val : ∀ j ∈ probes,
        (mc.map Prod.fst).getD j z ∈ mc.map Prod.fst := by
      intro j hj
      rw [List.getD_eq_get _ z (hplt j hj)]
      exact List.get_mem _ _ _
    refine ⟨mcf, probes.map (fun j => (z, (mc.map Prod.fst).getD j z)) ++ trR,
      ?_, ?_, ?_, ?_⟩
    · simp only [insertLoop, heqB, heqR]
    · refine hpermR.trans ?_
      rw [hitems]
      exact hpermtot
    · rw [NoDupComparisons, List.pairwise_append]
      refine ⟨?_, hndR, ?_⟩
      · rw [List.pairwise_map]
        refine List.Pairwise.imp_of_mem ?_ hpnd
        intro j k hj hk hjk hsame
        rcases hsame with ⟨_, h2⟩ | ⟨h1, h2⟩
        · simp only at h2
          rw [List.getD_eq_get _ z (hplt j hj),
            List.getD_eq_get _ z (hplt k hk)] at h2
          have := (List.Nodup.get_inj_iff hndparts.1).1 h2
          exact hjk (by simpa using congrArg Fin.val this)
        · simp only at h1
          exact hznm (h1 ▸ hprobe_val k hk)
      · intro p hp q hq hsame
        obtain ⟨j, hj, hpj⟩ := List.mem_map.1 hp
        obtain ⟨s2, hs2, hq1, _, _, _⟩ := hshapeR q hq
        have hq1mem : q.1 ∈ qrest.map itemOf :=
          hq1 ▸ List.mem_map.2 ⟨s2, hs2, rfl⟩
        have hp1 : p.1 = z := by rw [← hpj]
        have hp2 : p.2 = (mc.map Prod.fst).getD j z := by rw [← hpj]
        rcases hsame with ⟨h1, _⟩ | ⟨_, h2⟩
        · rw [hp1] at h1
          rw [← h1] at hq1mem
          exact hzq hq1mem
        · rw [hp2] at h2
          exact hndparts.2.2 (h2 ▸ hprobe_val j hj)
            (List.mem_cons.2 (Or.inr hq1mem))
    · intro p hp
      rcases List.mem_append.1 hp with hp1 | hp2
      · obtain ⟨j, hj, hpj⟩ := List.mem_map.1 hp1
        refine ⟨(z, none), List.mem_cons_self _ _, ?_, ?_, ?_, ?_⟩
        · rw [← hpj]
          rfl
        · rw [← hpj]
          exact Or.inl (hprobe_val j hj)
        · rw [← hpj]
          simp only
          intro hcon
          exact hznm (hcon ▸ hprobe_val j hj)
        · intro sm hsm
          cases hsm
      · obtain ⟨s2, hs2, hq1, hq2, hqne, hqla⟩ := hshapeR p hp2
        refine ⟨s2, List.mem_cons.2 (Or.inr hs2), hq1, ?_, hqne, hqla⟩
        rcases hq2 with h | h
        · have := (List.Perm.mem_iff hpermins).1 h
          rcases List.mem_cons.1 this with h1 | h1
          · right
            rw [hitems, h1]
            exact List.mem_cons_self _ _
          · exact Or.inl h1
        · right
          rw [hitems]
          exact List.mem_cons.2 (Or.inr h)
  | (la, some sm) :: qrest, mc, hmem, hnd => by
    have hitems : ((la, some sm) :: qrest).map itemOf =
        sm :: qrest.map itemOf := by
      simp [itemOf]
    rw [hitems] at hnd
    have hndparts := List.nodup_append.1 hnd
    have hsq : sm ∉ qrest.map itemOf := (List.nodup_cons.1 hndparts.2.1).1
    have hsnm : sm ∉ mc.map Prod.fst := fun hz =>
      hndparts.2.2 hz (List.mem_cons_self _ _)
    -- locate the slot
    have hslot : (la, some sm) ∈ mc :=
      hmem _ (List.mem_cons_self _ _) rfl
    obtain ⟨pairIdx, hpi, heqI, hgetI⟩ := identFind_spec mc (la, some sm) hslot
    have hlaval : (mc.map Prod.fst).get ⟨pairIdx, by simpa using hpi⟩ = la := by
      simp only [List.get_eq_getElem, List.getElem_map]
      have : mc[pairIdx] = (la, some sm) := by
        simpa [List.get_eq_getElem] using hgetI
      rw [this]
    -- the prefix searched
    have hprefTake : (mc.take pairIdx).map Prod.fst =
        (mc.map Prod.fst).take pairIdx := List.map_take _ _ _
    have hprefsub : ∀ v ∈ (mc.take pairIdx).map Prod.fst,
        v ∈ mc.map Prod.fst := by
      intro v hv
      rw [hprefTake] at hv
      exact List.mem_of_mem_take hv
    have hsnp : sm ∉ (mc.take pairIdx).map Prod.fst := fun hv =>
      hsnm (hprefsub _ hv)
    obtain ⟨idx, probes, heqB, hidx, hpnd, hplt, _, _, _⟩ :=
      binInsertIndex_spec ((mc.take pairIdx).map Prod.fst) sm c hsnp
    have hprefnd : ((mc.take pairIdx).map Prod.fst).Nodup := by
      rw [hprefTake]
      exact hndparts.1.sublist (List.take_sublist _ _)
    have hprefle : ((mc.take pairIdx).map Prod.fst).length ≤ pairIdx := by
      simp [List.length_take]
    have hidxle : idx ≤ mc.length := by
      have := le_trans hidx hprefle
      omega
    -- probes land strictly before the slot, so never on `la`
    have hprobe_val : ∀ j ∈ probes,
        ((mc.take pairIdx).map Prod.fst).getD j sm ∈ mc.map Prod.fst := by
      intro j hj
      rw [List.getD_eq_get _ sm (hplt j hj)]
      exact hprefsub _ (List.get_mem _ _ _)
    have hprobe_ne_la : ∀ j ∈ probes,
        ((mc.take pairIdx).map Prod.fst).getD j sm ≠ la := by
      intro j hj hcon
      have hjlt := hplt j hj
      have hjp : j < pairIdx := lt_of_lt_of_le hjlt hprefle
      have hjm : j < (mc.map Prod.fst).length := by
        simp only [List.length_map]
        omega
      have hvget : ((mc.take pairIdx).map Prod.fst).getD j sm =
          (mc.map Prod.fst).get ⟨j, hjm⟩ := by
        rw [List.getD_eq_get _ sm hjlt]
        simp only [List.get_eq_getElem, List.getElem_map, List.getElem_take]
      rw [hvget] at hcon
      rw [← hlaval] at hcon
      have := (List.Nodup.get_inj_iff hndparts.1).1 hcon
      have : j = pairIdx := by simpa using congrArg Fin.val this
      omega
    -- the new chain
    have hslotne : ∀ s ∈ qrest, s ≠ (la, some sm) := by
      intro s hs hcon
      apply hsq
      rw [show sm = itemOf s by rw [hcon]; rfl]
      exact List.mem_map.2 ⟨s, hs, rfl⟩
    have hmapset : (mc.set pairIdx (la, none)).map Prod.fst =
        mc.map Prod.fst :=
      map_fst_set mc pairIdx la none hpi (by rw [hgetI])
    have hsetlen : (mc.set pairIdx (la, none)).length = mc.length := by
      simp
    have hmapins : (((mc.set pairIdx (la, none)).insertIdx idx
        (sm, none)).map Prod.fst) =
        (mc.map Prod.fst).insertIdx idx sm := by
      rw [mapInsertIdx, hmapset]
    have hpermins : ((((mc.set pairIdx (la, none)).insertIdx idx
        (sm, none))).map Prod.fst).Perm (sm :: mc.map Prod.fst) := by
      rw [hmapins]
      exact List.perm_insertIdx sm _ (by simpa using hidxle)
    have hpermtot :
        ((((mc.set pairIdx (la, none)).insertIdx idx
          (sm, none))).map Prod.fst ++ qrest.map itemOf).Perm
          (mc.map Prod.fst ++ sm :: qrest.map itemOf) := by
      refine List.Perm.trans (List.Perm.append hpermins (List.Perm.refl _)) ?_
      exact List.Perm.symm List.perm_middle
    have hmem2 : ∀ s ∈ qrest, s.2.isSome = true →
        s ∈ (mc.set pairIdx (la, none)).insertIdx idx (sm, none) := by
      intro s hs hsome
      have h1 : s ∈ mc := hmem s (List.mem_cons.2 (Or.inr hs)) hsome
      have h2 : s ∈ mc.set pairIdx (la, none) := by
        refine mem_set_of_ne mc pairIdx (la, none) s h1 hpi ?_
        rw [hgetI]
        exact hslotne s hs
      exact (List.mem_insertIdx (by omega)).2 (Or.inr h2)
    have hnd2 : ((((mc.set pairIdx (la, none)).insertIdx idx
        (sm, none))).map Prod.fst ++ qrest.map itemOf).Nodup :=
      (List.Perm.nodup_iff hpermtot).2 hnd
    obtain ⟨mcf, trR, heqR, hpermR, hndR, hshapeR⟩ :=
      insertLoop_spec c qrest
        ((mc.set pairIdx (la, none)).insertIdx idx (sm, none)) hmem2 hnd2
    refine ⟨mcf,
      probes.map (fun j => (sm, ((mc.take pairIdx).map Prod.fst).getD j sm))
        ++ trR, ?_, ?_, ?_, ?_⟩
    · simp only [insertLoop, heqI, heqB, heqR]
    · refine hpermR.trans ?_
      rw [hitems]
      exact hpermtot
    · rw [NoDupComparisons, List.pairwise_append]
      refine ⟨?_, hndR, ?_⟩
      · rw [List.pairwise_map]
        refine List.Pairwise.imp_of_mem ?_ hpnd
        intro j k hj hk hjk hsame
        rcases hsame with ⟨_, h2⟩ | ⟨h1, h2⟩
        · simp only at h2
          rw [List.getD_eq_get _ sm (hplt j hj),
            List.getD_eq_get _ sm (hplt k hk)] at h2
          have := (List.Nodup.get_inj_iff hprefnd).1 h2
          exact hjk (by simpa using congrArg Fin.val this)
        · simp only at h1
          exact hsnm (h1 ▸ hprobe_val k hk)
      · intro p hp q hq hsame
        obtain ⟨j, hj, hpj⟩ := List.mem_map.1 hp
        obtain ⟨s2, hs2, hq1, _, _, _⟩ := hshapeR q hq
        have hq1mem : q.1 ∈ qrest.map itemOf :=
          hq1 ▸ List.mem_map.2 ⟨s2, hs2, rfl⟩
        have hp1 : p.1 = sm := by rw [← hpj]
        have hp2 : p.2 = ((mc.take pairIdx).map Prod.fst).getD j sm := by
          rw [← hpj]
        rcases hsame with ⟨h1, _⟩ | ⟨_, h2⟩
        · rw [hp1] at h1
          rw [← h1] at hq1mem
          exact hsq hq1mem
        · rw [hp2] at h2
          exact hndparts.2.2 (h2 ▸ hprobe_val j hj)
            (List.mem_cons.2 (Or.inr hq1mem))
    · intro p hp
      rcases List.mem_append.1 hp with hp1 | hp2
      · obtain ⟨j, hj, hpj⟩ := List.mem_map.1 hp1
        refine ⟨(la, some sm), List.mem_cons_self _ _, ?_, ?_, ?_, ?_⟩
        · rw [← hpj]
          rfl
        · rw [← hpj]
          exact Or.inl (hprobe_val j hj)
        · rw [← hpj]
          simp only
          intro hcon
          exact hsnm (hcon ▸ hprobe_val j hj)
        · intro sm2 hsm2
          have : sm2 = sm := by
            simpa using hsm2.symm
          subst this
          rw [← hpj]
          simp only
          exact hprobe_ne_la j hj
      · obtain ⟨s2, hs2, hq1, hq2, hqne, hqla⟩ := hshapeR p hp2
        refine ⟨s2, List.mem_cons.2 (Or.inr hs2), hq1, ?_, hqne, hqla⟩
        rcases hq2 with h | h
        · have := (List.Perm.mem_iff hpermins).1 h
          rcases List.mem_cons.1 this with h1 | h1
          · right
            rw [hitems, h1]
            exact List.mem_cons_self _ _
          · exact Or.inl h1
        · right
          rw [hitems]
          exact List.mem_cons.2 (Or.inr h)

/-- The multiset of items is preserved by the pairing pass: larger
elements, smaller elements, and the leftover (for odd length) together
are a permutation of the input. -/
theorem mkPairs_perm (c : α → α → Bool) :
    ∀ l : List α,
      ((mkPairs c l).1.map Prod.fst ++ ((mkPairs c l).1.map Prod.snd ++
        (if l.length % 2 = 1 then l.getLast?.toList else []))).Perm l
  | [] => by simp [mkPairs]
  | [x] => by simp [mkPairs]
  | x :: y :: rest => by
    have ih := mkPairs_perm c rest
    have hLO : (if (x :: y :: rest).length % 2 = 1 then
        (x :: y :: rest).getLast?.toList else []) =
        (if rest.length % 2 = 1 then rest.getLast?.toList else []) := by
      rcases Nat.mod_two_eq_zero_or_one rest.length with h1 | h1
      · have hc1 : ¬ ((x :: y :: rest).length % 2 = 1) := by
          simp only [List.length_cons]
          omega
        have hc2 : ¬ (rest.length % 2 = 1) := by omega
        rw [if_neg hc1, if_neg hc2]
      · have h2 : (x :: y :: rest).length % 2 = 1 := by
          simp only [List.length_cons]
          omega
        have hne : rest ≠ [] := by
          intro hcon
          subst hcon
          simp at h1
        rw [if_pos h2, if_pos h1]
        congr 1
        rcases rest with _ | ⟨r, rrest⟩
        · exact absurd rfl hne
        · rw [List.getLast?_cons_cons, List.getLast?_cons_cons]
    have key : ∀ big small : α,
        ((big = x ∧ small = y) ∨ (big = y ∧ small = x)) →
        ((big :: (mkPairs c rest).1.map Prod.fst) ++
          (small :: ((mkPairs c rest).1.map Prod.snd ++
            (if rest.length % 2 = 1 then rest.getLast?.toList
              else [])))).Perm (x :: y :: rest) := by
      intro big small hbs
      have step1 : ((big :: (mkPairs c rest).1.map Prod.fst) ++
          (small :: ((mkPairs c rest).1.map Prod.snd ++
            (if rest.length % 2 = 1 then rest.getLast?.toList
              else [])))).Perm
          (big :: small :: ((mkPairs c rest).1.map Prod.fst ++
            ((mkPairs c rest).1.map Prod.snd ++
              (if rest.length % 2 = 1 then rest.getLast?.toList
                else [])))) := by
        rw [List.cons_append]
        exact List.Perm.cons big List.perm_middle
      refine step1.trans ?_
      have step2 : (big :: small :: ((mkPairs c rest).1.map Prod.fst ++
          ((mkPairs c rest).1.map Prod.snd ++
            (if rest.length % 2 = 1 then rest.getLast?.toList
              else [])))).Perm (big :: small :: rest) :=
        (ih.cons small).cons big
      refine step2.trans ?_
      rcases hbs with ⟨h1, h2⟩ | ⟨h1, h2⟩
      · rw [h1, h2]
      · rw [h1, h2]
        exact List.Perm.swap x y rest
    simp only [mkPairs]
    split
    · simpa only [List.map_cons, hLO] using key y x (Or.inr ⟨rfl, rfl⟩)
    · simpa only [List.map_cons, hLO] using key x y (Or.inl ⟨rfl, rfl⟩)

/-- Both components of every comparison of the pairing pass are input
elements. -/
theorem mkPairs_trace_mem (c : α → α → Bool) :
    ∀ l : List α, ∀ p ∈ (mkPairs c l).2, p.1 ∈ l ∧ p.2 ∈ l
  | [] => by simp [mkPairs]
  | [x] => by simp [mkPairs]
  | x :: y :: rest => by
    intro p hp
    have hsh : p ∈ ((x, y) :: (mkPairs c rest).2) := by
      revert hp
      simp only [mkPairs]
      split <;> exact id
    rcases List.mem_cons.1 hsh with h | h
    · subst h
      constructor
      · exact List.mem_cons_self _ _
      · exact List.mem_cons.2 (Or.inr (List.mem_cons_self _ _))
    · obtain ⟨h1, h2⟩ := mkPairs_trace_mem c rest p h
      constructor
      · exact List.mem_cons.2 (Or.inr (List.mem_cons.2 (Or.inr h1)))
      · exact List.mem_cons.2 (Or.inr (List.mem_cons.2 (Or.inr h2)))

/-- On an input without duplicates, the pairing pass never submits the
same unordered pair twice (its comparisons use pairwise disjoint
two-element sets). -/
theorem mkPairs_trace_nodup (c : α → α → Bool) :
    ∀ l : List α, l.Nodup → NoDupComparisons (mkPairs c l).2
  | [] , _ => by simp [mkPairs, NoDupComparisons]
  | [x], _ => by simp [mkPairs, NoDupComparisons]
  | x :: y :: rest, hnd => by
    have hx : x ∉ rest := by
      have := (List.nodup_cons.1 hnd).1
      intro hcon
      exact this (List.mem_cons.2 (Or.inr hcon))
    have hy : y ∉ rest := (List.nodup_cons.1 ((List.nodup_cons.1 hnd).2)).1
    have hrest : rest.Nodup := (List.nodup_cons.1 ((List.nodup_cons.1 hnd).2)).2
    have ih := mkPairs_trace_nodup c rest hrest
    have hsh : (mkPairs c (x :: y :: rest)).2 =
        ((x, y) :: (mkPairs c rest).2) := by
      simp only [mkPairs]
      split <;> rfl
    rw [NoDupComparisons, hsh]
    refine List.Pairwise.cons ?_ ih
    intro q hq hsame
    obtain ⟨hq1, hq2⟩ := mkPairs_trace_mem c rest q hq
    rcases hsame with ⟨h1, _⟩ | ⟨h1, _⟩
    · simp only at h1
      exact hx (h1 ▸ hq1)
    · simp only at h1
      exact hx (h1 ▸ hq2)

/-- Every comparison of the pairing pass touches exactly the two members
of one recorded pair. -/
theorem mkPairs_trace_pairs (c : α → α → Bool) :
    ∀ l : List α, ∀ p ∈ (mkPairs c l).2,
      ∃ pr ∈ (mkPairs c l).1, sameUnordered p pr
  | [] => by simp [mkPairs]
  | [x] => by simp [mkPairs]
  | x :: y :: rest => by
    intro p hp
    by_cases hc : c x y
    · have hps : (mkPairs c (x :: y :: rest)).1 =
          ((y, x) :: (mkPairs c rest).1) := by
        simp only [mkPairs, if_pos hc]
      have htr : (mkPairs c (x :: y :: rest)).2 =
          ((x, y) :: (mkPairs c rest).2) := by
        simp only [mkPairs, if_pos hc]
      rw [htr] at hp
      rw [hps]
      rcases List.mem_cons.1 hp with h | h
      · subst h
        exact ⟨(y, x), List.mem_cons_self _ _, Or.inr ⟨rfl, rfl⟩⟩
      · obtain ⟨pr, hpr, hsame⟩ := mkPairs_trace_pairs c rest p h
        exact ⟨pr, List.mem_cons.2 (Or.inr hpr), hsame⟩
    · have hps : (mkPairs c (x :: y :: rest)).1 =
          ((x, y) :: (mkPairs c rest).1) := by
        simp only [mkPairs, if_neg hc]
      have htr : (mkPairs c (x :: y :: rest)).2 =
          ((x, y) :: (mkPairs c rest).2) := by
        simp only [mkPairs, if_neg hc]
      rw [htr] at hp
      rw [hps]
      rcases List.mem_cons.1 hp with h | h
      · subst h
        exact ⟨(x, y), List.mem_cons_self _ _, Or.inl ⟨rfl, rfl⟩⟩
      · obtain ⟨pr, hpr, hsame⟩ := mkPairs_trace_pairs c rest p h
        exact ⟨pr, List.mem_cons.2 (Or.inr hpr), hsame⟩

/-- On an input without duplicates, both items of every comparison of the
pairing pass are distinct. -/
theorem mkPairs_trace_ne (c : α → α → Bool) :
    ∀ l : List α, l.Nodup → ∀ p ∈ (mkPairs c l).2, p.1 ≠ p.2
  | [], _ => by simp [mkPairs]
  | [x], _ => by simp [mkPairs]
  | x :: y :: rest, hnd => by
    intro p hp
    have hsh : p ∈ ((x, y) :: (mkPairs c rest).2) := by
      revert hp
      simp only [mkPairs]
      split <;> exact id
    have hrest : rest.Nodup := (List.nodup_cons.1 ((List.nodup_cons.1 hnd).2)).2
    rcases List.mem_cons.1 hsh with h | h
    · subst h
      intro hcon
      simp only at hcon
      refine (List.nodup_cons.1 hnd).1 ?_
      rw [hcon]
      exact List.mem_cons_self y rest
    · exact mkPairs_trace_ne c rest hrest p h

/-- With pairwise distinct values, two pair entries sharing the smaller
element share the larger one. -/
theorem entry_unique_snd (ps : List (α × α))
    (hsnd : (ps.map Prod.snd).Nodup) (a a2 b : α)
    (h1 : (a, b) ∈ ps) (h2 : (a2, b) ∈ ps) : a = a2 := by
  obtain ⟨⟨i, hi⟩, hgi⟩ := List.mem_iff_get.1 h1
  obtain ⟨⟨j, hj⟩, hgj⟩ := List.mem_iff_get.1 h2
  have hi2 : i < (ps.map Prod.snd).length := by simpa using hi
  have hj2 : j < (ps.map Prod.snd).length := by simpa using hj
  have hkey : (ps.map Prod.snd).get ⟨i, hi2⟩ =
      (ps.map Prod.snd).get ⟨j, hj2⟩ := by
    have e1 : (ps.map Prod.snd).get ⟨i, hi2⟩ = (ps.get ⟨i, hi⟩).2 := by
      simp [List.get_eq_getElem]
    have e2 : (ps.map Prod.snd).get ⟨j, hj2⟩ = (ps.get ⟨j, hj⟩).2 := by
      simp [List.get_eq_getElem]
    rw [e1, e2, hgi, hgj]
  have hij : (⟨i, hi2⟩ : Fin (ps.map Prod.snd).length) = ⟨j, hj2⟩ :=
    (List.Nodup.get_inj_iff hsnd).1 hkey
  have hijv : i = j := by simpa using congrArg Fin.val hij
  subst hijv
  have hps := hgi.symm.trans hgj
  exact (Prod.mk.injEq _ _ _ _ ▸ hps).1

/-- `sameUnordered` is symmetric. -/
theorem sameUnordered_symm {p q : α × α} (h : sameUnordered p q) :
    sameUnordered q p := by
  rcases h with ⟨h1, h2⟩ | ⟨h1, h2⟩
  · exact Or.inl ⟨h1.symm, h2.symm⟩
  · exact Or.inr ⟨h2.symm, h1.symm⟩

/-- `sameUnordered` is transitive. -/
theorem sameUnordered_trans {p q r : α × α} (h1 : sameUnordered p q)
    (h2 : sameUnordered q r) : sameUnordered p r := by
  rcases h1 with ⟨a1, a2⟩ | ⟨a1, a2⟩ <;>
    rcases h2 with ⟨b1, b2⟩ | ⟨b1, b2⟩
  · exact Or.inl ⟨a1.trans b1, a2.trans b2⟩
  · exact Or.inr ⟨a1.trans b1, a2.trans b2⟩
  · exact Or.inr ⟨a1.trans b2, a2.trans b1⟩
  · exact Or.inl ⟨a1.trans b2, a2.trans b1⟩

/-- The leftover slot observers. -/
theorem leftoverSlot_map_itemOf (l : List α) :
    (leftoverSlot l).map itemOf = l.getLast?.toList := by
  cases hL : l.getLast? <;> simp [leftoverSlot, itemOf, hL]

/-- Tier-1 driver theorem, for an arbitrary comparator: on a
duplicate-free input the sort succeeds, the output is a permutation of
the input, no unordered pair of items is compared twice across the whole
invocation (recursive calls included), and every comparison touches two
distinct input elements. -/
theorem sort_spec (c : α → α → Bool) (l : List α) (hnd : l.Nodup) :
    ∃ (out : List α) (tr : List (α × α)),
      merge_insertion_sort c l = (.ok out, tr) ∧
      out.Perm l ∧
      NoDupComparisons tr ∧
      (∀ p ∈ tr, p.1 ∈ l ∧ p.2 ∈ l ∧ p.1 ≠ p.2) := by
  by_cases hl1 : l.length < 1
  · refine ⟨[], [], ?_, ?_, List.Pairwise.nil, by simp⟩
    · rw [merge_insertion_sort, dif_pos hl1]
    · have hemp : l = [] := List.length_eq_zero.1 (by omega)
      subst hemp
      exact List.Perm.refl _
  · by_cases hl2 : l.length = 1
    · refine ⟨l, [], ?_, List.Perm.refl _, List.Pairwise.nil, by simp⟩
      rw [merge_insertion_sort, dif_neg hl1, dif_pos hl2]
    · have hl3 : ¬ (l.dedup.length ≠ l.length) := by
        rw [List.dedup_eq_self.2 hnd]
        simp
      by_cases hl4 : l.length = 2
      · rcases l with _ | ⟨x, _ | ⟨y, rest⟩⟩
        · simp at hl4
        · simp at hl4
        · have hr : rest = [] := by
            simp only [List.length_cons] at hl4
            exact List.length_eq_zero.1 (by omega)
          subst hr
          have hxy : x ≠ y := by
            intro hcon
            exact (List.nodup_cons.1 hnd).1 (hcon ▸ List.mem_cons_self y [])
          refine ⟨if c x y then [x, y] else [y, x], [(x, y)], ?_, ?_, ?_, ?_⟩
          · rw [merge_insertion_sort, dif_neg hl1, dif_neg hl2,
              dif_neg hl3, dif_pos hl4]
            cases hc : c x y <;> simp [hc]
          · cases hc : c x y
            · rw [if_neg (by simp [hc])]
              exact List.Perm.swap x y []
            · rw [if_pos (by simp [hc])]
          · exact List.pairwise_singleton _ _
          · intro p hp
            rcases List.mem_cons.1 hp with h | h
            · subst h
              exact ⟨List.mem_cons_self _ _,
                List.mem_cons.2 (Or.inr (List.mem_cons_self _ _)), hxy⟩
            · simp at h
      · -- general case: at least 3 elements
        have hlen3 : 3 ≤ l.length := by omega
        have hperm0 := mkPairs_perm c l
        have hbignd : ((mkPairs c l).1.map Prod.fst ++
            ((mkPairs c l).1.map Prod.snd ++
              (if l.length % 2 = 1 then l.getLast?.toList else []))).Nodup :=
          (List.Perm.nodup_iff hperm0).2 hnd
        have hp1 := List.nodup_append.1 hbignd
        have hp2 := List.nodup_append.1 hp1.2.1
        have hkeysnd : ((mkPairs c l).1.map Prod.fst).Nodup := hp1.1
        -- the recursive call
        obtain ⟨larger, tr2, heq2, hperm2, hnd2, hshape2⟩ :=
          sort_spec c ((mkPairs c l).1.map Prod.fst) hkeysnd
        have hlarglen : larger.length = l.length / 2 := by
          rw [hperm2.length_eq]
          simpa using mkPairs_fst_length c l
        rcases larger with _ | ⟨l0, lrest⟩
        · exfalso
          simp only [List.length_nil] at hlarglen
          omega
        have hlmem : ∀ la ∈ l0 :: lrest, la ∈ (mkPairs c l).1.map Prod.fst :=
          fun la hla => hperm2.mem_iff.1 hla
        have hd0 := dictGet_ok (mkPairs c l).1 l0
          (hlmem l0 (List.mem_cons_self _ _))
        have hmapM := mapM_chainTail (mkPairs c l).1 lrest
          (fun la hla => hlmem la (List.mem_cons.2 (Or.inr hla)))
        -- abbreviations (all spelled out for syntactic matching)
        have hCTfst : (lrest.map (fun la =>
            (la, some (partnerD (mkPairs c l).1 la)))).map Prod.fst =
            lrest := by
          rw [List.map_map]
          rw [show (Prod.fst ∘ fun la =>
            (la, some (partnerD (mkPairs c l).1 la))) = id from rfl]
          exact List.map_id _
        have hCTitem : (lrest.map (fun la =>
            (la, some (partnerD (mkPairs c l).1 la)))).map itemOf =
            lrest.map (partnerD (mkPairs c l).1) := by
          rw [List.map_map]
          rfl
        have hLOSitem : ((if l.length % 2 = 1 then leftoverSlot l
            else []) : List (Slot α)).map itemOf =
            (if l.length % 2 = 1 then l.getLast?.toList else []) := by
          split
          · exact leftoverSlot_map_itemOf l
          · rfl
        -- the partner values of the larger elements are the smaller ones
        have hmapeq : ((mkPairs c l).1.map Prod.fst).map
            (partnerD (mkPairs c l).1) = (mkPairs c l).1.map Prod.snd := by
          rw [List.map_map]
          apply List.map_congr_left
          intro pr hpr
          exact partnerD_entry (mkPairs c l).1 hkeysnd pr.1 pr.2 hpr
        have hsndperm : ((l0 :: lrest).map
            (partnerD (mkPairs c l).1)).Perm
            ((mkPairs c l).1.map Prod.snd) := by
          rw [← hmapeq]
          exact hperm2.map _
        -- the chain heads together with the queued items permute `l`
        have hchainheads :
            (((partnerD (mkPairs c l).1 l0, none) :: (l0, none) ::
              lrest.map (fun la =>
                (la, some (partnerD (mkPairs c l).1 la)))).map
                  (Prod.fst : Slot α → α)) =
            partnerD (mkPairs c l).1 l0 :: l0 :: lrest := by
          simp only [List.map_cons, hCTfst]
        have hqperm : (((makeGroups
            ((lrest.map (fun la =>
              (la, some (partnerD (mkPairs c l).1 la)))) ++
              (if l.length % 2 = 1 then leftoverSlot l else []))).map
              Prod.snd)).Perm
            ((lrest.map (fun la =>
              (la, some (partnerD (mkPairs c l).1 la)))) ++
              (if l.length % 2 = 1 then leftoverSlot l else [])) := by
          have h := (makeGroups_perm ((lrest.map (fun la =>
            (la, some (partnerD (mkPairs c l).1 la)))) ++
            (if l.length % 2 = 1 then leftoverSlot l else []))).map Prod.snd
          rwa [List.enum_map_snd] at h
        have hqitems : ((((makeGroups
            ((lrest.map (fun la =>
              (la, some (partnerD (mkPairs c l).1 la)))) ++
              (if l.length % 2 = 1 then leftoverSlot l else []))).map
              Prod.snd)).map itemOf).Perm
            (lrest.map (partnerD (mkPairs c l).1) ++
              (if l.length % 2 = 1 then l.getLast?.toList else [])) := by
          refine (hqperm.map itemOf).trans ?_
          rw [List.map_append, hCTitem, hLOSitem]
        -- the big multiset equation
        have hbigperm :
            ((partnerD (mkPairs c l).1 l0 :: l0 :: lrest) ++
              (lrest.map (partnerD (mkPairs c l).1) ++
                (if l.length % 2 = 1 then l.getLast?.toList else []))).Perm
            l := by
          refine List.Perm.trans ?_ hperm0
          have s1 : ((partnerD (mkPairs c l).1 l0 :: l0 :: lrest) ++
              (lrest.map (partnerD (mkPairs c l).1) ++
                (if l.length % 2 = 1 then l.getLast?.toList else []))).Perm
              ((l0 :: lrest) ++ ((partnerD (mkPairs c l).1 l0 ::
                lrest.map (partnerD (mkPairs c l).1)) ++
                (if l.length % 2 = 1 then l.getLast?.toList else []))) := by
            refine List.Perm.trans ?_ (@List.perm_middle α
              (partnerD (mkPairs c l).1 l0) (l0 :: lrest)
              (lrest.map (partnerD (mkPairs c l).1) ++
                (if l.length % 2 = 1 then l.getLast?.toList else []))).symm
            exact List.Perm.refl _
          refine s1.trans ?_
          refine List.Perm.append hperm2 ?_
          exact List.Perm.append_right _ hsndperm
        -- invariants for the insertion loop
        have hmemQ : ∀ s ∈ ((makeGroups
            ((lrest.map (fun la =>
              (la, some (partnerD (mkPairs c l).1 la)))) ++
              (if l.length % 2 = 1 then leftoverSlot l else []))).map
              Prod.snd), s.2.isSome = true →
            s ∈ ((partnerD (mkPairs c l).1 l0, none) :: (l0, none) ::
              lrest.map (fun la =>
                (la, some (partnerD (mkPairs c l).1 la)))) := by
          intro s hs hsome
          have hpend := hqperm.mem_iff.1 hs
          rcases List.mem_append.1 hpend with h | h
          · exact List.mem_cons.2 (Or.inr (List.mem_cons.2 (Or.inr h)))
          · exfalso
            revert h
            split
            · intro h
              rcases hgl : l.getLast? with _ | z
              · simp only [leftoverSlot, hgl] at h
                exact absurd h (List.not_mem_nil s)
              · simp only [leftoverSlot, hgl] at h
                rcases List.mem_cons.1 h with h | h
                · rw [h] at hsome
                  simp at hsome
                · exact absurd h (List.not_mem_nil s)
            · intro h
              exact absurd h (List.not_mem_nil s)
        have hndQ : ((((partnerD (mkPairs c l).1 l0, none) :: (l0, none) ::
            lrest.map (fun la =>
              (la, some (partnerD (mkPairs c l).1 la)))).map Prod.fst) ++
            (((makeGroups
              ((lrest.map (fun la =>
                (la, some (partnerD (mkPairs c l).1 la)))) ++
                (if l.length % 2 = 1 then leftoverSlot l else []))).map
                Prod.snd)).map itemOf).Nodup := by
          rw [hchainheads]
          have hq2p := List.Perm.append
            (List.Perm.refl (partnerD (mkPairs c l).1 l0 :: l0 :: lrest))
            hqitems
          exact (List.Perm.nodup_iff (hq2p.trans hbigperm)).2 hnd
        obtain ⟨mcf, tr3, heq3, hperm3, hnd3, hshape3⟩ :=
          insertLoop_spec c _ _ hmemQ hndQ
        -- the equation
        refine ⟨mcf.map Prod.fst, ((mkPairs c l).2 ++ tr2) ++ tr3, ?_, ?_, ?_, ?_⟩
        · rw [merge_insertion_sort, dif_neg hl1, dif_neg hl2,
            dif_neg hl3, dif_neg hl4]
          simp only [heq2, hd0.1, hmapM, List.append_assoc]
          rw [show List.drop 2 ((partnerD (mkPairs c l).1 l0, none) ::
            (l0, none) :: lrest.map (fun la =>
              (la, some (partnerD (mkPairs c l).1 la)))) =
            lrest.map (fun la =>
              (la, some (partnerD (mkPairs c l).1 la))) from rfl]
          rw [heq3]
        · refine hperm3.trans ?_
          rw [hchainheads]
          refine List.Perm.trans ?_ hbigperm
          exact List.Perm.append (List.Perm.refl _) hqitems
        · -- no duplicate comparisons across the three phases
          rw [NoDupComparisons, List.pairwise_append]
          refine ⟨?_, hnd3, ?_⟩
          · rw [List.pairwise_append]
            refine ⟨mkPairs_trace_nodup c l hnd, hnd2, ?_⟩
            -- pairing comparisons vs recursion comparisons
            intro p hp q hq hsame
            obtain ⟨pr, hpr, hprsame⟩ := mkPairs_trace_pairs c l p hp
            obtain ⟨hq1k, hq2k, _⟩ := hshape2 q hq
            have hqpr : sameUnordered q pr :=
              sameUnordered_trans (sameUnordered_symm hsame) hprsame
            have hsm : pr.2 ∈ (mkPairs c l).1.map Prod.snd :=
              List.mem_map.2 ⟨pr, hpr, rfl⟩
            rcases hqpr with ⟨_, h2⟩ | ⟨h2, _⟩
            · exact hp1.2.2 (h2 ▸ hq2k) (List.mem_append.2 (Or.inl hsm))
            · exact hp1.2.2 (h2 ▸ hq1k) (List.mem_append.2 (Or.inl hsm))
          · -- earlier-phase comparisons vs insertion comparisons
            intro p hp q hq hsame
            obtain ⟨s, hs, hq1, hq2, hqne, hqla⟩ := hshape3 q hq
            -- classify the queued slot
            have hspend := hqperm.mem_iff.1 hs
            have hq1cases : (∃ la, la ∈ lrest ∧
                s = (la, some (partnerD (mkPairs c l).1 la))) ∨
                (l.length % 2 = 1 ∧ ∃ z, l.getLast? = some z ∧
                  s = (z, none)) := by
              rcases List.mem_append.1 hspend with h | h
              · obtain ⟨la, hla, hlas⟩ := List.mem_map.1 h
                exact Or.inl ⟨la, hla, hlas.symm⟩
              · right
                revert h
                split
                next hodd =>
                  intro h
                  rcases hgl : l.getLast? with _ | z
                  · rw [leftoverSlot, hgl] at h
                    simp at h
                  · rw [leftoverSlot, hgl] at h
                    rcases List.mem_cons.1 h with h | h
                    · exact ⟨hodd, z, rfl, h⟩
                    · simp at h
                next => intro h; simp at h
            rcases List.mem_append.1 hp with hp1m | hp2m
            · -- pairing comparison vs insertion comparison
              obtain ⟨pr, hpr, hprsame⟩ := mkPairs_trace_pairs c l p hp1m
              have hqpr : sameUnordered q pr :=
                sameUnordered_trans (sameUnordered_symm hsame) hprsame
              have hprk : pr.1 ∈ (mkPairs c l).1.map Prod.fst :=
                List.mem_map.2 ⟨pr, hpr, rfl⟩
              have hprs : pr.2 ∈ (mkPairs c l).1.map Prod.snd :=
                List.mem_map.2 ⟨pr, hpr, rfl⟩
              rcases hq1cases with ⟨la, hla, hsla⟩ | ⟨hodd, z, hgl, hsz⟩
              · have hq1v : q.1 = partnerD (mkPairs c l).1 la := by
                  rw [hq1, hsla]
                  rfl
                have hlak : la ∈ (mkPairs c l).1.map Prod.fst :=
                  hlmem la (List.mem_cons.2 (Or.inr hla))
                have hlaval : (la, partnerD (mkPairs c l).1 la) ∈
                    (mkPairs c l).1 := (dictGet_ok _ la hlak).2
                have hq1snd : q.1 ∈ (mkPairs c l).1.map Prod.snd :=
                  hq1v ▸ List.mem_map.2 ⟨_, hlaval, rfl⟩
                rcases hqpr with ⟨h1, h2⟩ | ⟨h1, h2⟩
                · -- q.1 = pr.1 : a smaller value equal to a key
                  refine hp1.2.2 ?_ (List.mem_append.2 (Or.inl hq1snd))
                  rw [h1]
                  exact hprk
                · -- q.1 = pr.2 and q.2 = pr.1 = la, contradicting hqla
                  have hpr2v : pr.2 = partnerD (mkPairs c l).1 la :=
                    h1.symm.trans hq1v
                  have hprm : (pr.1, pr.2) ∈ (mkPairs c l).1 := by
                    simpa using hpr
                  rw [hpr2v] at hprm
                  have hpr1la : pr.1 = la :=
                    entry_unique_snd (mkPairs c l).1 hp2.1 pr.1 la
                      (partnerD (mkPairs c l).1 la) hprm hlaval
                  have hq2la : q.2 = la := by
                    rw [h2, hpr1la]
                  refine hqla (partnerD (mkPairs c l).1 la) ?_ ?_
                  · rw [hsla]
                  · rw [hq2la, hsla]
              · -- leftover slot: its item is in neither keys nor smallers
                have hq1v : q.1 = z := by
                  rw [hq1, hsz]
                  rfl
                have hzLO : z ∈ (if l.length % 2 = 1 then
                    l.getLast?.toList else []) := by
                  rw [if_pos hodd, hgl]
                  simp
                rcases hqpr with ⟨h1, _⟩ | ⟨h1, _⟩
                · have hpz : pr.1 = z := h1.symm.trans hq1v
                  refine hp1.2.2 hprk (List.mem_append.2 (Or.inr ?_))
                  rw [hpz]
                  exact hzLO
                · have hpz : pr.2 = z := h1.symm.trans hq1v
                  exact hp2.2.2 (hpz ▸ hprs) hzLO
            · -- recursion comparison vs insertion comparison
              obtain ⟨hq1k, hq2k, _⟩ := hshape2 p hp2m
              have hq1notk : q.1 ∉ (mkPairs c l).1.map Prod.fst := by
                rcases hq1cases with ⟨la, hla, hsla⟩ | ⟨hodd, z, hgl, hsz⟩
                · have hq1v : q.1 = partnerD (mkPairs c l).1 la := by
                    rw [hq1, hsla]
                    rfl
                  have hlak : la ∈ (mkPairs c l).1.map Prod.fst :=
                    hlmem la (List.mem_cons.2 (Or.inr hla))
                  have hlaval : (la, partnerD (mkPairs c l).1 la) ∈
                      (mkPairs c l).1 := (dictGet_ok _ la hlak).2
                  intro hcon
                  exact hp1.2.2 hcon (List.mem_append.2 (Or.inl
                    (hq1v ▸ List.mem_map.2 ⟨_, hlaval, rfl⟩)))
                · have hq1v : q.1 = z := by
                    rw [hq1, hsz]
                    rfl
                  intro hcon
                  refine hp1.2.2 hcon (List.mem_append.2 (Or.inr ?_))
                  rw [hq1v, if_pos hodd, hgl]
                  simp
              rcases hsame with ⟨h1, _⟩ | ⟨_, h2⟩
              · exact hq1notk (h1 ▸ hq1k)
              · exact hq1notk (h2 ▸ hq2k)
        · -- every comparison touches two distinct elements of `l`
          intro p hp
          have hkeysub : ∀ a, a ∈ (mkPairs c l).1.map Prod.fst → a ∈ l :=
            fun a ha => hperm0.mem_iff.1 (List.mem_append.2 (Or.inl ha))
          rcases List.mem_append.1 hp with hpa | hp3
          · rcases List.mem_append.1 hpa with hp1m | hp2m
            · obtain ⟨hm1, hm2⟩ := mkPairs_trace_mem c l p hp1m
              exact ⟨hm1, hm2, mkPairs_trace_ne c l hnd p hp1m⟩
            · obtain ⟨hq1k, hq2k, hne⟩ := hshape2 p hp2m
              exact ⟨hkeysub _ hq1k, hkeysub _ hq2k, hne⟩
          · obtain ⟨s, hs, hq1, hq2, hqne, _⟩ := hshape3 p hp3
            have hsubmc : ∀ a, a ∈ (((partnerD (mkPairs c l).1 l0, none) ::
                (l0, none) :: lrest.map (fun la =>
                  (la, some (partnerD (mkPairs c l).1 la)))).map
                    (Prod.fst : Slot α → α)) → a ∈ l := by
              intro a ha
              rw [hchainheads] at ha
              exact hbigperm.mem_iff.1 (List.mem_append.2 (Or.inl ha))
            have hsubqi : ∀ a, a ∈ (((makeGroups
                ((lrest.map (fun la =>
                  (la, some (partnerD (mkPairs c l).1 la)))) ++
                  (if l.length % 2 = 1 then leftoverSlot l else []))).map
                  Prod.snd)).map itemOf → a ∈ l := by
              intro a ha
              have := hqitems.mem_iff.1 ha
              exact hbigperm.mem_iff.1 (List.mem_append.2 (Or.inr this))
            have hq1l : p.1 ∈ l := by
              refine hsubqi p.1 ?_
              rw [hq1]
              exact List.mem_map.2 ⟨s, hs, rfl⟩
            have hq2l : p.2 ∈ l := by
              rcases hq2 with h | h
              · exact hsubmc p.2 h
              · exact hsubqi p.2 h
            exact ⟨hq1l, hq2l, fun h => hqne h.symm⟩
termination_by l.length
decreasing_by
  have hlen := mkPairs_fst_length c l
  simp only [List.length_map, hlen]
  omega

/-- C2: within one top-level invocation of `merge_insertion_sort` on an
input without duplicate values (all recursive calls included), no
unordered pair of items is ever submitted to the comparator more than
once — whatever the comparator answers. -/
theorem c2_no_duplicate_comparisons (c : α → α → Bool) (l : List α)
    (hnd : l.Nodup) :
    ∃ (out : List α) (tr : List (α × α)),
      merge_insertion_sort c l = (.ok out, tr) ∧
      NoDupComparisons tr := by
  obtain ⟨out, tr, heq, _, hndc, _⟩ := sort_spec c l hnd
  exact ⟨out, tr, heq, hndc⟩

/-- C2 witness: sorting `[2, 0, 1]` with the order comparator. -/
theorem c2_no_duplicate_comparisons_witness :
    ∃ (out : List Nat) (tr : List (Nat × Nat)),
      merge_insertion_sort (fun a b => decide (a < b)) [2, 0, 1] =
        (.ok out, tr) ∧
      NoDupComparisons tr :=
  c2_no_duplicate_comparisons (fun a b => decide (a < b)) [2, 0, 1]
    (by decide)

/-- C6: `merge_insertion_sort` raises the duplicate-items error exactly
when the input contains two value-equal items, and when it raises, its
comparison trace is empty (no comparator invocation was issued). -/
theorem c6_duplicate_error (c : α → α → Bool) (l : List α) :
    ((merge_insertion_sort c l).1 =
        .error "array may not contain duplicate items" ↔ ¬ l.Nodup) ∧
    (¬ l.Nodup → merge_insertion_sort c l =
      (.error "array may not contain duplicate items", [])) := by
  have hrev : ¬ l.Nodup → merge_insertion_sort c l =
      (.error "array may not contain duplicate items", []) := by
    intro hdup
    have hlen2 : 2 ≤ l.length := by
      rcases l with _ | ⟨a, _ | ⟨b, t⟩⟩
      · exact absurd List.nodup_nil hdup
      · exact absurd (List.nodup_singleton a) hdup
      · simp only [List.length_cons]
        omega
    have hne : l.dedup.length ≠ l.length := by
      intro hcon
      apply hdup
      have hsub : l.dedup.Sublist l := List.dedup_sublist l
      have heq : l.dedup = l := hsub.eq_of_length hcon
      rw [← heq]
      exact List.nodup_dedup l
    rw [merge_insertion_sort, dif_neg (by omega), dif_neg (by omega),
      dif_pos hne]
  refine ⟨⟨?_, fun hdup => by rw [hrev hdup]⟩, hrev⟩
  intro herr hndl
  obtain ⟨out, tr, heq, _, _, _⟩ := sort_spec c l hndl
  rw [heq] at herr
  exact absurd herr (by simp)

/-- C6 witness: the duplicate input `[0, 0]` errors with an empty trace
under a constant comparator. -/
theorem c6_duplicate_error_witness :
    merge_insertion_sort (fun _ _ => true) [0, 0] =
      (.error "array may not contain duplicate items", []) :=
  (c6_duplicate_error (fun _ _ => true) [0, 0]).2 (by decide)

/-! ## Tier-2: sortedness under the order comparator -/

/-- On a strictly ascending target not containing the candidate, the
binary search of `_bin_insert_index` driven by the order comparator
returns an index that splits the target around the candidate. -/
theorem binInsertIndex_sorted_split {β : Type} [LinearOrder β]
    [DecidableEq β] (S : List β) (item : β) (hS : S.Sorted (· < ·))
    (hni : item ∉ S) :
    ∃ (i : Nat) (tr : List (β × β)),
      binInsertIndex S item (fun a b => decide (a < b)) = (.ok i, tr) ∧
      i ≤ S.length ∧
      (∀ (k : Nat) (hk : k < S.length), k < i → S.get ⟨k, hk⟩ < item) ∧
      (∀ (k : Nat) (hk : k < S.length), i ≤ k → item < S.get ⟨k, hk⟩) := by
  rcases S with _ | ⟨a0, _ | ⟨a1, rest⟩⟩
  · exact ⟨0, [], rfl, by simp, fun k hk _ => absurd hk (by simp),
      fun k hk _ => absurd hk (by simp)⟩
  · have hne : item ≠ a0 := by simpa using hni
    have heqn : binInsertIndex [a0] item (fun a b => decide (a < b)) =
        ((if decide (item < a0) then Except.ok 0 else Except.ok 1),
          [(item, a0)]) := by
      rw [binInsertIndex, if_neg (by simp), if_neg (by simpa using hni),
        if_pos (show ([a0] : List β).length = 1 from rfl)]
    cases hcmp : decide (item < a0)
    case false =>
      have hgt : a0 < item :=
        lt_of_le_of_ne (le_of_not_lt (of_decide_eq_false hcmp))
          (fun h => hne h.symm)
      refine ⟨1, [(item, a0)], by rw [heqn, hcmp]; rfl, by simp, ?_, ?_⟩
      · intro k hk _
        have hk0 : k = 0 := by simpa [Nat.lt_one_iff] using hk
        subst hk0
        exact hgt
      · intro k hk hk1
        simp only [List.length_singleton] at hk
        omega
    case true =>
      have hlt : item < a0 := of_decide_eq_true hcmp
      refine ⟨0, [(item, a0)], by rw [heqn, hcmp]; rfl, by simp, ?_, ?_⟩
      · intro k hk hk0
        omega
      · intro k hk _
        have hk0 : k = 0 := by simpa [Nat.lt_one_iff] using hk
        subst hk0
        exact hlt
  · obtain ⟨bigI, h1, hli, hir, h4, h5⟩ :=
      binInsertLoop_sorted (a0 :: a1 :: rest) item hS hni 0
        (((a0 :: a1 :: rest).length : Int) - 1) (by omega)
        (by simp; omega) (by simp)
        (by
          intro j hj hcon
          exact absurd hcon (by omega))
        (by
          intro j hj hcon
          exact absurd hcon (by simp at hj ⊢; omega))
    have hilen : bigI.toNat ≤ (a0 :: a1 :: rest).length := by
      simp only [List.length_cons] at hir ⊢
      omega
    refine ⟨bigI.toNat,
      (binInsertLoop (a0 :: a1 :: rest) item (fun a b => decide (a < b))
        0 (((a0 :: a1 :: rest).length : Int) - 1)).2, ?_, hilen, ?_, ?_⟩
    · rw [binInsertIndex,
        if_neg (by simp), if_neg (by simpa using hni), if_neg (by simp)]
      show (Except.map Int.toNat (binInsertLoop _ item _ 0 _).1, _) = _
      rw [h1]
      rfl
    · intro k hk hkl
      exact h4 k hk (by omega)
    · intro k hk hkl
      exact h5 k hk (by omega)

/-- Under the order comparator, every pair recorded by the pairing pass
of a duplicate-free input has its smaller partner strictly below its
key. -/
theorem mkPairs_entry_lt {β : Type} [LinearOrder β] [DecidableEq β] :
    ∀ l : List β, l.Nodup →
      ∀ pr ∈ (mkPairs (fun a b => decide (a < b)) l).1, pr.2 < pr.1
  | [], _ => by simp [mkPairs]
  | [x], _ => by simp [mkPairs]
  | x :: y :: rest, hnd => by
    intro pr hpr
    have hxy : x ≠ y := by
      intro h
      exact (List.nodup_cons.1 hnd).1 (h ▸ List.mem_cons_self y rest)
    have hrest : rest.Nodup :=
      (List.nodup_cons.1 (List.nodup_cons.1 hnd).2).2
    have ih := mkPairs_entry_lt rest hrest
    cases hc : decide (x < y)
    case true =>
      have hps : (mkPairs (fun a b => decide (a < b)) (x :: y :: rest)).1 =
          (y, x) :: (mkPairs (fun a b => decide (a < b)) rest).1 := by
        simp [mkPairs, hc]
      rw [hps] at hpr
      rcases List.mem_cons.1 hpr with h | h
      · subst h
        exact of_decide_eq_true hc
      · exact ih pr h
    case false =>
      have hyx : y < x :=
        lt_of_le_of_ne (le_of_not_lt (of_decide_eq_false hc))
          (fun h => hxy h.symm)
      have hps : (mkPairs (fun a b => decide (a < b)) (x :: y :: rest)).1 =
          (x, y) :: (mkPairs (fun a b => decide (a < b)) rest).1 := by
        simp [mkPairs, hc]
      rw [hps] at hpr
      rcases List.mem_cons.1 hpr with h | h
      · subst h
        exact hyx
      · exact ih pr h

/-- Tier-2 facts about the insertion loop under the order comparator: if
the placed elements of the chain are strictly ascending, every queued
pair slot is present in the chain with its pending partner strictly
below its placed element, and the distinctness invariants hold, then the
loop succeeds and the placed elements stay strictly ascending. -/
theorem insertLoop_sorted {β : Type} [LinearOrder β] [DecidableEq β] :
    ∀ (queue mc : List (Slot β)),
    (∀ s ∈ queue, s.2.isSome = true → s ∈ mc) →
    (mc.map Prod.fst ++ queue.map itemOf).Nodup →
    (mc.map Prod.fst).Sorted (· < ·) →
    (∀ la sm : β, (la, some sm) ∈ queue → sm < la) →
    ∃ (mcf : List (Slot β)) (tr : List (β × β)),
      insertLoop (fun a b => decide (a < b)) queue mc = (.ok mcf, tr) ∧
      (mcf.map Prod.fst).Sorted (· < ·)
  | [], mc, _, _, hsort, _ => ⟨mc, [], rfl, hsort⟩
  | (z, none) :: qrest, mc, hmem, hnd, hsort, hpairs => by
    have hitems : ((z, none) :: qrest).map itemOf =
        z :: qrest.map itemOf := by
      simp [itemOf]
    rw [hitems] at hnd
    have hndparts := List.nodup_append.1 hnd
    have hznm : z ∉ mc.map Prod.fst := fun hz =>
      hndparts.2.2 hz (List.mem_cons_self _ _)
    obtain ⟨idx, t1, heqB, hidx, hs1, hs2⟩ :=
      binInsertIndex_sorted_split (mc.map Prod.fst) z hsort hznm
    have hidxle : idx ≤ mc.length := by simpa using hidx
    have hsort2 : ((mc.insertIdx idx (z, none)).map Prod.fst).Sorted
        (· < ·) := by
      rw [mapInsertIdx]
      exact (sorted_insertIdx_iff z (mc.map Prod.fst) hsort idx hidx).2
        ⟨hs1, hs2⟩
    have hmapins : (mc.insertIdx idx (z, none)).map Prod.fst =
        (mc.map Prod.fst).insertIdx idx z := mapInsertIdx _ _ _ _
    have hpermins : ((mc.insertIdx idx (z, none)).map Prod.fst).Perm
        (z :: mc.map Prod.fst) := by
      rw [hmapins]
      exact List.perm_insertIdx z _ (by simpa using hidxle)
    have hpermtot :
        ((mc.insertIdx idx (z, none)).map Prod.fst ++
          qrest.map itemOf).Perm
          (mc.map Prod.fst ++ z :: qrest.map itemOf) := by
      refine List.Perm.trans (List.Perm.append hpermins (List.Perm.refl _))
        ?_
      exact List.Perm.symm List.perm_middle
    have hmem2 : ∀ s ∈ qrest, s.2.isSome = true →
        s ∈ mc.insertIdx idx (z, none) := by
      intro s hs hsome
      have := hmem s (List.mem_cons.2 (Or.inr hs)) hsome
      exact (List.mem_insertIdx hidxle).2 (Or.inr this)
    have hnd2 : ((mc.insertIdx idx (z, none)).map Prod.fst ++
        qrest.map itemOf).Nodup :=
      (List.Perm.nodup_iff hpermtot).2 hnd
    obtain ⟨mcf, trR, heqR, hsortR⟩ :=
      insertLoop_sorted qrest (mc.insertIdx idx (z, none)) hmem2 hnd2
        hsort2 (fun la sm h => hpairs la sm (List.mem_cons.2 (Or.inr h)))
    refine ⟨mcf, t1 ++ trR, ?_, hsortR⟩
    simp only [insertLoop, heqB, heqR]
  | (la, some sm) :: qrest, mc, hmem, hnd, hsort, hpairs => by
    have hitems : ((la, some sm) :: qrest).map itemOf =
        sm :: qrest.map itemOf := by
      simp [itemOf]
    rw [hitems] at hnd
    have hndparts := List.nodup_append.1 hnd
    have hsq : sm ∉ qrest.map itemOf := (List.nodup_cons.1 hndparts.2.1).1
    have hsnm : sm ∉ mc.map Prod.fst := fun hz =>
      hndparts.2.2 hz (List.mem_cons_self _ _)
    have hslot : (la, some sm) ∈ mc :=
      hmem _ (List.mem_cons_self _ _) rfl
    obtain ⟨pairIdx, hpi, heqI, hgetI⟩ := identFind_spec mc (la, some sm)
      hslot
    have hlaval : (mc.map Prod.fst).get ⟨pairIdx, by simpa using hpi⟩ =
        la := by
      simp only [List.get_eq_getElem, List.getElem_map]
      have : mc[pairIdx] = (la, some sm) := by
        simpa [List.get_eq_getElem] using hgetI
      rw [this]
    have hprefTake : (mc.take pairIdx).map Prod.fst =
        (mc.map Prod.fst).take pairIdx := List.map_take _ _ _
    have hprefsub : ∀ v ∈ (mc.take pairIdx).map Prod.fst,
        v ∈ mc.map Prod.fst := by
      intro v hv
      rw [hprefTake] at hv
      exact List.mem_of_mem_take hv
    have hsnp : sm ∉ (mc.take pairIdx).map Prod.fst := fun hv =>
      hsnm (hprefsub _ hv)
    have hsortP : ((mc.take pairIdx).map Prod.fst).Sorted (· < ·) := by
      rw [hprefTake]
      exact List.Pairwise.sublist (List.take_sublist _ _) hsort
    obtain ⟨idx, t1, heqB, hidxP, hs1, hs2⟩ :=
      binInsertIndex_sorted_split ((mc.take pairIdx).map Prod.fst) sm
        hsortP hsnp
    have hplen : ((mc.take pairIdx).map Prod.fst).length = pairIdx := by
      simp only [List.length_map, List.length_take]
      exact Nat.min_eq_left (le_of_lt hpi)
    have hidxle : idx ≤ mc.length := by
      rw [hplen] at hidxP
      omega
    have hFidx : idx ≤ (mc.map Prod.fst).length := by simpa using hidxle
    have hsmla : sm < la := hpairs la sm (List.mem_cons_self _ _)
    have hmono := hsort.get_strictMono
    have hgetPF : ∀ (k : Nat)
        (hkP : k < ((mc.take pairIdx).map Prod.fst).length)
        (hkF : k < (mc.map Prod.fst).length),
        ((mc.take pairIdx).map Prod.fst).get ⟨k, hkP⟩ =
          (mc.map Prod.fst).get ⟨k, hkF⟩ := by
      intro k hkP hkF
      simp only [List.get_eq_getElem, List.getElem_map, List.getElem_take]
    have hS1F : ∀ (k : Nat) (hk : k < (mc.map Prod.fst).length), k < idx →
        (mc.map Prod.fst).get ⟨k, hk⟩ < sm := by
      intro k hk hkidx
      have hkP : k < ((mc.take pairIdx).map Prod.fst).length := by
        rw [hplen]
        omega
      rw [← hgetPF k hkP hk]
      exact hs1 k hkP hkidx
    have hS2F : ∀ (k : Nat) (hk : k < (mc.map Prod.fst).length), idx ≤ k →
        sm < (mc.map Prod.fst).get ⟨k, hk⟩ := by
      intro k hk hkidx
      rcases Nat.lt_trichotomy k pairIdx with hkp | hkp | hkp
      · have hkP : k < ((mc.take pairIdx).map Prod.fst).length := by
          rw [hplen]
          exact hkp
        rw [← hgetPF k hkP hk]
        exact hs2 k hkP hkidx
      · have hkval : (mc.map Prod.fst).get ⟨k, hk⟩ = la := by
          subst hkp
          exact hlaval
        rw [hkval]
        exact hsmla
      · have hpiF : pairIdx < (mc.map Prod.fst).length := by
          simpa using hpi
        have hlt : (mc.map Prod.fst).get ⟨pairIdx, hpiF⟩ <
            (mc.map Prod.fst).get ⟨k, hk⟩ := by
          refine hmono ?_
          simp only [Fin.mk_lt_mk]
          exact hkp
        rw [hlaval] at hlt
        exact lt_trans hsmla hlt
    have hslotne : ∀ s ∈ qrest, s ≠ (la, some sm) := by
      intro s hs hcon
      apply hsq
      rw [show sm = itemOf s by rw [hcon]; rfl]
      exact List.mem_map.2 ⟨s, hs, rfl⟩
    have hmapset : (mc.set pairIdx (la, none)).map Prod.fst =
        mc.map Prod.fst :=
      map_fst_set mc pairIdx la none hpi (by rw [hgetI])
    have hsetlen : (mc.set pairIdx (la, none)).length = mc.length := by
      simp
    have hmapins : (((mc.set pairIdx (la, none)).insertIdx idx
        (sm, none)).map Prod.fst) =
        (mc.map Prod.fst).insertIdx idx sm := by
      rw [mapInsertIdx, hmapset]
    have hsort2 : ((((mc.set pairIdx (la, none)).insertIdx idx
        (sm, none))).map Prod.fst).Sorted (· < ·) := by
      rw [hmapins]
      exact (sorted_insertIdx_iff sm (mc.map Prod.fst) hsort idx hFidx).2
        ⟨hS1F, hS2F⟩
    have hpermins : ((((mc.set pairIdx (la, none)).insertIdx idx
        (sm, none))).map Prod.fst).Perm (sm :: mc.map Prod.fst) := by
      rw [hmapins]
      exact List.perm_insertIdx sm _ (by simpa using hidxle)
    have hpermtot :
        ((((mc.set pairIdx (la, none)).insertIdx idx
          (sm, none))).map Prod.fst ++ qrest.map itemOf).Perm
          (mc.map Prod.fst ++ sm :: qrest.map itemOf) := by
      refine List.Perm.trans (List.Perm.append hpermins (List.Perm.refl _))
        ?_
      exact List.Perm.symm List.perm_middle
    have hmem2 : ∀ s ∈ qrest, s.2.isSome = true →
        s ∈ (mc.set pairIdx (la, none)).insertIdx idx (sm, none) := by
      intro s hs hsome
      have h1 : s ∈ mc := hmem s (List.mem_cons.2 (Or.inr hs)) hsome
      have h2 : s ∈ mc.set pairIdx (la, none) := by
        refine mem_set_of_ne mc pairIdx (la, none) s h1 hpi ?_
        rw [hgetI]
        exact hslotne s hs
      exact (List.mem_insertIdx (by omega)).2 (Or.inr h2)
    have hnd2 : ((((mc.set pairIdx (la, none)).insertIdx idx
        (sm, none))).map Prod.fst ++ qrest.map itemOf).Nodup :=
      (List.Perm.nodup_iff hpermtot).2 hnd
    obtain ⟨mcf, trR, heqR, hsortR⟩ :=
      insertLoop_sorted qrest
        ((mc.set pairIdx (la, none)).insertIdx idx (sm, none)) hmem2 hnd2
        hsort2 (fun la2 sm2 h => hpairs la2 sm2 (List.mem_cons.2 (Or.inr h)))
    refine ⟨mcf, t1 ++ trR, ?_, hsortR⟩
    simp only [insertLoop, heqI, heqB, heqR]

/-- Tier-2 driver theorem: under the order comparator, on a
duplicate-free input the sort succeeds and its output is strictly
ascending. -/
theorem sort_sorted {β : Type} [LinearOrder β] [DecidableEq β]
    (l : List β) (hnd : l.Nodup) :
    ∃ (out : List β) (tr : List (β × β)),
      merge_insertion_sort (fun a b => decide (a < b)) l = (.ok out, tr) ∧
      out.Sorted (· < ·) := by
  by_cases hl1 : l.length < 1
  · refine ⟨[], [], ?_, List.sorted_nil⟩
    rw [merge_insertion_sort, dif_pos hl1]
  · by_cases hl2 : l.length = 1
    · obtain ⟨x, hx⟩ := List.length_eq_one.1 hl2
      subst hx
      refine ⟨[x], [], ?_, List.sorted_singleton x⟩
      rw [merge_insertion_sort, dif_neg hl1, dif_pos hl2]
    · have hl3 : ¬ (l.dedup.length ≠ l.length) := by
        rw [List.dedup_eq_self.2 hnd]
        simp
      by_cases hl4 : l.length = 2
      · rcases l with _ | ⟨x, _ | ⟨y, rest⟩⟩
        · simp at hl4
        · simp at hl4
        · have hr : rest = [] := by
            simp only [List.length_cons] at hl4
            exact List.length_eq_zero.1 (by omega)
          subst hr
          have hxy : x ≠ y := by
            intro hcon
            exact (List.nodup_cons.1 hnd).1 (hcon ▸ List.mem_cons_self y [])
          refine ⟨if decide (x < y) then [x, y] else [y, x], [(x, y)],
            ?_, ?_⟩
          · rw [merge_insertion_sort, dif_neg hl1, dif_neg hl2,
              dif_neg hl3, dif_pos hl4]
            cases hc : decide (x < y) <;> simp [hc]
          · cases hc : decide (x < y)
            · have hyx : y < x :=
                lt_of_le_of_ne (le_of_not_lt (of_decide_eq_false hc))
                  (fun h => hxy h.symm)
              rw [if_neg (by simp [hc])]
              simp [List.sorted_cons, hyx]
            · have hlt : x < y := of_decide_eq_true hc
              rw [if_pos (by simp [hc])]
              simp [List.sorted_cons, hlt]
      · -- general case: at least 3 elements
        have hlen3 : 3 ≤ l.length := by omega
        have hperm0 := mkPairs_perm (fun a b => decide (a < b)) l
        have hbignd : ((mkPairs (fun a b => decide (a < b)) l).1.map
            Prod.fst ++
            ((mkPairs (fun a b => decide (a < b)) l).1.map Prod.snd ++
              (if l.length % 2 = 1 then l.getLast?.toList else []))).Nodup :=
          (List.Perm.nodup_iff hperm0).2 hnd
        have hp1 := List.nodup_append.1 hbignd
        have hkeysnd : ((mkPairs (fun a b => decide (a < b)) l).1.map
            Prod.fst).Nodup := hp1.1
        -- the recursive call: tier-1 facts and (recursively) sortedness
        obtain ⟨larger, tr2, heq2, hperm2, hnd2, hshape2⟩ :=
          sort_spec (fun a b => decide (a < b))
            ((mkPairs (fun a b => decide (a < b)) l).1.map Prod.fst) hkeysnd
        obtain ⟨out2, tr2b, heq2b, hsort2⟩ :=
          sort_sorted ((mkPairs (fun a b => decide (a < b)) l).1.map
            Prod.fst) hkeysnd
        have hmatch := heq2.symm.trans heq2b
        have hlout : larger = out2 := by
          have h1 := congrArg Prod.fst hmatch
          simpa using h1
        have hsortlarger : larger.Sorted (· < ·) := by
          rw [hlout]
          exact hsort2
        have hlarglen : larger.length = l.length / 2 := by
          rw [hperm2.length_eq]
          simpa using mkPairs_fst_length (fun a b => decide (a < b)) l
        rcases larger with _ | ⟨l0, lrest⟩
        · exfalso
          simp only [List.length_nil] at hlarglen
          omega
        have hlmem : ∀ la ∈ l0 :: lrest,
            la ∈ (mkPairs (fun a b => decide (a < b)) l).1.map Prod.fst :=
          fun la hla => hperm2.mem_iff.1 hla
        have hd0 := dictGet_ok (mkPairs (fun a b => decide (a < b)) l).1 l0
          (hlmem l0 (List.mem_cons_self _ _))
        have hmapM := mapM_chainTail (mkPairs (fun a b => decide (a < b)) l).1
          lrest (fun la hla => hlmem la (List.mem_cons.2 (Or.inr hla)))
        have hCTfst : (lrest.map (fun la =>
            (la, some (partnerD (mkPairs (fun a b => decide (a < b)) l).1
              la)))).map Prod.fst = lrest := by
          rw [List.map_map]
          rw [show (Prod.fst ∘ fun la => (la, some (partnerD
            (mkPairs (fun a b => decide (a < b)) l).1 la))) = id from rfl]
          exact List.map_id _
        have hCTitem : (lrest.map (fun la =>
            (la, some (partnerD (mkPairs (fun a b => decide (a < b)) l).1
              la)))).map itemOf =
            lrest.map (partnerD (mkPairs (fun a b => decide (a < b)) l).1) := by
          rw [List.map_map]
          rfl
        have hLOSitem : ((if l.length % 2 = 1 then leftoverSlot l
            else []) : List (Slot β)).map itemOf =
            (if l.length % 2 = 1 then l.getLast?.toList else []) := by
          split
          · exact leftoverSlot_map_itemOf l
          · rfl
        have hmapeq : ((mkPairs (fun a b => decide (a < b)) l).1.map
            Prod.fst).map
            (partnerD (mkPairs (fun a b => decide (a < b)) l).1) =
            (mkPairs (fun a b => decide (a < b)) l).1.map Prod.snd := by
          rw [List.map_map]
          apply List.map_congr_left
          intro pr hpr
          exact partnerD_entry (mkPairs (fun a b => decide (a < b)) l).1
            hkeysnd pr.1 pr.2 hpr
        have hsndperm : ((l0 :: lrest).map
            (partnerD (mkPairs (fun a b => decide (a < b)) l).1)).Perm
            ((mkPairs (fun a b => decide (a < b)) l).1.map Prod.snd) := by
          rw [← hmapeq]
          exact hperm2.map _
        have hchainheads :
            (((partnerD (mkPairs (fun a b => decide (a < b)) l).1 l0, none) ::
              (l0, none) :: lrest.map (fun la =>
                (la, some (partnerD
                  (mkPairs (fun a b => decide (a < b)) l).1 la)))).map
                  (Prod.fst : Slot β → β)) =
            partnerD (mkPairs (fun a b => decide (a < b)) l).1 l0 ::
              l0 :: lrest := by
          simp only [List.map_cons, hCTfst]
        have hqperm : (((makeGroups
            ((lrest.map (fun la =>
              (la, some (partnerD
                (mkPairs (fun a b => decide (a < b)) l).1 la)))) ++
              (if l.length % 2 = 1 then leftoverSlot l else []))).map
              Prod.snd)).Perm
            ((lrest.map (fun la =>
              (la, some (partnerD
                (mkPairs (fun a b => decide (a < b)) l).1 la)))) ++
              (if l.length % 2 = 1 then leftoverSlot l else [])) := by
          have h := (makeGroups_perm ((lrest.map (fun la =>
            (la, some (partnerD
              (mkPairs (fun a b => decide (a < b)) l).1 la)))) ++
            (if l.length % 2 = 1 then leftoverSlot l else []))).map Prod.snd
          rwa [List.enum_map_snd] at h
        have hqitems : ((((makeGroups
            ((lrest.map (fun la =>
              (la, some (partnerD
                (mkPairs (fun a b => decide (a < b)) l).1 la)))) ++
              (if l.length % 2 = 1 then leftoverSlot l else []))).map
              Prod.snd)).map itemOf).Perm
            (lrest.map (partnerD (mkPairs (fun a b => decide (a < b)) l).1) ++
              (if l.length % 2 = 1 then l.getLast?.toList else [])) := by
          refine (hqperm.map itemOf).trans ?_
          rw [List.map_append, hCTitem, hLOSitem]
        have hbigperm :
            ((partnerD (mkPairs (fun a b => decide (a < b)) l).1 l0 ::
              l0 :: lrest) ++
              (lrest.map (partnerD
                (mkPairs (fun a b => decide (a < b)) l).1) ++
                (if l.length % 2 = 1 then l.getLast?.toList else []))).Perm
            l := by
          refine List.Perm.trans ?_ hperm0
          have s1 : ((partnerD (mkPairs (fun a b => decide (a < b)) l).1 l0 ::
              l0 :: lrest) ++
              (lrest.map (partnerD
                (mkPairs (fun a b => decide (a < b)) l).1) ++
                (if l.length % 2 = 1 then l.getLast?.toList else []))).Perm
              ((l0 :: lrest) ++
                ((partnerD (mkPairs (fun a b => decide (a < b)) l).1 l0 ::
                lrest.map (partnerD
                  (mkPairs (fun a b => decide (a < b)) l).1)) ++
                (if l.length % 2 = 1 then l.getLast?.toList else []))) := by
            refine List.Perm.trans ?_ (@List.perm_middle β
              (partnerD (mkPairs (fun a b => decide (a < b)) l).1 l0)
              (l0 :: lrest)
              (lrest.map (partnerD
                (mkPairs (fun a b => decide (a < b)) l).1) ++
                (if l.length % 2 = 1 then l.getLast?.toList else []))).symm
            exact List.Perm.refl _
          refine s1.trans ?_
          refine List.Perm.append hperm2 ?_
          exact List.Perm.append_right _ hsndperm
        have hmemQ : ∀ s ∈ ((makeGroups
            ((lrest.map (fun la =>
              (la, some (partnerD
                (mkPairs (fun a b => decide (a < b)) l).1 la)))) ++
              (if l.length % 2 = 1 then leftoverSlot l else []))).map
              Prod.snd), s.2.isSome = true →
            s ∈ ((partnerD (mkPairs (fun a b => decide (a < b)) l).1 l0,
                none) :: (l0, none) ::
              lrest.map (fun la =>
                (la, some (partnerD
                  (mkPairs (fun a b => decide (a < b)) l).1 la)))) := by
          intro s hs hsome
          have hpend := hqperm.mem_iff.1 hs
          rcases List.mem_append.1 hpend with h | h
          · exact List.mem_cons.2 (Or.inr (List.mem_cons.2 (Or.inr h)))
          · exfalso
            revert h
            split
            · intro h
              rcases hgl : l.getLast? with _ | z
              · simp only [leftoverSlot, hgl] at h
                exact absurd h (List.not_mem_nil s)
              · simp only [leftoverSlot, hgl] at h
                rcases List.mem_cons.1 h with h | h
                · rw [h] at hsome
                  simp at hsome
                · exact absurd h (List.not_mem_nil s)
            · intro h
              exact absurd h (List.not_mem_nil s)
        have hndQ : ((((partnerD (mkPairs (fun a b => decide (a < b)) l).1 l0,
            none) :: (l0, none) ::
            lrest.map (fun la =>
              (la, some (partnerD
                (mkPairs (fun a b => decide (a < b)) l).1 la)))).map
                  Prod.fst) ++
            (((makeGroups
              ((lrest.map (fun la =>
                (la, some (partnerD
                  (mkPairs (fun a b => decide (a < b)) l).1 la)))) ++
                (if l.length % 2 = 1 then leftoverSlot l else []))).map
                Prod.snd)).map itemOf).Nodup := by
          rw [hchainheads]
          have hq2p := List.Perm.append
            (List.Perm.refl (partnerD
              (mkPairs (fun a b => decide (a < b)) l).1 l0 :: l0 :: lrest))
            hqitems
          exact (List.Perm.nodup_iff (hq2p.trans hbigperm)).2 hnd
        -- tier-2 extras: the initial chain heads are ascending …
        have hpl0 : partnerD (mkPairs (fun a b => decide (a < b)) l).1 l0 <
            l0 :=
          mkPairs_entry_lt l hnd
            (l0, partnerD (mkPairs (fun a b => decide (a < b)) l).1 l0)
            hd0.2
        have hsortheads :
            ((((partnerD (mkPairs (fun a b => decide (a < b)) l).1 l0,
              none) :: (l0, none) ::
              lrest.map (fun la =>
                (la, some (partnerD
                  (mkPairs (fun a b => decide (a < b)) l).1 la)))).map
                  Prod.fst)).Sorted (· < ·) := by
          rw [hchainheads]
          refine List.sorted_cons.2 ⟨?_, hsortlarger⟩
          intro b hb
          rcases List.mem_cons.1 hb with h | h
          · rw [h]
            exact hpl0
          · exact lt_trans hpl0 ((List.sorted_cons.1 hsortlarger).1 b h)
        -- … and every queued pair slot has its partner below its key
        have hpairsQ : ∀ la sm : β, (la, some sm) ∈ ((makeGroups
            ((lrest.map (fun la =>
              (la, some (partnerD
                (mkPairs (fun a b => decide (a < b)) l).1 la)))) ++
              (if l.length % 2 = 1 then leftoverSlot l else []))).map
              Prod.snd) → sm < la := by
          intro la sm hin
          have hpend := hqperm.mem_iff.1 hin
          rcases List.mem_append.1 hpend with h | h
          · obtain ⟨la2, hla2, heqs⟩ := List.mem_map.1 h
            have h1 : la2 = la := (Prod.mk.injEq _ _ _ _ ▸ heqs).1
            have h2 : some (partnerD
                (mkPairs (fun a b => decide (a < b)) l).1 la2) = some sm :=
              (Prod.mk.injEq _ _ _ _ ▸ heqs).2
            have h3 : partnerD (mkPairs (fun a b => decide (a < b)) l).1
                la2 = sm := Option.some_inj.1 h2
            subst h1
            rw [← h3]
            have hlak : la2 ∈ (mkPairs (fun a b => decide (a < b)) l).1.map
                Prod.fst := hlmem la2 (List.mem_cons.2 (Or.inr hla2))
            exact mkPairs_entry_lt l hnd
              (la2, partnerD (mkPairs (fun a b => decide (a < b)) l).1 la2)
              (dictGet_ok _ la2 hlak).2
          · exfalso
            revert h
            split
            · intro h
              rcases hgl : l.getLast? with _ | z
              · simp only [leftoverSlot, hgl] at h
                exact absurd h (List.not_mem_nil _)
              · simp only [leftoverSlot, hgl] at h
                rcases List.mem_cons.1 h with h | h
                · exact Option.noConfusion (Prod.mk.injEq _ _ _ _ ▸ h).2
                · exact absurd h (List.not_mem_nil _)
            · intro h
              exact absurd h (List.not_mem_nil _)
        obtain ⟨mcf, tr3, heq3, hsortF⟩ :=
          insertLoop_sorted _ _ hmemQ hndQ hsortheads hpairsQ
        refine ⟨mcf.map Prod.fst,
          ((mkPairs (fun a b => decide (a < b)) l).2 ++ tr2) ++ tr3,
          ?_, hsortF⟩
        rw [merge_insertion_sort, dif_neg hl1, dif_neg hl2,
          dif_neg hl3, dif_neg hl4]
        simp only [heq2, hd0.1, hmapM, List.append_assoc]
        rw [show List.drop 2 ((partnerD
          (mkPairs (fun a b => decide (a < b)) l).1 l0, none) ::
          (l0, none) :: lrest.map (fun la =>
            (la, some (partnerD
              (mkPairs (fun a b => decide (a < b)) l).1 la)))) =
          lrest.map (fun la =>
            (la, some (partnerD
              (mkPairs (fun a b => decide (a < b)) l).1 la))) from rfl]
        rw [heq3]
termination_by l.length
decreasing_by
  have hlen := mkPairs_fst_length (fun a b => decide (a < b)) l
  simp only [List.length_map, hlen]
  omega

/-- C9: under the order comparator the main chain keeps its placed
(first) elements strictly ascending: (i) the chain built from the
recursively sorted larger elements (smallest partner, then the sorted
larger elements) is ascending at construction; (ii) processing one
queued slot through the insertion loop preserves the ascending order of
the placed elements; (iii) hence the whole insertion loop preserves it
through every insertion, ending with an ascending chain. -/
theorem c9_main_chain_invariant {β : Type} [LinearOrder β]
    [DecidableEq β] :
    (∀ (sm0 l0 : β) (lrest : List β) (tail : List (Slot β)),
      (l0 :: lrest).Sorted (· < ·) → sm0 < l0 →
      tail.map Prod.fst = lrest →
      ((((sm0, none) :: (l0, none) :: tail : List (Slot β)).map
        Prod.fst)).Sorted (· < ·)) ∧
    (∀ (s : Slot β) (mc : List (Slot β)),
      (s.2.isSome = true → s ∈ mc) →
      (mc.map Prod.fst ++ [itemOf s]).Nodup →
      ((mc.map Prod.fst).Sorted (· < ·)) →
      (∀ la sm : β, s = (la, some sm) → sm < la) →
      ∃ (mc2 : List (Slot β)) (tr : List (β × β)),
        insertLoop (fun a b => decide (a < b)) [s] mc = (.ok mc2, tr) ∧
        (mc2.map Prod.fst).Sorted (· < ·)) ∧
    (∀ (queue mc : List (Slot β)),
      (∀ s ∈ queue, s.2.isSome = true → s ∈ mc) →
      (mc.map Prod.fst ++ queue.map itemOf).Nodup →
      ((mc.map Prod.fst).Sorted (· < ·)) →
      (∀ la sm : β, (la, some sm) ∈ queue → sm < la) →
      ∃ (mcf : List (Slot β)) (tr : List (β × β)),
        insertLoop (fun a b => decide (a < b)) queue mc = (.ok mcf, tr) ∧
        (mcf.map Prod.fst).Sorted (· < ·)) := by
  refine ⟨?_, ?_, insertLoop_sorted⟩
  · intro sm0 l0 lrest tail hsorted hlt htail
    have hheads : (((sm0, none) :: (l0, none) :: tail :
        List (Slot β)).map Prod.fst) = sm0 :: l0 :: lrest := by
      simp only [List.map_cons, htail]
    rw [hheads]
    refine List.sorted_cons.2 ⟨?_, hsorted⟩
    intro b hb
    rcases List.mem_cons.1 hb with h | h
    · rw [h]
      exact hlt
    · exact lt_trans hlt ((List.sorted_cons.1 hsorted).1 b h)
  · intro s mc hmem hnd hsort hpair
    refine insertLoop_sorted [s] mc ?_ hnd hsort ?_
    · intro t ht hsome
      have : t = s := List.mem_singleton.1 ht
      subst this
      exact hmem hsome
    · intro la sm h
      exact hpair la sm (List.mem_singleton.1 h).symm

/-- C9 witness: one insertion step on the ascending chain
`[(1, –), (3, pending 2)]` keeps the placed elements ascending. -/
theorem c9_main_chain_invariant_witness :
    ∃ (mc2 : List (Slot Int)) (tr : List (Int × Int)),
      insertLoop (fun a b => decide (a < b)) [((3 : Int), some 2)]
        [(1, none), (3, some 2)] = (.ok mc2, tr) ∧
      (mc2.map Prod.fst).Sorted (· < ·) :=
  c9_main_chain_invariant.2.1 ((3 : Int), some 2) [(1, none), (3, some 2)]
    (fun _ => by decide)
    (by decide)
    (by decide)
    (by
      intro la sm h
      injection h with h1 h2
      injection h2 with h2
      subst h1
      subst h2
      decide)

/-! ## Arithmetic: the comparison-count bound -/

/-- The group partial sums grow strictly. -/
theorem tsum_lt_succ (k : Nat) : tsum k < tsum (k + 1) := by
  have h := two_le_a014113 (k + 1) (by omega)
  simp only [tsum]
  omega

/-- The group partial sums are monotone. -/
theorem tsum_mono (j k : Nat) (h : j ≤ k) : tsum j ≤ tsum k := by
  have hgen : ∀ d : Nat, tsum j ≤ tsum (j + d) := by
    intro d
    induction d with
    | zero => simp
    | succ m ih =>
      have hs := tsum_lt_succ (j + m)
      have he : j + (m + 1) = j + m + 1 := by omega
      rw [he]
      omega
  have hd := hgen (k - j)
  have he : j + (k - j) = k := by omega
  rwa [he] at hd

/-- Characterization of the scanning helper: starting at group `k + 1`
below a position past `tsum k`, it lands in the unique enclosing
group. -/
theorem grpAux_spec (i k : Nat) (h : tsum k ≤ i) :
    k + 1 ≤ grpAux i k ∧ tsum (grpAux i k - 1) ≤ i ∧ i < tsum (grpAux i k)
    := by
  rw [grpAux]
  split
  next hlt =>
    refine ⟨le_refl _, ?_, hlt⟩
    simpa using h
  next hge =>
    have h2 := grpAux_spec i (k + 1) (by omega)
    exact ⟨by omega, h2.2.1, h2.2.2⟩
termination_by i + 1 - tsum (k + 1)
decreasing_by
  have h2 : 2 ≤ a014113 (k + 1 + 1) := two_le_a014113 _ (by omega)
  simp only [tsum] at *
  omega

/-- `grp i` is the unique 1-based group with
`tsum (grp i - 1) ≤ i < tsum (grp i)`. -/
theorem grp_spec (i : Nat) :
    1 ≤ grp i ∧ tsum (grp i - 1) ≤ i ∧ i < tsum (grp i) :=
  grpAux_spec i 0 (by simp [tsum])

/-- Any index in the window of group `g` has `grp` value `g`. -/
theorem grp_eq_of (g i : Nat) (hg : 1 ≤ g) (h1 : tsum (g - 1) ≤ i)
    (h2 : i < tsum g) : grp i = g := by
  obtain ⟨hg1, hl, hr⟩ := grp_spec i
  by_contra hne
  rcases Nat.lt_or_ge (grp i) g with hlt | hge
  · have := tsum_mono (grp i) (g - 1) (by omega)
    omega
  · have hgt : g < grp i := by omega
    have := tsum_mono g (grp i - 1) (by omega)
    omega

/-- Closed form of the sequence modulo the `±2` oscillation:
`3·a(n) = 2^(n+1) + 2·(-1)^(n+1)` in guarded natural form. -/
theorem a014113_three (n : Nat) :
    3 * a014113 n + 4 * ((n + 1) % 2) = 2 ^ (n + 1) + 2 := by
  induction n with
  | zero => decide
  | succ m ih =>
    have hpow : (2 : Nat) ^ (m + 2) = 2 * 2 ^ (m + 1) := by ring
    have hpos : 1 ≤ (2 : Nat) ^ (m + 1) := Nat.one_le_two_pow
    simp only [a014113]
    omega

/-- Closed form of the partial sums:
`3·tsum k + 4 = 2^(k+2) + 2·(k mod 2)`. -/
theorem tsum_three (k : Nat) :
    3 * tsum k + 4 = 2 ^ (k + 2) + 2 * (k % 2) := by
  induction k with
  | zero => decide
  | succ m ih =>
    have h3 := a014113_three (m + 1)
    have hpow : (2 : Nat) ^ (m + 1 + 2) = 2 * 2 ^ (m + 2) := by ring
    have h32 : (2 : Nat) ^ (m + 1 + 1) = 2 ^ (m + 2) := by ring
    simp only [tsum]
    rcases Nat.mod_two_eq_zero_or_one m with hp | hp <;> omega

/-- Powers of two modulo three alternate between 1 and 2. -/
theorem pow2_mod3 (k : Nat) :
    2 ^ k % 3 = if k % 2 = 0 then 1 else 2 := by
  induction k with
  | zero => decide
  | succ m ih =>
    have hpow : (2 : Nat) ^ (m + 1) = 2 * 2 ^ m := by ring
    rcases Nat.mod_two_eq_zero_or_one m with h | h
    · rw [if_pos h] at ih
      rw [if_neg (by omega), hpow, Nat.mul_mod, ih]
    · rw [if_neg (by omega)] at ih
      rw [if_pos (by omega), hpow, Nat.mul_mod, ih]

/-- Core inequality: an element of insertion group `g = grp m` costs at
most `g + 1` comparisons, which is within the per-element budget
`wcost` of the input item it will be charged to. -/
theorem grp_le_wcost (m : Nat) : grp m + 1 ≤ wcost (2 * m + 3) := by
  obtain ⟨hg1, hl, hr⟩ := grp_spec m
  have ht := tsum_three (grp m - 1)
  have hexp : grp m - 1 + 2 = grp m + 1 := by omega
  rw [hexp] at ht
  have hpow : (2 : Nat) ^ (grp m + 3) = 4 * 2 ^ (grp m + 1) := by ring
  have hlow : 2 ^ (grp m + 3) ≤ 6 * (2 * m + 3) := by omega
  have hlog : grp m + 3 ≤ Nat.log 2 (6 * (2 * m + 3)) :=
    (Nat.pow_le_iff_le_log (by norm_num) (by omega)).1 hlow
  rw [wcost]
  omega

/-- Doubling the item index raises its per-element budget by one. -/
theorem wcost_double (j : Nat) (hj : 1 ≤ j) : wcost (2 * j) = wcost j + 1
    := by
  have h6 : 6 * (2 * j) = (6 * j) * 2 := by ring
  rw [wcost, wcost, h6, Nat.log_mul_base (by norm_num) (by omega)]
  have hge : 2 ≤ Nat.log 2 (6 * j) :=
    (Nat.pow_le_iff_le_log (by norm_num) (by omega)).1 (by omega)
  omega

/-- `Nat.log 2` at 6 and 12 (base values for the sums). -/
theorem natLog2_eval_side : Nat.log 2 6 = 2 ∧ Nat.log 2 12 = 3 ∧
    Nat.log 2 18 = 4 ∧ Nat.log 2 24 = 4 := by
  refine ⟨?_, ?_, ?_, ?_⟩ <;>
    exact Nat.log_eq_of_pow_le_of_lt_pow (by norm_num) (by norm_num)

/-- The recurrence inequality: the pairing cost, the recursive cost of
the larger halves and the insertion-phase budget fit inside the summed
per-element budgets. -/
theorem sumW_rec (n : Nat) (h : 3 ≤ n) :
    n / 2 + sumW (n / 2) + WB ((n - 1) / 2) ≤ sumW n := by
  have hw1 : wcost 1 = 0 := by
    rw [wcost]
    norm_num [natLog2_eval_side.1]
  have hw2 : wcost 2 = 1 := by
    rw [wcost]
    norm_num [natLog2_eval_side.2.1]
  have hw3 : wcost 3 = 2 := by
    rw [wcost]
    norm_num [natLog2_eval_side.2.2.1]
  have hw4 : wcost 4 = 2 := by
    rw [wcost]
    norm_num [natLog2_eval_side.2.2.2]
  have hg0 : grp 0 = 1 := grp_eq_of 1 0 (by omega) (by decide) (by decide)
  have es0 : sumW 0 = 0 := rfl
  have es1 : sumW 1 = sumW 0 + wcost 1 := rfl
  have es2 : sumW 2 = sumW 1 + wcost 2 := rfl
  have es3 : sumW 3 = sumW 2 + wcost 3 := rfl
  have es4 : sumW 4 = sumW 3 + wcost 4 := rfl
  have eb0 : WB 0 = 0 := rfl
  have eb1 : WB 1 = WB 0 + (grp 0 + 1) := rfl
  rcases Nat.lt_or_ge n 5 with h5 | h5
  · -- base cases n = 3 and n = 4
    have hn34 : n = 3 ∨ n = 4 := by omega
    rcases hn34 with rfl | rfl
    · norm_num
      omega
    · norm_num
      omega
  · obtain ⟨m, rfl⟩ : ∃ m, n = m + 5 := ⟨n - 5, by omega⟩
    have ih := sumW_rec (m + 3) (by omega)
    -- abbreviations for the half quantities
    have hhalf : (m + 5) / 2 = (m + 3) / 2 + 1 := by omega
    have hwb : (m + 5 - 1) / 2 = (m + 3 - 1) / 2 + 1 := by omega
    have e5 : sumW (m + 5) = sumW (m + 4) + wcost (m + 5) := rfl
    have e4 : sumW (m + 4) = sumW (m + 3) + wcost (m + 4) := rfl
    have hsumTop : sumW (m + 5) = sumW (m + 3) + wcost (m + 4) +
        wcost (m + 5) := by
      omega
    have hsumHalf : sumW ((m + 3) / 2 + 1) =
        sumW ((m + 3) / 2) + wcost ((m + 3) / 2 + 1) := rfl
    have hWBstep : WB ((m + 3 - 1) / 2 + 1) =
        WB ((m + 3 - 1) / 2) + (grp ((m + 3 - 1) / 2) + 1) := rfl
    rw [hhalf, hwb, hsumTop, hsumHalf, hWBstep]
    -- it remains to budget the two new items against the new half item
    -- and the new pending element
    rcases Nat.mod_two_eq_zero_or_one m with hp | hp
    · -- m + 3 odd: m + 3 = 2k+1 with k = (m+3)/2 = m/2 + 1
      have hk : m + 3 = 2 * ((m + 3) / 2) + 1 := by omega
      have hd : wcost (2 * ((m + 3) / 2 + 1)) =
          wcost ((m + 3) / 2 + 1) + 1 :=
        wcost_double _ (by omega)
      have he1 : 2 * ((m + 3) / 2 + 1) = m + 4 := by omega
      rw [he1] at hd
      have hcore := grp_le_wcost ((m + 3 - 1) / 2)
      have he2 : 2 * ((m + 3 - 1) / 2) + 3 = m + 5 := by omega
      rw [he2] at hcore
      omega
    · -- m + 3 even: m + 3 = 2k with k = (m+3)/2
      have hk : m + 3 = 2 * ((m + 3) / 2) := by omega
      have hd : wcost (2 * ((m + 3) / 2 + 1)) =
          wcost ((m + 3) / 2 + 1) + 1 :=
        wcost_double _ (by omega)
      have he1 : 2 * ((m + 3) / 2 + 1) = m + 5 := by omega
      rw [he1] at hd
      have hcore := grp_le_wcost ((m + 3 - 1) / 2)
      have he2 : 2 * ((m + 3 - 1) / 2) + 3 = m + 4 := by omega
      rw [he2] at hcore
      omega
termination_by n
decreasing_by omega

/-- The recursive worst-case count is dominated by the summed
per-element budgets. -/
theorem maxCmp_le_sumW (n : Nat) : maxCmp n ≤ sumW n := by
  rw [maxCmp]
  split
  next h1 => exact Nat.zero_le _
  next h1 =>
    split
    next h2 =>
      subst h2
      have hw1 : wcost 1 = 0 := by
        rw [wcost]
        norm_num [natLog2_eval_side.1]
      have hw2 : wcost 2 = 1 := by
        rw [wcost]
        norm_num [natLog2_eval_side.2.1]
      have es1 : sumW 1 = sumW 0 + wcost 1 := rfl
      have es2 : sumW 2 = sumW 1 + wcost 2 := rfl
      have es0 : sumW 0 = 0 := rfl
      omega
    next h2 =>
      have ih := maxCmp_le_sumW (n / 2)
      have hrec := sumW_rec n (by omega)
      omega
termination_by n
decreasing_by omega

/-- Splitting a power of two at an exponent cut. -/
theorem pow2_split (L d : Nat) (h : d ≤ L) :
    (2 : Nat) ^ L = 2 ^ d * 2 ^ (L - d) := by
  rw [← pow_add]
  congr 1
  omega

/-- Ceiling of a quarter: `⌈a/4⌉ = (a+3)/4` over the naturals. -/
theorem natCeil_div4 (a : Nat) : ⌈(a : ℚ) / 4⌉₊ = (a + 3) / 4 := by
  rcases Nat.eq_zero_or_pos a with rfl | hpos
  · norm_num
  · have hne : (a + 3) / 4 ≠ 0 := by omega
    have hge1 : 1 ≤ (a + 3) / 4 := by omega
    rw [Nat.ceil_eq_iff hne]
    constructor
    · rw [lt_div_iff (by norm_num : (0 : ℚ) < 4)]
      rw [Nat.cast_sub hge1]
      have h2 : (((a + 3) / 4 : Nat) : ℚ) * 4 < (a : ℚ) + 4 := by
        exact_mod_cast (by omega : (a + 3) / 4 * 4 < a + 4)
      push_cast
      linarith
    · rw [div_le_iff (by norm_num : (0 : ℚ) < 4)]
      exact_mod_cast (by omega : a ≤ (a + 3) / 4 * 4)

/-- `⌈log2 (3n/4)⌉ = ⌊log2 (6n)⌋ - 2` for `n ≥ 1` (in natural-number
clog/log form): `3n/4` is never an exact power of two. -/
theorem clog_eq_log_sub (n : Nat) (h : 1 ≤ n) :
    Nat.clog 2 ((3 * n + 3) / 4) = Nat.log 2 (6 * n) - 2 := by
  have h4 : (2 : Nat) ^ 2 ≤ 6 * n := by norm_num; omega
  have hL2 : 2 ≤ Nat.log 2 (6 * n) :=
    (Nat.pow_le_iff_le_log (by norm_num) (by omega)).1 h4
  have hlow : 2 ^ Nat.log 2 (6 * n) ≤ 6 * n :=
    Nat.pow_log_le_self 2 (by omega)
  have hhigh : 6 * n < 2 ^ (Nat.log 2 (6 * n) + 1) :=
    Nat.lt_pow_succ_log_self (by norm_num) _
  have hpow1 : (2 : Nat) ^ (Nat.log 2 (6 * n) + 1) =
      2 * 2 ^ Nat.log 2 (6 * n) := by ring
  have hup : (3 * n + 3) / 4 ≤ 2 ^ (Nat.log 2 (6 * n) - 2) := by
    have he := pow2_split (Nat.log 2 (6 * n)) 2 hL2
    norm_num at he
    omega
  have hclog_le : Nat.clog 2 ((3 * n + 3) / 4) ≤ Nat.log 2 (6 * n) - 2 :=
    (Nat.le_pow_iff_clog_le (by norm_num)).1 hup
  rcases Nat.lt_or_ge (Nat.log 2 (6 * n)) 3 with hL3 | hL3
  · omega
  · have hmod := pow2_mod3 (Nat.log 2 (6 * n) - 1)
    have he1 : (2 : Nat) ^ (Nat.log 2 (6 * n) - 1) =
        4 * 2 ^ (Nat.log 2 (6 * n) - 3) := by
      have he0 := pow2_split (Nat.log 2 (6 * n) - 1) 2 (by omega)
      have he2 : Nat.log 2 (6 * n) - 1 - 2 = Nat.log 2 (6 * n) - 3 := by
        omega
      rw [he2] at he0
      norm_num at he0
      exact he0
    have he3 : (2 : Nat) ^ Nat.log 2 (6 * n) =
        2 * 2 ^ (Nat.log 2 (6 * n) - 1) := by
      have he0 := pow2_split (Nat.log 2 (6 * n)) 1 (by omega)
      norm_num at he0
      exact he0
    have hlo2 : 2 ^ (Nat.log 2 (6 * n) - 3) < (3 * n + 3) / 4 := by
      rcases Nat.mod_two_eq_zero_or_one (Nat.log 2 (6 * n) - 1) with hp | hp
      · rw [if_pos hp] at hmod
        omega
      · rw [if_neg (by omega)] at hmod
        omega
    have hclog_ge : Nat.log 2 (6 * n) - 3 < Nat.clog 2 ((3 * n + 3) / 4) :=
      (Nat.pow_lt_iff_lt_clog (by norm_num)).1 hlo2
    omega

/-- The summed per-element budgets satisfy the closed-form expression of
`merge_insertion_max_comparisons` (stated over `ℤ` to avoid truncated
subtraction). -/
theorem sumW_formula (n : Nat) (h : 1 ≤ n) :
    (sumW n : Int) = (n : Int) * ((Nat.log 2 (6 * n) : Int) - 2)
      - ((2 ^ Nat.log 2 (6 * n) / 3 : Nat) : Int)
      + ((Nat.log 2 (6 * n) / 2 : Nat) : Int) := by
  induction n with
  | zero => exact absurd h (by omega)
  | succ m ih =>
    rcases Nat.eq_zero_or_pos m with rfl | hm
    · have hs1 : sumW 1 = sumW 0 + wcost 1 := rfl
      have hw1 : wcost 1 = 0 := by
        rw [wcost]
        norm_num [natLog2_eval_side.1]
      have hs0 : sumW 0 = 0 := rfl
      have hval : sumW 1 = 0 := by omega
      norm_num [hval, natLog2_eval_side.1]
    · have ihh := ih hm
      set L := Nat.log 2 (6 * m) with hLdef
      have h4 : (2 : Nat) ^ 2 ≤ 6 * m := by norm_num; omega
      have hL2 : 2 ≤ L :=
        (Nat.pow_le_iff_le_log (by norm_num) (by omega)).1 h4
      have hlow : 2 ^ L ≤ 6 * m := Nat.pow_log_le_self 2 (by omega)
      have hhigh : 6 * m < 2 ^ (L + 1) := by
        rw [hLdef]
        exact Nat.lt_pow_succ_log_self (by norm_num) _
      have hpow1 : (2 : Nat) ^ (L + 1) = 2 * 2 ^ L := by ring
      have hss : sumW (m + 1) = sumW m + wcost (m + 1) := rfl
      rcases Nat.lt_or_ge (6 * m + 6) (2 ^ (L + 1)) with hnoj | hjump
      · have hLs : Nat.log 2 (6 * (m + 1)) = L := by
          apply Nat.log_eq_of_pow_le_of_lt_pow
          · omega
          · omega
        have hws : wcost (m + 1) = L - 2 := by rw [wcost, hLs]
        have hcast : ((sumW (m + 1) : Nat) : Int) =
            ((sumW m : Nat) : Int) + ((L : Int) - 2) := by omega
        rw [hLs, hcast, ihh]
        push_cast
        ring
      · have hLs : Nat.log 2 (6 * (m + 1)) = L + 1 := by
          apply Nat.log_eq_of_pow_le_of_lt_pow
          · omega
          · have h8 : (8 : Nat) ≤ 2 ^ (L + 1) := by
              calc (8 : Nat) = 2 ^ 3 := by norm_num
              _ ≤ 2 ^ (L + 1) := Nat.pow_le_pow_right (by omega) (by omega)
            have hpow2 : (2 : Nat) ^ (L + 1 + 1) = 2 * 2 ^ (L + 1) := by
              ring
            omega
        have hws : wcost (m + 1) = L - 1 := by
          rw [wcost, hLs]
          omega
        have hcast : ((sumW (m + 1) : Nat) : Int) =
            ((sumW m : Nat) : Int) + ((L : Int) - 1) := by omega
        have hm3 := pow2_mod3 L
        have hkey : (m : Int) + ((2 ^ L / 3 : Nat) : Int) +
            (((L + 1) / 2 : Nat) : Int) =
            ((2 ^ (L + 1) / 3 : Nat) : Int) + ((L / 2 : Nat) : Int) := by
          rcases Nat.mod_two_eq_zero_or_one L with hp | hp
          · rw [if_pos hp] at hm3
            omega
          · rw [if_neg (by omega)] at hm3
            omega
        rw [hLs, hcast, ihh]
        push_cast at hkey ⊢
        linear_combination -hkey

/-- The source's closed-form bound evaluates, on every natural argument,
to the summed per-element budgets. -/
theorem max_comparisons_eq_sumW (n : Nat) :
    merge_insertion_max_comparisons (n : Int) = .ok (sumW n : Int) := by
  rcases Nat.eq_zero_or_pos n with rfl | hpos
  · rw [merge_insertion_max_comparisons]
    norm_num
    rfl
  · have hneg : ¬ ((n : Int) < 0) := by omega
    have hne : ¬ ((n : Int) = 0) := by omega
    rw [merge_insertion_max_comparisons, if_neg hneg, if_neg hne]
    have htn : ((n : Int)).toNat = n := by simp
    rw [htn]
    have hclog : Int.clog 2 ((3 * ((n : Int) : ℚ)) / 4) =
        ((Nat.log 2 (6 * n) : Int)) - 2 := by
      rcases Nat.lt_or_ge n 2 with h1 | h2
      · have hn1 : n = 1 := by omega
        subst hn1
        norm_num
        rw [Int.clog_of_right_le_one 2 (by norm_num)]
        have hinv : ((3 / 4 : ℚ))⁻¹ = 4 / 3 := by norm_num
        rw [hinv]
        have hfl : ⌊(4 / 3 : ℚ)⌋₊ = 1 := by
          rw [Nat.floor_eq_iff (by norm_num)]
          norm_num
        rw [hfl, Nat.log_one_right]
        norm_num [natLog2_eval_side.1]
      · have hr : (1 : ℚ) ≤ (3 * ((n : Int) : ℚ)) / 4 := by
          rw [le_div_iff (by norm_num : (0 : ℚ) < 4)]
          have : (2 : ℚ) ≤ ((n : Int) : ℚ) := by exact_mod_cast h2
          linarith
        rw [Int.clog_of_one_le_right 2 hr]
        have hcast : ((3 * ((n : Int) : ℚ)) / 4 : ℚ) =
            ((3 * n : Nat) : ℚ) / 4 := by
          push_cast
          ring
        rw [hcast, natCeil_div4]
        have he : 3 * n + 3 = (3 * n + 3) := rfl
        rw [clog_eq_log_sub n (by omega)]
        have hL2 : 2 ≤ Nat.log 2 (6 * n) :=
          (Nat.pow_le_iff_le_log (by norm_num) (by omega)).1
            (by norm_num; omega)
        omega
    rw [hclog, sumW_formula n hpos]

/-! ## Program side of the comparison-count bound -/

/-- Shifting the start offset of the cost sum is absorbing the shift
into the bounds. -/
theorem costSum_shift : ∀ (L : List Nat) (j : Nat),
    costSum (j + 1) L = costSum j (L.map (fun b => b + 1))
  | [], _ => rfl
  | b :: rest, j => by
    simp only [List.map_cons, costSum]
    rw [costSum_shift rest (j + 1)]
    have he : b + (j + 1) = b + 1 + j := by omega
    rw [he]

/-- The cost sum splits over concatenation. -/
theorem costSum_append : ∀ (A B : List Nat) (j : Nat),
    costSum j (A ++ B) = costSum j A + costSum (j + A.length) B
  | [], B, j => by simp [costSum]
  | b :: rest, B, j => by
    have ih := costSum_append rest B (j + 1)
    simp only [List.cons_append, costSum, List.length_cons, List.append_eq]
    rw [ih]
    have he : j + 1 + rest.length = j + (rest.length + 1) := by omega
    rw [he]
    omega

/-- A uniform per-entry budget bounds the cost sum. -/
theorem costSum_le_of_bound : ∀ (L : List Nat) (j C : Nat),
    (∀ (p : Nat) (hp : p < L.length),
      Nat.log 2 (L.get ⟨p, hp⟩ + (j + p)) + 1 ≤ C) →
    costSum j L ≤ L.length * C
  | [], _, _, _ => by simp [costSum]
  | b :: rest, j, C, h => by
    have h0 := h 0 (by simp)
    have ih := costSum_le_of_bound rest (j + 1) C (by
      intro p hp
      have hp1 : p + 1 < (b :: rest).length := by simpa using hp
      have := h (p + 1) hp1
      have he : j + 1 + p = j + (p + 1) := by omega
      rw [he]
      simpa using this)
    simp only [costSum, List.length_cons]
    rw [Nat.succ_mul]
    have hb : Nat.log 2 (b + (j + 0)) + 1 ≤ C := h0
    have he : b + (j + 0) = b + j := by omega
    rw [he] at hb
    omega

/-- The pairing pass issues exactly `⌊n/2⌋` comparisons. -/
theorem mkPairs_snd_length (c : α → α → Bool) :
    ∀ l : List α, (mkPairs c l).2.length = l.length / 2
  | [] => by simp [mkPairs]
  | [x] => by simp [mkPairs]
  | x :: y :: rest => by
    have ih := mkPairs_snd_length c rest
    simp only [mkPairs]
    split <;> simp only [List.length_cons] <;> omega

/-- A whole chunk inside one group advances the insertion budget by
`cnt` elements of cost `k + 2` each. -/
theorem WB_chunk : ∀ (cnt s k : Nat), s = tsum k →
    cnt ≤ a014113 (k + 1) → WB (s + cnt) = WB s + cnt * (k + 2)
  | 0, s, k, _, _ => by simp [WB]
  | cnt + 1, s, k, hs, hcnt => by
    have ih := WB_chunk cnt s k hs (by omega)
    have hgrp : grp (s + cnt) = k + 1 := by
      apply grp_eq_of (k + 1) (s + cnt) (by omega)
      · have h1 : k + 1 - 1 = k := by omega
        rw [h1, hs]
        omega
      · simp only [tsum]
        rw [hs] at *
        omega
    have he : s + (cnt + 1) = (s + cnt) + 1 := by omega
    have hWB : WB ((s + cnt) + 1) = WB (s + cnt) + (grp (s + cnt) + 1) :=
      rfl
    rw [he, hWB, ih, hgrp]
    ring

/-- The log bound of a full binary range. -/
theorem log2_range_top (k : Nat) : Nat.log 2 (2 ^ (k + 2) - 1) = k + 1 := by
  apply Nat.log_eq_of_pow_le_of_lt_pow
  · have hpow : (2 : Nat) ^ (k + 2) = 2 * 2 ^ (k + 1) := by ring
    have h1 : 1 ≤ (2 : Nat) ^ (k + 1) := Nat.one_le_two_pow
    omega
  · have he : k + 1 + 1 = k + 2 := by omega
    rw [he]
    have h1 : 1 ≤ (2 : Nat) ^ (k + 2) := Nat.one_le_two_pow
    omega

/-- `getD` through a successor map. -/
theorem getD_map_succ (l : List Nat) (j : Nat) (hj : j < l.length) :
    (l.map (fun b => b + 1)).getD j 0 = l.getD j 0 + 1 := by
  rw [List.getD_eq_get _ _ (by simpa using hj), List.getD_eq_get _ _ hj]
  simp [List.get_eq_getElem]

/-- Reading past a positional insertion, above the insertion point. -/
theorem insertIdx_get_above {γ : Type} :
    ∀ (l : List γ) (x : γ) (n i : Nat), n ≤ i →
      (l.insertIdx n x).get? (i + 1) = l.get? i
  | l, x, 0, i, _ => by simp [List.insertIdx_zero]
  | [], x, n + 1, i, h => by simp [List.insertIdx_succ_nil]
  | a :: t, x, n + 1, i, h => by
    rw [List.insertIdx_succ_cons]
    rcases i with _ | j
    · omega
    · rw [List.get?_cons_succ, List.get?_cons_succ]
      exact insertIdx_get_above t x n j (by omega)

/-- Reading past a positional insertion, below the insertion point. -/
theorem insertIdx_get_below {γ : Type} :
    ∀ (l : List γ) (x : γ) (n i : Nat), i < n →
      (l.insertIdx n x).get? i = l.get? i
  | _, _, 0, i, h => by omega
  | [], x, n + 1, i, _ => by simp [List.insertIdx_succ_nil]
  | a :: t, x, n + 1, i, h => by
    rw [List.insertIdx_succ_cons]
    rcases i with _ | j
    · simp
    · rw [List.get?_cons_succ, List.get?_cons_succ]
      exact insertIdx_get_below t x n j (by omega)

/-- A member at a known position survives a positional insertion with
its position moving by at most one. -/
theorem get_insert_pos {γ : Type} (mc : List γ) (idx i : Nat) (x s : γ)
    (hget : mc.get? i = some s) :
    ∃ i2 : Nat, (mc.insertIdx idx x).get? i2 = some s ∧ i2 ≤ i + 1 := by
  rcases Nat.lt_or_ge i idx with hlt | hge
  · refine ⟨i, ?_, by omega⟩
    rw [insertIdx_get_below mc x idx i hlt]
    exact hget
  · refine ⟨i + 1, ?_, le_refl _⟩
    rw [insertIdx_get_above mc x idx i hge]
    exact hget

/-- A member at a known position distinct from an overwritten slot
survives overwrite-then-insert, moving by at most one position. -/
theorem get_set_insert_pos {γ : Type} (mc : List γ) (pIdx idx i : Nat)
    (b x s : γ) (hne : i ≠ pIdx) (hget : mc.get? i = some s) :
    ∃ i2 : Nat, ((mc.set pIdx b).insertIdx idx x).get? i2 = some s ∧
      i2 ≤ i + 1 := by
  have hgset : (mc.set pIdx b).get? i = some s := by
    rw [List.get?_set_ne b mc (fun h => hne h.symm)]
    exact hget
  exact get_insert_pos (mc.set pIdx b) idx i x s hgset

/-- Grouped-queue cost bound, chunk recursion: processing the remaining
index-tagged suffix starting at group `k + 1` fits in the per-group
budgets.  The entry at queue offset `p` of chunk `k + 1` carries index
`tsum k + (c - 1 - p)`, so its slot-position bound plus its offset is
the constant `1 + 2·tsum k + c ≤ 2^(k+2) - 1`, giving `k + 2`
comparisons at most per element. -/
theorem makeGroupsAux_costSum (items : List (Nat × α)) (k : Nat)
    (hidx : ∀ (j : Nat) (hj : j < items.length),
      (items.get ⟨j, hj⟩).1 = tsum k + j) :
    WB (tsum k) + costSum (tsum k)
        ((makeGroupsAux items k).map (fun e => 2 + e.1)) ≤
      WB (tsum k + items.length) := by
  have ha2 : 2 ≤ a014113 (k + 1) := two_le_a014113 _ (by omega)
  have hlenle : (items.take (a014113 (k + 1))).length ≤ a014113 (k + 1) :=
    by simp [List.length_take]
  have hlenle2 : (items.take (a014113 (k + 1))).length ≤ items.length := by
    simp [List.length_take]
  have hchunkcost : costSum (tsum k)
      (((items.take (a014113 (k + 1))).reverse).map (fun e => 2 + e.1)) ≤
      (items.take (a014113 (k + 1))).length * (k + 2) := by
    have hres := costSum_le_of_bound
      (((items.take (a014113 (k + 1))).reverse).map (fun e => 2 + e.1))
      (tsum k) (k + 2) ?_
    · simpa using hres
    · intro p hp
      have hp2 : p < (items.take (a014113 (k + 1))).length := by
        simpa using hp
      have hqlen : (items.take (a014113 (k + 1))).length - 1 - p <
          items.length := by omega
      have hval : ((((items.take (a014113 (k + 1))).reverse).map
          (fun e => 2 + e.1)).get ⟨p, hp⟩) =
          2 + (tsum k +
            ((items.take (a014113 (k + 1))).length - 1 - p)) := by
        simp only [List.get_eq_getElem, List.getElem_map,
          List.getElem_reverse, List.getElem_take]
        have hfst := hidx ((items.take (a014113 (k + 1))).length - 1 - p)
          hqlen
        simp only [List.get_eq_getElem] at hfst
        rw [hfst]
      rw [hval]
      have ht3k := tsum_three k
      have ht3k1 := tsum_three (k + 1)
      have htk1 : tsum (k + 1) = tsum k + a014113 (k + 1) := rfl
      have hpow : (2 : Nat) ^ (k + 1 + 2) = 2 * 2 ^ (k + 2) := by ring
      have hxle : 2 + (tsum k +
          ((items.take (a014113 (k + 1))).length - 1 - p)) +
          (tsum k + p) ≤ 2 ^ (k + 2) - 1 := by omega
      have hlog : Nat.log 2 (2 + (tsum k +
          ((items.take (a014113 (k + 1))).length - 1 - p)) +
          (tsum k + p)) ≤ Nat.log 2 (2 ^ (k + 2) - 1) :=
        Nat.log_mono_right hxle
      have htop := log2_range_top k
      omega
  rw [makeGroupsAux]
  split
  next hshort =>
    have hlen : items.length < a014113 (k + 1) := by
      simp only [List.length_take] at hshort
      omega
    have htake : items.take (a014113 (k + 1)) = items :=
      List.take_of_length_le (by omega)
    rw [htake] at hchunkcost ⊢
    have hWB := WB_chunk items.length (tsum k) k rfl (by omega)
    omega
  next hfull =>
    have hlen : a014113 (k + 1) ≤ items.length := by
      simp only [List.length_take] at hfull
      omega
    have hclen : (items.take (a014113 (k + 1))).length = a014113 (k + 1)
      := by
      simp only [List.length_take]
      exact Nat.min_eq_left hlen
    rw [List.map_append, costSum_append]
    have hmaplen : (((items.take (a014113 (k + 1))).reverse).map
        (fun e => 2 + e.1)).length = a014113 (k + 1) := by
      simp only [List.length_map, List.length_reverse]
      exact hclen
    rw [hmaplen]
    have hidx2 : ∀ (j : Nat)
        (hj : j < (items.drop (a014113 (k + 1))).length),
        ((items.drop (a014113 (k + 1))).get ⟨j, hj⟩).1 = tsum (k + 1) + j
        := by
      intro j hj
      have hjlen : a014113 (k + 1) + j < items.length := by
        simp only [List.length_drop] at hj
        omega
      have hfst := hidx (a014113 (k + 1) + j) hjlen
      simp only [List.get_eq_getElem, List.getElem_drop]
      simp only [List.get_eq_getElem] at hfst
      rw [hfst]
      simp only [tsum]
      omega
    have hrec := makeGroupsAux_costSum (items.drop (a014113 (k + 1)))
      (k + 1) hidx2
    have hdroplen : (items.drop (a014113 (k + 1))).length =
        items.length - a014113 (k + 1) := by simp
    have htk1 : tsum (k + 1) = tsum k + a014113 (k + 1) := rfl
    have hWBfull : WB (tsum (k + 1)) =
        WB (tsum k) + a014113 (k + 1) * (k + 2) := by
      rw [htk1]
      exact WB_chunk _ _ _ rfl le_rfl
    have hargs : tsum (k + 1) + (items.drop (a014113 (k + 1))).length =
        tsum k + items.length := by
      rw [htk1, hdroplen]
      omega
    rw [hargs] at hrec
    rw [hclen] at hchunkcost
    rw [← htk1]
    omega
termination_by items.length
decreasing_by
  simp only [List.length_drop]
  omega

/-- Total insertion-phase budget of the grouped queue of a pending list:
bounding each queue entry by `log2 ((2 + index) + offset) + 1` fits in
`WB` of the pending count. -/
theorem makeGroups_costSum (P : List α) :
    costSum 0 ((makeGroups P).map (fun e => 2 + e.1)) ≤ WB P.length := by
  have hidx : ∀ (j : Nat) (hj : j < P.enum.length),
      ((P.enum).get ⟨j, hj⟩).1 = tsum 0 + j := by
    intro j hj
    simp only [List.get_eq_getElem, List.getElem_enum]
    simp [tsum]
  have h := makeGroupsAux_costSum P.enum 0 hidx
  rw [makeGroups]
  have h0 : tsum 0 = 0 := rfl
  have hWB0 : WB 0 = 0 := rfl
  rw [h0] at h
  simpa [hWB0] using h

/-- Comparison count of the insertion loop, for an arbitrary comparator.
`bnds` assigns every queued slot a bound on its current position in the
chain (for a pair slot: an occurrence index; for the leftover slot: the
chain length).  Since one insertion moves any remaining slot by at most
one position, the entry processed `j` steps later costs at most
`log2 (bound + j) + 1` comparisons. -/
theorem insertLoop_count (c : α → α → Bool) :
    ∀ (queue mc : List (Slot α)) (bnds : List Nat),
    (∀ s ∈ queue, s.2.isSome = true → s ∈ mc) →
    (mc.map Prod.fst ++ queue.map itemOf).Nodup →
    bnds.length = queue.length →
    (∀ (j : Nat) (hj : j < queue.length) (la sm : α),
      queue.get ⟨j, hj⟩ = (la, some sm) →
      ∃ i : Nat, mc.get? i = some (la, some sm) ∧ i ≤ bnds.getD j 0) →
    (∀ (j : Nat) (hj : j < queue.length) (z : α),
      queue.get ⟨j, hj⟩ = (z, none) → mc.length ≤ bnds.getD j 0) →
    ∃ (mcf : List (Slot α)) (tr : List (α × α)),
      insertLoop c queue mc = (.ok mcf, tr) ∧
      tr.length ≤ costSum 0 bnds
  | [], mc, bnds, _, _, hlen, _, _ => by
    have hb : bnds = [] := List.length_eq_zero.1 (by simpa using hlen)
    subst hb
    exact ⟨mc, [], rfl, by simp [costSum]⟩
  | (z, none) :: qrest, mc, bnds, hmem, hnd, hlen, hpairPos, hleftPos =>
    by
    rcases bnds with _ | ⟨b0, brest⟩
    · exact absurd hlen (by simp)
    have hblen : brest.length = qrest.length := by
      simp only [List.length_cons] at hlen
      omega
    have hitems : ((z, none) :: qrest).map itemOf =
        z :: qrest.map itemOf := by
      simp [itemOf]
    rw [hitems] at hnd
    have hndparts := List.nodup_append.1 hnd
    have hznm : z ∉ mc.map Prod.fst := fun hz =>
      hndparts.2.2 hz (List.mem_cons_self _ _)
    obtain ⟨idx, probes, heqB, hidx, _, _, _, _, hcnt⟩ :=
      binInsertIndex_spec (mc.map Prod.fst) z c hznm
    have hidxle : idx ≤ mc.length := by simpa using hidx
    have hb0 : mc.length ≤ b0 := by
      have h := hleftPos 0 (by simp) z rfl
      simpa using h
    have hmem2 : ∀ s ∈ qrest, s.2.isSome = true →
        s ∈ mc.insertIdx idx (z, none) := by
      intro s hs hsome
      have := hmem s (List.mem_cons.2 (Or.inr hs)) hsome
      exact (List.mem_insertIdx hidxle).2 (Or.inr this)
    have hmapins : (mc.insertIdx idx (z, none)).map Prod.fst =
        (mc.map Prod.fst).insertIdx idx z := mapInsertIdx _ _ _ _
    have hpermins : ((mc.insertIdx idx (z, none)).map Prod.fst).Perm
        (z :: mc.map Prod.fst) := by
      rw [hmapins]
      exact List.perm_insertIdx z _ (by simpa using hidxle)
    have hpermtot :
        ((mc.insertIdx idx (z, none)).map Prod.fst ++
          qrest.map itemOf).Perm
          (mc.map Prod.fst ++ z :: qrest.map itemOf) := by
      refine List.Perm.trans (List.Perm.append hpermins (List.Perm.refl _))
        ?_
      exact List.Perm.symm List.perm_middle
    have hnd2 : ((mc.insertIdx idx (z, none)).map Prod.fst ++
        qrest.map itemOf).Nodup :=
      (List.Perm.nodup_iff hpermtot).2 hnd
    have hinslen : (mc.insertIdx idx (z, none)).length = mc.length + 1 :=
      List.length_insertIdx _ _ hidxle
    have hlen2 : (brest.map (fun b => b + 1)).length = qrest.length := by
      simp only [List.length_map]
      exact hblen
    have hpairPos2 : ∀ (j : Nat) (hj : j < qrest.length) (la2 sm2 : α),
        qrest.get ⟨j, hj⟩ = (la2, some sm2) →
        ∃ i : Nat, (mc.insertIdx idx (z, none)).get? i =
          some (la2, some sm2) ∧
          i ≤ (brest.map (fun b => b + 1)).getD j 0 := by
      intro j hj la2 sm2 hq
      have hj1 : j + 1 < ((z, none) :: qrest).length := by
        simpa using Nat.succ_lt_succ hj
      have hq1 : ((z, none) :: qrest).get ⟨j + 1, hj1⟩ = (la2, some sm2)
        := by simpa using hq
      obtain ⟨i, hgi, hib⟩ := hpairPos (j + 1) hj1 la2 sm2 hq1
      obtain ⟨i2, hgi2, hi2le⟩ := get_insert_pos mc idx i (z, none) _ hgi
      refine ⟨i2, hgi2, ?_⟩
      have hjb : j < brest.length := by omega
      rw [getD_map_succ brest j hjb]
      have hgd : (b0 :: brest).getD (j + 1) 0 = brest.getD j 0 := rfl
      rw [hgd] at hib
      omega
    have hleftPos2 : ∀ (j : Nat) (hj : j < qrest.length) (z2 : α),
        qrest.get ⟨j, hj⟩ = (z2, none) →
        (mc.insertIdx idx (z, none)).length ≤
          (brest.map (fun b => b + 1)).getD j 0 := by
      intro j hj z2 hq
      have hj1 : j + 1 < ((z, none) :: qrest).length := by
        simpa using Nat.succ_lt_succ hj
      have hq1 : ((z, none) :: qrest).get ⟨j + 1, hj1⟩ = (z2, none) := by
        simpa using hq
      have h := hleftPos (j + 1) hj1 z2 hq1
      have hgd : (b0 :: brest).getD (j + 1) 0 = brest.getD j 0 := rfl
      rw [hgd] at h
      have hjb : j < brest.length := by omega
      rw [getD_map_succ brest j hjb, hinslen]
      omega
    obtain ⟨mcf, trR, heqR, hcntR⟩ := insertLoop_count c qrest
      (mc.insertIdx idx (z, none)) (brest.map (fun b => b + 1)) hmem2
      hnd2 hlen2 hpairPos2 hleftPos2
    refine ⟨mcf, probes.map (fun j => (z, (mc.map Prod.fst).getD j z)) ++
      trR, ?_, ?_⟩
    · simp only [insertLoop, heqB, heqR]
    · rw [List.length_append, List.length_map]
      have hc1 : probes.length ≤ Nat.log 2 (b0 + 0) + 1 := by
        refine le_trans hcnt ?_
        have hmono : Nat.log 2 (mc.map Prod.fst).length ≤
            Nat.log 2 (b0 + 0) :=
          Nat.log_mono_right (by simpa using hb0)
        omega
      have hshift := costSum_shift brest 0
      simp only [costSum]
      omega
  | (la, some sm) :: qrest, mc, bnds, hmem, hnd, hlen, hpairPos, hleftPos
    => by
    rcases bnds with _ | ⟨b0, brest⟩
    · exact absurd hlen (by simp)
    have hblen : brest.length = qrest.length := by
      simp only [List.length_cons] at hlen
      omega
    have hitems : ((la, some sm) :: qrest).map itemOf =
        sm :: qrest.map itemOf := by
      simp [itemOf]
    rw [hitems] at hnd
    have hndparts := List.nodup_append.1 hnd
    have hsq : sm ∉ qrest.map itemOf := (List.nodup_cons.1 hndparts.2.1).1
    have hsnm : sm ∉ mc.map Prod.fst := fun hz =>
      hndparts.2.2 hz (List.mem_cons_self _ _)
    have hslot : (la, some sm) ∈ mc :=
      hmem _ (List.mem_cons_self _ _) rfl
    obtain ⟨pairIdx, hpi, heqI, hgetI⟩ := identFind_spec mc (la, some sm)
      hslot
    have hlaval : (mc.map Prod.fst).get ⟨pairIdx, by simpa using hpi⟩ =
        la := by
      simp only [List.get_eq_getElem, List.getElem_map]
      have : mc[pairIdx] = (la, some sm) := by
        simpa [List.get_eq_getElem] using hgetI
      rw [this]
    have hprefTake : (mc.take pairIdx).map Prod.fst =
        (mc.map Prod.fst).take pairIdx := List.map_take _ _ _
    have hprefsub : ∀ v ∈ (mc.take pairIdx).map Prod.fst,
        v ∈ mc.map Prod.fst := by
      intro v hv
      rw [hprefTake] at hv
      exact List.mem_of_mem_take hv
    have hsnp : sm ∉ (mc.take pairIdx).map Prod.fst := fun hv =>
      hsnm (hprefsub _ hv)
    obtain ⟨idx, probes, heqB, hidx, _, _, _, _, hcnt⟩ :=
      binInsertIndex_spec ((mc.take pairIdx).map Prod.fst) sm c hsnp
    have hplen : ((mc.take pairIdx).map Prod.fst).length = pairIdx := by
      simp only [List.length_map, List.length_take]
      exact Nat.min_eq_left (le_of_lt hpi)
    have hidxle : idx ≤ mc.length := by
      rw [hplen] at hidx
      omega
    -- the processed slot sits within its position bound
    obtain ⟨i, hgi, hib⟩ := hpairPos 0 (by simp) la sm rfl
    obtain ⟨hilen, hgeti⟩ := List.get?_eq_some.1 hgi
    have hpieq : pairIdx = i := by
      have hlavali : (mc.map Prod.fst).get ⟨i, by simpa using hilen⟩ =
          la := by
        simp only [List.get_eq_getElem, List.getElem_map]
        have : mc[i] = (la, some sm) := by
          simpa [List.get_eq_getElem] using hgeti
        rw [this]
      have hfin := (List.Nodup.get_inj_iff hndparts.1).1
        (hlaval.trans hlavali.symm)
      simpa using congrArg Fin.val hfin
    have hb0 : pairIdx ≤ b0 := by
      rw [hpieq]
      simpa using hib
    have hslotne : ∀ s ∈ qrest, s ≠ (la, some sm) := by
      intro s hs hcon
      apply hsq
      rw [show sm = itemOf s by rw [hcon]; rfl]
      exact List.mem_map.2 ⟨s, hs, rfl⟩
    have hmapset : (mc.set pairIdx (la, none)).map Prod.fst =
        mc.map Prod.fst :=
      map_fst_set mc pairIdx la none hpi (by rw [hgetI])
    have hsetlen : (mc.set pairIdx (la, none)).length = mc.length := by
      simp
    have hmapins : (((mc.set pairIdx (la, none)).insertIdx idx
        (sm, none)).map Prod.fst) =
        (mc.map Prod.fst).insertIdx idx sm := by
      rw [mapInsertIdx, hmapset]
    have hpermins : ((((mc.set pairIdx (la, none)).insertIdx idx
        (sm, none))).map Prod.fst).Perm (sm :: mc.map Prod.fst) := by
      rw [hmapins]
      exact List.perm_insertIdx sm _ (by simpa using hidxle)
    have hpermtot :
        ((((mc.set pairIdx (la, none)).insertIdx idx
          (sm, none))).map Prod.fst ++ qrest.map itemOf).Perm
          (mc.map Prod.fst ++ sm :: qrest.map itemOf) := by
      refine List.Perm.trans (List.Perm.append hpermins (List.Perm.refl _))
        ?_
      exact List.Perm.symm List.perm_middle
    have hmem2 : ∀ s ∈ qrest, s.2.isSome = true →
        s ∈ (mc.set pairIdx (la, none)).insertIdx idx (sm, none) := by
      intro s hs hsome
      have h1 : s ∈ mc := hmem s (List.mem_cons.2 (Or.inr hs)) hsome
      have h2 : s ∈ mc.set pairIdx (la, none) := by
        refine mem_set_of_ne mc pairIdx (la, none) s h1 hpi ?_
        rw [hgetI]
        exact hslotne s hs
      exact (List.mem_insertIdx (by omega)).2 (Or.inr h2)
    have hnd2 : ((((mc.set pairIdx (la, none)).insertIdx idx
        (sm, none))).map Prod.fst ++ qrest.map itemOf).Nodup :=
      (List.Perm.nodup_iff hpermtot).2 hnd
    have hinslen : ((mc.set pairIdx (la, none)).insertIdx idx
        (sm, none)).length = mc.length + 1 := by
      rw [List.length_insertIdx _ _ (by omega)]
      omega
    have hlen2 : (brest.map (fun b => b + 1)).length = qrest.length := by
      simp only [List.length_map]
      exact hblen
    have hpairPos2 : ∀ (j : Nat) (hj : j < qrest.length) (la2 sm2 : α),
        qrest.get ⟨j, hj⟩ = (la2, some sm2) →
        ∃ i2 : Nat, ((mc.set pairIdx (la, none)).insertIdx idx
          (sm, none)).get? i2 = some (la2, some sm2) ∧
          i2 ≤ (brest.map (fun b => b + 1)).getD j 0 := by
      intro j hj la2 sm2 hq
      have hj1 : j + 1 < ((la, some sm) :: qrest).length := by
        simpa using Nat.succ_lt_succ hj
      have hq1 : ((la, some sm) :: qrest).get ⟨j + 1, hj1⟩ =
          (la2, some sm2) := by simpa using hq
      obtain ⟨i2, hgi2, hi2b⟩ := hpairPos (j + 1) hj1 la2 sm2 hq1
      have hmemq : (la2, some sm2) ∈ qrest := hq ▸ List.get_mem qrest j hj
      have hne2 := hslotne _ hmemq
      have hi2ne : i2 ≠ pairIdx := by
        intro hcon
        subst hcon
        have h1 : mc.get? i2 = some (la, some sm) := by
          rw [List.get?_eq_get hpi]
          rw [hgetI]
        rw [h1] at hgi2
        exact hne2 (Option.some_inj.1 hgi2).symm
      obtain ⟨i3, hgi3, hi3le⟩ := get_set_insert_pos mc pairIdx idx i2
        (la, none) (sm, none) _ hi2ne hgi2
      refine ⟨i3, hgi3, ?_⟩
      have hjb : j < brest.length := by omega
      rw [getD_map_succ brest j hjb]
      have hgd : (b0 :: brest).getD (j + 1) 0 = brest.getD j 0 := rfl
      rw [hgd] at hi2b
      omega
    have hleftPos2 : ∀ (j : Nat) (hj : j < qrest.length) (z2 : α),
        qrest.get ⟨j, hj⟩ = (z2, none) →
        ((mc.set pairIdx (la, none)).insertIdx idx (sm, none)).length ≤
          (brest.map (fun b => b + 1)).getD j 0 := by
      intro j hj z2 hq
      have hj1 : j + 1 < ((la, some sm) :: qrest).length := by
        simpa using Nat.succ_lt_succ hj
      have hq1 : ((la, some sm) :: qrest).get ⟨j + 1, hj1⟩ = (z2, none)
        := by simpa using hq
      have h := hleftPos (j + 1) hj1 z2 hq1
      have hgd : (b0 :: brest).getD (j + 1) 0 = brest.getD j 0 := rfl
      rw [hgd] at h
      have hjb : j < brest.length := by omega
      rw [getD_map_succ brest j hjb, hinslen]
      omega
    obtain ⟨mcf, trR, heqR, hcntR⟩ := insertLoop_count c qrest
      ((mc.set pairIdx (la, none)).insertIdx idx (sm, none))
      (brest.map (fun b => b + 1)) hmem2 hnd2 hlen2 hpairPos2 hleftPos2
    refine ⟨mcf,
      probes.map (fun j => (sm, ((mc.take pairIdx).map Prod.fst).getD j
        sm)) ++ trR, ?_, ?_⟩
    · simp only [insertLoop, heqI, heqB, heqR]
    · rw [List.length_append, List.length_map]
      have hc1 : probes.length ≤ Nat.log 2 (b0 + 0) + 1 := by
        refine le_trans hcnt ?_
        have hmono : Nat.log 2 ((mc.take pairIdx).map Prod.fst).length ≤
            Nat.log 2 (b0 + 0) := by
          refine Nat.log_mono_right ?_
          rw [hplen]
          omega
        omega
      have hshift := costSum_shift brest 0
      simp only [costSum]
      omega

/-- Driver comparison-count theorem, for an arbitrary comparator: on a
duplicate-free input of length `n` the sort issues at most `maxCmp n`
comparisons. -/
theorem sort_count (c : α → α → Bool) (l : List α) (hnd : l.Nodup) :
    ∃ (out : List α) (tr : List (α × α)),
      merge_insertion_sort c l = (.ok out, tr) ∧
      tr.length ≤ maxCmp l.length := by
  by_cases hl1 : l.length < 1
  · refine ⟨[], [], ?_, Nat.zero_le _⟩
    rw [merge_insertion_sort, dif_pos hl1]
  · by_cases hl2 : l.length = 1
    · refine ⟨l, [], ?_, Nat.zero_le _⟩
      rw [merge_insertion_sort, dif_neg hl1, dif_pos hl2]
    · have hl3 : ¬ (l.dedup.length ≠ l.length) := by
        rw [List.dedup_eq_self.2 hnd]
        simp
      by_cases hl4 : l.length = 2
      · rcases l with _ | ⟨x, _ | ⟨y, rest⟩⟩
        · simp at hl4
        · simp at hl4
        · have hr : rest = [] := by
            simp only [List.length_cons] at hl4
            exact List.length_eq_zero.1 (by omega)
          subst hr
          refine ⟨if c x y then [x, y] else [y, x], [(x, y)], ?_, ?_⟩
          · rw [merge_insertion_sort, dif_neg hl1, dif_neg hl2,
              dif_neg hl3, dif_pos hl4]
            cases hc : c x y <;> simp [hc]
          · rw [show ([x, y] : List α).length = 2 from rfl, maxCmp]
            norm_num
      · -- general case: at least 3 elements
        have hlen3 : 3 ≤ l.length := by omega
        have hperm0 := mkPairs_perm c l
        have hbignd : ((mkPairs c l).1.map Prod.fst ++
            ((mkPairs c l).1.map Prod.snd ++
              (if l.length % 2 = 1 then l.getLast?.toList else []))).Nodup :=
          (List.Perm.nodup_iff hperm0).2 hnd
        have hp1 := List.nodup_append.1 hbignd
        have hkeysnd : ((mkPairs c l).1.map Prod.fst).Nodup := hp1.1
        obtain ⟨larger, tr2, heq2, hperm2, hnd2, hshape2⟩ :=
          sort_spec c ((mkPairs c l).1.map Prod.fst) hkeysnd
        obtain ⟨out2, tr2b, heq2b, hcnt2⟩ :=
          sort_count c ((mkPairs c l).1.map Prod.fst) hkeysnd
        have hmatch := heq2.symm.trans heq2b
        have htr2 : tr2 = tr2b := by
          have h1 := congrArg Prod.snd hmatch
          simpa using h1
        have hcnt2b : tr2.length ≤ maxCmp (l.length / 2) := by
          rw [htr2]
          have hkl : ((mkPairs c l).1.map Prod.fst).length = l.length / 2
            := by simpa using mkPairs_fst_length c l
          rw [hkl] at hcnt2
          exact hcnt2
        have hlarglen : larger.length = l.length / 2 := by
          rw [hperm2.length_eq]
          simpa using mkPairs_fst_length c l
        rcases larger with _ | ⟨l0, lrest⟩
        · exfalso
          simp only [List.length_nil] at hlarglen
          omega
        have hlmem : ∀ la ∈ l0 :: lrest,
            la ∈ (mkPairs c l).1.map Prod.fst :=
          fun la hla => hperm2.mem_iff.1 hla
        have hd0 := dictGet_ok (mkPairs c l).1 l0
          (hlmem l0 (List.mem_cons_self _ _))
        have hmapM := mapM_chainTail (mkPairs c l).1 lrest
          (fun la hla => hlmem la (List.mem_cons.2 (Or.inr hla)))
        have hCTfst : (lrest.map (fun la =>
            (la, some (partnerD (mkPairs c l).1 la)))).map Prod.fst =
            lrest := by
          rw [List.map_map]
          rw [show (Prod.fst ∘ fun la =>
            (la, some (partnerD (mkPairs c l).1 la))) = id from rfl]
          exact List.map_id _
        have hCTitem : (lrest.map (fun la =>
            (la, some (partnerD (mkPairs c l).1 la)))).map itemOf =
            lrest.map (partnerD (mkPairs c l).1) := by
          rw [List.map_map]
          rfl
        have hLOSitem : ((if l.length % 2 = 1 then leftoverSlot l
            else []) : List (Slot α)).map itemOf =
            (if l.length % 2 = 1 then l.getLast?.toList else []) := by
          split
          · exact leftoverSlot_map_itemOf l
          · rfl
        have hmapeq : ((mkPairs c l).1.map Prod.fst).map
            (partnerD (mkPairs c l).1) = (mkPairs c l).1.map Prod.snd := by
          rw [List.map_map]
          apply List.map_congr_left
          intro pr hpr
          exact partnerD_entry (mkPairs c l).1 hkeysnd pr.1 pr.2 hpr
        have hsndperm : ((l0 :: lrest).map
            (partnerD (mkPairs c l).1)).Perm
            ((mkPairs c l).1.map Prod.snd) := by
          rw [← hmapeq]
          exact hperm2.map _
        have hchainheads :
            (((partnerD (mkPairs c l).1 l0, none) :: (l0, none) ::
              lrest.map (fun la =>
                (la, some (partnerD (mkPairs c l).1 la)))).map
                  (Prod.fst : Slot α → α)) =
            partnerD (mkPairs c l).1 l0 :: l0 :: lrest := by
          simp only [List.map_cons, hCTfst]
        have hqperm : (((makeGroups
            ((lrest.map (fun la =>
              (la, some (partnerD (mkPairs c l).1 la)))) ++
              (if l.length % 2 = 1 then leftoverSlot l else []))).map
              Prod.snd)).Perm
            ((lrest.map (fun la =>
              (la, some (partnerD (mkPairs c l).1 la)))) ++
              (if l.length % 2 = 1 then leftoverSlot l else [])) := by
          have h := (makeGroups_perm ((lrest.map (fun la =>
            (la, some (partnerD (mkPairs c l).1 la)))) ++
            (if l.length % 2 = 1 then leftoverSlot l else []))).map Prod.snd
          rwa [List.enum_map_snd] at h
        have hqitems : ((((makeGroups
            ((lrest.map (fun la =>
              (la, some (partnerD (mkPairs c l).1 la)))) ++
              (if l.length % 2 = 1 then leftoverSlot l else []))).map
              Prod.snd)).map itemOf).Perm
            (lrest.map (partnerD (mkPairs c l).1) ++
              (if l.length % 2 = 1 then l.getLast?.toList else [])) := by
          refine (hqperm.map itemOf).trans ?_
          rw [List.map_append, hCTitem, hLOSitem]
        have hbigperm :
            ((partnerD (mkPairs c l).1 l0 :: l0 :: lrest) ++
              (lrest.map (partnerD (mkPairs c l).1) ++
                (if l.length % 2 = 1 then l.getLast?.toList else []))).Perm
            l := by
          refine List.Perm.trans ?_ hperm0
          have s1 : ((partnerD (mkPairs c l).1 l0 :: l0 :: lrest) ++
              (lrest.map (partnerD (mkPairs c l).1) ++
                (if l.length % 2 = 1 then l.getLast?.toList else []))).Perm
              ((l0 :: lrest) ++ ((partnerD (mkPairs c l).1 l0 ::
                lrest.map (partnerD (mkPairs c l).1)) ++
                (if l.length % 2 = 1 then l.getLast?.toList else []))) := by
            refine List.Perm.trans ?_ (@List.perm_middle α
              (partnerD (mkPairs c l).1 l0) (l0 :: lrest)
              (lrest.map (partnerD (mkPairs c l).1) ++
                (if l.length % 2 = 1 then l.getLast?.toList else []))).symm
            exact List.Perm.refl _
          refine s1.trans ?_
          refine List.Perm.append hperm2 ?_
          exact List.Perm.append_right _ hsndperm
        have hmemQ : ∀ s ∈ ((makeGroups
            ((lrest.map (fun la =>
              (la, some (partnerD (mkPairs c l).1 la)))) ++
              (if l.length % 2 = 1 then leftoverSlot l else []))).map
              Prod.snd), s.2.isSome = true →
            s ∈ ((partnerD (mkPairs c l).1 l0, none) :: (l0, none) ::
              lrest.map (fun la =>
                (la, some (partnerD (mkPairs c l).1 la)))) := by
          intro s hs hsome
          have hpend := hqperm.mem_iff.1 hs
          rcases List.mem_append.1 hpend with h | h
          · exact List.mem_cons.2 (Or.inr (List.mem_cons.2 (Or.inr h)))
          · exfalso
            revert h
            split
            · intro h
              rcases hgl : l.getLast? with _ | z
              · simp only [leftoverSlot, hgl] at h
                exact absurd h (List.not_mem_nil s)
              · simp only [leftoverSlot, hgl] at h
                rcases List.mem_cons.1 h with h | h
                · rw [h] at hsome
                  simp at hsome
                · exact absurd h (List.not_mem_nil s)
            · intro h
              exact absurd h (List.not_mem_nil s)
        have hndQ : ((((partnerD (mkPairs c l).1 l0, none) :: (l0, none) ::
            lrest.map (fun la =>
              (la, some (partnerD (mkPairs c l).1 la)))).map Prod.fst) ++
            (((makeGroups
              ((lrest.map (fun la =>
                (la, some (partnerD (mkPairs c l).1 la)))) ++
                (if l.length % 2 = 1 then leftoverSlot l else []))).map
                Prod.snd)).map itemOf).Nodup := by
          rw [hchainheads]
          have hq2p := List.Perm.append
            (List.Perm.refl (partnerD (mkPairs c l).1 l0 :: l0 :: lrest))
            hqitems
          exact (List.Perm.nodup_iff (hq2p.trans hbigperm)).2 hnd
        -- position bookkeeping for the counting lemma
        have hctlen : (lrest.map (fun la =>
            (la, some (partnerD (mkPairs c l).1 la)))).length =
            lrest.length := by simp
        have hmglen : ((makeGroups
            ((lrest.map (fun la =>
              (la, some (partnerD (mkPairs c l).1 la)))) ++
              (if l.length % 2 = 1 then leftoverSlot l else []))).map
              Prod.snd).length =
            (makeGroups
            ((lrest.map (fun la =>
              (la, some (partnerD (mkPairs c l).1 la)))) ++
              (if l.length % 2 = 1 then leftoverSlot l else []))).length
          := by simp
        have hlenB : ((makeGroups
            ((lrest.map (fun la =>
              (la, some (partnerD (mkPairs c l).1 la)))) ++
              (if l.length % 2 = 1 then leftoverSlot l else []))).map
              (fun e => 2 + e.1)).length =
            ((makeGroups
            ((lrest.map (fun la =>
              (la, some (partnerD (mkPairs c l).1 la)))) ++
              (if l.length % 2 = 1 then leftoverSlot l else []))).map
              Prod.snd).length := by simp
        have hbndval : ∀ (j : Nat)
            (hj : j < (makeGroups
              ((lrest.map (fun la =>
                (la, some (partnerD (mkPairs c l).1 la)))) ++
                (if l.length % 2 = 1 then leftoverSlot l else []))).length),
            ((makeGroups
              ((lrest.map (fun la =>
                (la, some (partnerD (mkPairs c l).1 la)))) ++
                (if l.length % 2 = 1 then leftoverSlot l else []))).map
                (fun e => 2 + e.1)).getD j 0 =
            2 + ((makeGroups
              ((lrest.map (fun la =>
                (la, some (partnerD (mkPairs c l).1 la)))) ++
                (if l.length % 2 = 1 then leftoverSlot l else []))).get
                  ⟨j, hj⟩).1 := by
          intro j hj
          rw [List.getD_eq_get _ _ (by simpa using hj)]
          simp [List.get_eq_getElem]
        have hpendmem : ∀ (j : Nat)
            (hj : j < (makeGroups
              ((lrest.map (fun la =>
                (la, some (partnerD (mkPairs c l).1 la)))) ++
                (if l.length % 2 = 1 then leftoverSlot l else []))).length),
            ((lrest.map (fun la =>
              (la, some (partnerD (mkPairs c l).1 la)))) ++
              (if l.length % 2 = 1 then leftoverSlot l else []))[
                ((makeGroups
              ((lrest.map (fun la =>
                (la, some (partnerD (mkPairs c l).1 la)))) ++
                (if l.length % 2 = 1 then leftoverSlot l else []))).get
                  ⟨j, hj⟩).1]? =
              some ((makeGroups
              ((lrest.map (fun la =>
                (la, some (partnerD (mkPairs c l).1 la)))) ++
                (if l.length % 2 = 1 then leftoverSlot l else []))).get
                  ⟨j, hj⟩).2 := by
          intro j hj
          have hmemE := List.get_mem _ j hj
          have hE := (makeGroups_perm _).mem_iff.1 hmemE
          exact List.mk_mem_enum_iff_getElem?.1 (by
            rcases hget : (makeGroups
              ((lrest.map (fun la =>
                (la, some (partnerD (mkPairs c l).1 la)))) ++
                (if l.length % 2 = 1 then leftoverSlot l else []))).get
                  ⟨j, hj⟩ with ⟨i0, x0⟩
            rw [hget] at hE
            simpa using hE)
        have hpairPosQ : ∀ (j : Nat)
            (hj : j < ((makeGroups
              ((lrest.map (fun la =>
              (la, some (partnerD (mkPairs c l).1 la)))) ++
              (if l.length % 2 = 1 then leftoverSlot l else []))).map
              Prod.snd).length) (la2 sm2 : α),
            ((makeGroups
              ((lrest.map (fun la =>
              (la, some (partnerD (mkPairs c l).1 la)))) ++
              (if l.length % 2 = 1 then leftoverSlot l else []))).map
              Prod.snd).get ⟨j, hj⟩ = (la2, some sm2) →
            ∃ i : Nat, ((partnerD (mkPairs c l).1 l0, none) ::
              (l0, none) :: lrest.map (fun la =>
                (la, some (partnerD (mkPairs c l).1 la)))).get? i =
              some (la2, some sm2) ∧
              i ≤ ((makeGroups
                ((lrest.map (fun la =>
              (la, some (partnerD (mkPairs c l).1 la)))) ++
              (if l.length % 2 = 1 then leftoverSlot l else []))).map
                (fun e => 2 + e.1)).getD j 0 := by
          intro j hj la2 sm2 hq
          have hj2 : j < (makeGroups
              ((lrest.map (fun la =>
                (la, some (partnerD (mkPairs c l).1 la)))) ++
                (if l.length % 2 = 1 then leftoverSlot l else []))).length
            := by simpa using hj
          have hqval : ((makeGroups
              ((lrest.map (fun la =>
                (la, some (partnerD (mkPairs c l).1 la)))) ++
                (if l.length % 2 = 1 then leftoverSlot l else []))).get
              ⟨j, hj2⟩).2 = (la2, some sm2) := by
            have := hq
            simp only [List.get_eq_getElem, List.getElem_map] at this
            simpa using this
          have hpm := hpendmem j hj2
          rw [hqval] at hpm
          have hbnd := hbndval j hj2
          set i0 := ((makeGroups
              ((lrest.map (fun la =>
                (la, some (partnerD (mkPairs c l).1 la)))) ++
                (if l.length % 2 = 1 then leftoverSlot l else []))).get
                  ⟨j, hj2⟩).1 with hi0def
          -- the pair slot must come from the chain tail
          have hi0lt : i0 < lrest.length := by
            by_contra hcon
            have hge : (lrest.map (fun la =>
                (la, some (partnerD (mkPairs c l).1 la)))).length ≤ i0 := by
              rw [hctlen]
              omega
            rw [List.getElem?_append_right hge] at hpm
            revert hpm
            split
            · rcases hgl : l.getLast? with _ | z
              · simp [leftoverSlot, hgl]
              · simp only [leftoverSlot, hgl]
                intro hpm
                rcases hi : i0 - (lrest.map (fun la =>
                    (la, some (partnerD (mkPairs c l).1 la)))).length
                  with _ | k
                · rw [hi] at hpm
                  simp at hpm
                · rw [hi] at hpm
                  simp at hpm
            · intro hpm
              simp at hpm
          have hi0ct : i0 < (lrest.map (fun la =>
              (la, some (partnerD (mkPairs c l).1 la)))).length := by
            rw [hctlen]
            exact hi0lt
          rw [List.getElem?_append, if_pos hi0ct] at hpm
          rw [List.getElem?_eq_getElem hi0ct] at hpm
          have hctval : (lrest.map (fun la =>
              (la, some (partnerD (mkPairs c l).1 la))))[i0] =
              (la2, some sm2) := Option.some_inj.1 hpm
          refine ⟨2 + i0, ?_, by rw [hbnd]⟩
          rw [show 2 + i0 = i0 + 1 + 1 by omega]
          rw [List.get?_cons_succ, List.get?_cons_succ,
            List.get?_eq_getElem?, List.getElem?_eq_getElem hi0ct, hctval]
        have hleftPosQ : ∀ (j : Nat)
            (hj : j < ((makeGroups
              ((lrest.map (fun la =>
              (la, some (partnerD (mkPairs c l).1 la)))) ++
              (if l.length % 2 = 1 then leftoverSlot l else []))).map
              Prod.snd).length) (z2 : α),
            ((makeGroups
              ((lrest.map (fun la =>
              (la, some (partnerD (mkPairs c l).1 la)))) ++
              (if l.length % 2 = 1 then leftoverSlot l else []))).map
              Prod.snd).get ⟨j, hj⟩ = (z2, none) →
            ((partnerD (mkPairs c l).1 l0, none) ::
              (l0, none) :: lrest.map (fun la =>
                (la, some (partnerD (mkPairs c l).1 la)))).length ≤
              ((makeGroups
                ((lrest.map (fun la =>
              (la, some (partnerD (mkPairs c l).1 la)))) ++
              (if l.length % 2 = 1 then leftoverSlot l else []))).map
                (fun e => 2 + e.1)).getD j 0 := by
          intro j hj z2 hq
          have hj2 : j < (makeGroups
              ((lrest.map (fun la =>
                (la, some (partnerD (mkPairs c l).1 la)))) ++
                (if l.length % 2 = 1 then leftoverSlot l else []))).length
            := by simpa using hj
          have hqval : ((makeGroups
              ((lrest.map (fun la =>
                (la, some (partnerD (mkPairs c l).1 la)))) ++
                (if l.length % 2 = 1 then leftoverSlot l else []))).get
              ⟨j, hj2⟩).2 = (z2, none) := by
            have := hq
            simp only [List.get_eq_getElem, List.getElem_map] at this
            simpa using this
          have hpm := hpendmem j hj2
          rw [hqval] at hpm
          have hbnd := hbndval j hj2
          set i0 := ((makeGroups
              ((lrest.map (fun la =>
                (la, some (partnerD (mkPairs c l).1 la)))) ++
                (if l.length % 2 = 1 then leftoverSlot l else []))).get
                  ⟨j, hj2⟩).1 with hi0def
          -- a none-shaped slot cannot come from the chain tail
          have hi0ge : lrest.length ≤ i0 := by
            by_contra hcon
            have hi0ct : i0 < (lrest.map (fun la =>
                (la, some (partnerD (mkPairs c l).1 la)))).length := by
              rw [hctlen]
              omega
            rw [List.getElem?_append, if_pos hi0ct] at hpm
            rw [List.getElem?_eq_getElem hi0ct] at hpm
            have := Option.some_inj.1 hpm
            simp at this
          rw [hbnd]
          simp only [List.length_cons, hctlen]
          omega
        obtain ⟨mcf, tr3, heq3, hcnt3⟩ := insertLoop_count c
          ((makeGroups
            ((lrest.map (fun la =>
              (la, some (partnerD (mkPairs c l).1 la)))) ++
              (if l.length % 2 = 1 then leftoverSlot l else []))).map
              Prod.snd)
          ((partnerD (mkPairs c l).1 l0, none) :: (l0, none) ::
            lrest.map (fun la =>
              (la, some (partnerD (mkPairs c l).1 la))))
          ((makeGroups
            ((lrest.map (fun la =>
              (la, some (partnerD (mkPairs c l).1 la)))) ++
              (if l.length % 2 = 1 then leftoverSlot l else []))).map
              (fun e => 2 + e.1))
          hmemQ hndQ (by rw [hlenB]) hpairPosQ hleftPosQ
        refine ⟨mcf.map Prod.fst, ((mkPairs c l).2 ++ tr2) ++ tr3, ?_, ?_⟩
        · rw [merge_insertion_sort, dif_neg hl1, dif_neg hl2,
            dif_neg hl3, dif_neg hl4]
          simp only [heq2, hd0.1, hmapM, List.append_assoc]
          rw [show List.drop 2 ((partnerD (mkPairs c l).1 l0, none) ::
            (l0, none) :: lrest.map (fun la =>
              (la, some (partnerD (mkPairs c l).1 la)))) =
            lrest.map (fun la =>
              (la, some (partnerD (mkPairs c l).1 la))) from rfl]
          rw [heq3]
        · -- counting
          have hc1 : (mkPairs c l).2.length = l.length / 2 :=
            mkPairs_snd_length c l
          have hc3 : tr3.length ≤ WB ((lrest.map (fun la =>
              (la, some (partnerD (mkPairs c l).1 la)))) ++
              (if l.length % 2 = 1 then leftoverSlot l else [])).length
            := le_trans hcnt3 (makeGroups_costSum _)
          have hlr : lrest.length = l.length / 2 - 1 := by
            simp only [List.length_cons] at hlarglen
            omega
          have hpendlen : ((lrest.map (fun la =>
              (la, some (partnerD (mkPairs c l).1 la)))) ++
              (if l.length % 2 = 1 then leftoverSlot l else [])).length =
              (l.length - 1) / 2 := by
            rw [List.length_append, hctlen]
            rcases Nat.mod_two_eq_zero_or_one l.length with hp | hp
            · rw [if_neg (by omega)]
              simp only [List.length_nil]
              omega
            · rw [if_pos hp]
              have hne : l ≠ [] := by
                intro hcon
                rw [hcon] at hlen3
                simp at hlen3
              obtain ⟨z, hz⟩ := Option.isSome_iff_exists.1
                (List.getLast?_isSome.2 hne)
              rw [leftoverSlot, hz]
              simp only [List.length_singleton]
              omega
          rw [hpendlen] at hc3
          have hmax : maxCmp l.length = l.length / 2 +
              maxCmp (l.length / 2) + WB ((l.length - 1) / 2) := by
            rw [maxCmp, dif_neg (by omega), dif_neg (by omega)]
          simp only [List.length_append]
          omega
termination_by l.length
decreasing_by
  have hlen := mkPairs_fst_length c l
  simp only [List.length_map, hlen]
  omega

/-- C1: on a duplicate-free input under the order comparator of a
linear order, `merge_insertion_sort` returns an ascending permutation of
the input, and the number of comparator invocations (the trace length,
recursive calls included) is at most `merge_insertion_max_comparisons`
of the input length. -/
theorem c1_sort_correct_and_bounded {β : Type} [LinearOrder β]
    [DecidableEq β] (l : List β) (hnd : l.Nodup) :
    ∃ (out : List β) (tr : List (β × β)) (bound : Int),
      merge_insertion_sort (fun a b => decide (a < b)) l = (.ok out, tr) ∧
      out.Perm l ∧
      out.Sorted (· < ·) ∧
      merge_insertion_max_comparisons (l.length : Int) = .ok bound ∧
      (tr.length : Int) ≤ bound := by
  obtain ⟨out, tr, heq, hperm, _, _⟩ :=
    sort_spec (fun a b => decide (a < b)) l hnd
  obtain ⟨out2, tr2, heq2, hsort⟩ := sort_sorted l hnd
  obtain ⟨out3, tr3, heq3, hcnt⟩ :=
    sort_count (fun a b => decide (a < b)) l hnd
  have hm2 := heq.symm.trans heq2
  have hm3 := heq.symm.trans heq3
  have hout2 : out = out2 := by simpa using congrArg Prod.fst hm2
  have htr3 : tr = tr3 := by simpa using congrArg Prod.snd hm3
  refine ⟨out, tr, (sumW l.length : Int), heq, hperm, ?_, ?_, ?_⟩
  · rw [hout2]
    exact hsort
  · exact max_comparisons_eq_sumW l.length
  · have h1 : tr.length ≤ maxCmp l.length := by
      rw [htr3]
      exact hcnt
    have h2 := maxCmp_le_sumW l.length
    exact_mod_cast le_trans h1 h2

/-- C1 witness: sorting `[2, 1, 3]` over `ℤ` stays within the bound. -/
theorem c1_sort_correct_and_bounded_witness :
    ∃ (out : List Int) (tr : List (Int × Int)) (bound : Int),
      merge_insertion_sort (fun a b => decide (a < b)) [2, 1, 3] =
        (.ok out, tr) ∧
      out.Perm [2, 1, 3] ∧
      out.Sorted (· < ·) ∧
      merge_insertion_max_comparisons
        ((([2, 1, 3] : List Int).length : Int)) = .ok bound ∧
      (tr.length : Int) ≤ bound :=
  c1_sort_correct_and_bounded [2, 1, 3] (by decide)

end MergeInsertion
